import Mathlib

/-!
# miloR: pseudo-likelihood GLMM estimation engine

A shallow embedding of the C++ sources `invertPseudoVar.cpp`, `paramEst.cpp`,
`inference.cpp` and `fitGeneticPLGlmm.cpp` of miloR, with theorems about the
estimation engine.

Modelling conventions.

* `double` is modelled by an arbitrary field `K` (exact arithmetic); every
  definition is computable and can be run at `K = ℚ`.
* An `arma::mat` whose sizes are fixed by the call is a `Matrix (Fin r) (Fin c) K`,
  an `arma::vec` of fixed size is a function `Fin r → K`.  Where the source checks
  sizes at run time (`inference.cpp`), matrices are the run-time sized `DMat`
  and vectors are lists.
* A C++ exception (Armadillo run-time error, `Rcpp::stop`) is `Except.error`
  carrying the message.
* `arma::rcond` (a LAPACK estimate) and `arma::pinv` are library routines with no
  exact counterpart; they are parameters of the functions that call them.
* Storage that the source leaves uninitialised (`arma::mat sinfo(c, c)`) is a
  parameter giving its initial contents.
* Sizes and loop counters held in `int` variables are natural numbers or integers
  without wrap-around.  Division is the division of the field, so `x / 0 = 0`
  where a `double` would give an infinity or a NaN.
* The two OpenMP sections of `invertPseudoVar` work on the arrays `ZB` and `mid`
  that they share.  The model `invertPseudoVarSched` of the function takes the
  schedule as an argument: the first section before the second (program order, the
  only order of a build without OpenMP) or the second before the first.
* The driver `fitGeneticPLGlmm` is a state machine: `FitState` holds the variables
  that live across iterations, `iteration` is one pass through the loop body, and
  `whileLoop` runs it under a bound on the number of passes.  The routines it calls
  that are defined in other files of the package are the fields of the structure
  `Collab`, arbitrary functions of the stated types.
* Accesses that the libraries check at run time (the R list accessor `conv_list(i)`,
  the sizes of the operands of an Armadillo subtraction, `tail`) return an error
  when the check fails; the message of the model names the failed check.
-/

namespace MiloR

open Matrix

variable {K : Type} [Field K]

set_option linter.unusedSectionVars false

/-! ## Armadillo primitives -/

/-- The inverse of a non-singular square matrix by Cramer's rule, computable. -/
def invMat {n : ℕ} (M : Matrix (Fin n) (Fin n) K) : Matrix (Fin n) (Fin n) K :=
  (M.det)⁻¹ • M.adjugate

/-- Source function `arma::inv(M)` and `M.i()` on a square matrix: its inverse, a run-time
error when the matrix is singular. -/
def inv [DecidableEq K] {n : ℕ} (M : Matrix (Fin n) (Fin n) K) :
    Except String (Matrix (Fin n) (Fin n) K) :=
  if M.det = 0 then .error "inv(): matrix is singular"
  else .ok (invMat M)

/-! ## invertPseudoVar.cpp -/

/-- Second parallel section of `invertPseudoVar`: `mid = eye(c, c) + ZtA * ZB`,
reading the buffer `ZB`. -/
def midSection {n c : ℕ} (ZtA : Matrix (Fin c) (Fin n) K) (ZB : Matrix (Fin n) (Fin c) K) :
    Matrix (Fin c) (Fin c) K :=
  1 + ZtA * ZB

/-! ## paramEst.cpp

An `Rcpp::List` of `c` matrices is a family `Fin c → Matrix (Fin n) (Fin n) K`;
`pvstar_i(i)` is application.  A `for` loop over `0 ≤ i < c` is a left fold over
`List.finRange c`, the loop `for (j = i; j < c; j++)` a left fold over the indices
`j` of `List.finRange c` with `i ≤ j`. -/

/-- The write `M(i, j) = v` into a matrix. -/
def setEntry {r c : ℕ} (M : Matrix (Fin r) (Fin c) K) (i : Fin r) (j : Fin c) (v : K) :
    Matrix (Fin r) (Fin c) K :=
  fun a b => if a = i ∧ b = j then v else M a b

/-- The write `v[i] = x` into a vector. -/
def setElem {c : ℕ} (v : Fin c → K) (i : Fin c) (x : K) : Fin c → K :=
  fun a => if a = i then x else v a

/-- Source function `sigmaScoreREML_arma(pvstar_i, ystar, P)`; `reml_score0` is the initial contents
of `arma::vec reml_score(c)`. -/
def sigmaScoreREML_arma {c n : ℕ} (reml_score0 : Fin c → K)
    (pvstar_i : Fin c → Matrix (Fin n) (Fin n) K) (ystar : Fin n → K)
    (P : Matrix (Fin n) (Fin n) K) : Fin c → K :=
  (List.finRange c).foldl (fun reml_score i =>
    let _pvi := pvstar_i i
    let P_pvi := P * _pvi
    let lhs := -0.5 * Matrix.trace P_pvi
    let mid1 := Matrix.vecMul (Matrix.vecMul (Matrix.vecMul ystar P) _pvi) P ⬝ᵥ ystar
    let rhs := 0.5 * mid1
    setElem reml_score i (lhs + rhs)) reml_score0

/-- Source function `sigmaInfoREML_arma(pvstari, P)`; `sinfo0` is the initial contents of
`arma::mat sinfo(c, c)`. -/
def sigmaInfoREML_arma {c n : ℕ} (sinfo0 : Matrix (Fin c) (Fin c) K)
    (pvstari : Fin c → Matrix (Fin n) (Fin n) K) (P : Matrix (Fin n) (Fin n) K) :
    Matrix (Fin c) (Fin c) K :=
  (List.finRange c).foldl (fun sinfo i =>
    let _ip := pvstari i
    let _ipP := _ip * P
    ((List.finRange c).filter (fun j => i ≤ j)).foldl (fun sinfo j =>
      let _jp := pvstari j
      let a_ij := P * _ipP * _jp
      let _artr := Matrix.trace a_ij
      let sinfo1 := setEntry sinfo i j (0.5 * _artr)
      if i ≠ j then setEntry sinfo1 j i (0.5 * _artr) else sinfo1) sinfo) sinfo0

/-- Source function `sigmaScore(ystar, beta, X, V_partial, V_star_inv)`; `score0` is the initial
contents of `arma::vec score(c)`. -/
def sigmaScore {c n m : ℕ} (score0 : Fin c → K) (ystar : Fin n → K) (beta : Fin m → K)
    (X : Matrix (Fin n) (Fin m) K) ( V_partial : Fin c → Matrix (Fin n) (Fin n) K)
    (V_star_inv : Matrix (Fin n) (Fin n) K) : Fin c → K :=
  let ystarminx := ystar - Matrix.mulVec X beta
  (List.finRange c).foldl (fun score i =>
    let _ip := V_partial i
    let lhs := -0.5 * Matrix.trace (V_star_inv * _ip)
    let rhs_mat :=
      Matrix.vecMul (Matrix.vecMul (Matrix.vecMul ystarminx V_star_inv) _ip) V_star_inv
        ⬝ᵥ ystarminx
    setElem score i (lhs + 0.5 * rhs_mat)) score0

/-- Source function `sigmaInformation(V_star_inv, V_partial)`; `sinfo` starts as `arma::zeros(c, c)`. -/
def sigmaInformation {c n : ℕ} (V_star_inv : Matrix (Fin n) (Fin n) K)
    ( V_partial : Fin c → Matrix (Fin n) (Fin n) K) : Matrix (Fin c) (Fin c) K :=
  (List.finRange c).foldl (fun sinfo i =>
    let _ip := V_partial i
    (List.finRange c).foldl (fun sinfo j =>
      let _jp := V_partial j
      let _inmat := V_star_inv * _ip * V_star_inv * _jp
      let _tr := 0.5 * Matrix.trace _inmat
      setEntry sinfo i j _tr) sinfo) 0

/-- Source function `FisherScore(hess, score_vec, theta_hat)`. -/
def FisherScore [DecidableEq K] {c : ℕ} (hess : Matrix (Fin c) (Fin c) K)
    (score_vec theta_hat : Fin c → K) : Except String (Fin c → K) :=
  match inv hess with
  | .error e => .error e
  | .ok hessinv => .ok (theta_hat + Matrix.mulVec hessinv score_vec)

/-- Source function `arma::join_rows(A, B)`: glue columns together. -/
def join_rows {r p q : ℕ} (A : Matrix (Fin r) (Fin p) K) (B : Matrix (Fin r) (Fin q) K) :
    Matrix (Fin r) (Fin (p + q)) K :=
  fun i => Fin.append (A i) (B i)

/-- Source function `arma::join_cols(A, B)`: glue rows together. -/
def join_cols {p q r : ℕ} (A : Matrix (Fin p) (Fin r) K) (B : Matrix (Fin q) (Fin r) K) :
    Matrix (Fin (p + q)) (Fin r) K :=
  Fin.append A B

/-- Source function `coeffMatrix(X, Winv, Z, Ginv)`. -/
def coeffMatrix {n m c : ℕ} (X : Matrix (Fin n) (Fin m) K) (Winv : Matrix (Fin n) (Fin n) K)
    (Z : Matrix (Fin n) (Fin c) K) (Ginv : Matrix (Fin c) (Fin c) K) :
    Matrix (Fin (m + c)) (Fin (m + c)) K :=
  let ul := Xᵀ * Winv * X
  let ur := Xᵀ * Winv * Z
  let ll := Zᵀ * Winv * X
  let lr := (Zᵀ * Winv * Z) + Ginv
  let lhs_top := join_rows ul ur
  let lhs_bot := join_rows ll lr
  join_cols lhs_top lhs_bot

/-- Source function `solve_equations(c, m, Winv, Zt, Xt, coeffmat, beta, u, ystar)`. -/
def solve_equations [DecidableEq K] (c m : ℕ) {n : ℕ} (Winv : Matrix (Fin n) (Fin n) K)
    (Zt : Matrix (Fin c) (Fin n) K) (Xt : Matrix (Fin m) (Fin n) K)
    (coeffmat : Matrix (Fin (m + c)) (Fin (m + c)) K)
    (_beta : Fin m → K) (_u : Fin c → K) (ystar : Fin n → K) :
    Except String (Fin (m + c) → K) :=
  let rhs_beta : Fin m → K := Matrix.mulVec (Xt * Winv) ystar
  let rhs_u : Fin c → K := Matrix.mulVec (Zt * Winv) ystar
  let rhs : Fin (m + c) → K := Fin.append rhs_beta rhs_u
  match inv coeffmat with
  | .error e => .error e
  | .ok coeffinv => .ok (Matrix.mulVec coeffinv rhs)

/-! ## inference.cpp

Here the sizes are checked at run time, so a matrix is a `DMat`: its two sizes and
its entries, addressed by natural-number indices (entries outside the sizes are
never read).  Vectors are lists. -/

/-- A run-time sized `arma::mat`. -/
structure DMat (K : Type) where
  n_rows : ℕ
  n_cols : ℕ
  elem : ℕ → ℕ → K

/-- The `DMat` holding a statically sized matrix. -/
def DMat.ofMatrix {r c : ℕ} (M : Matrix (Fin r) (Fin c) K) : DMat K :=
  ⟨r, c, fun i j => if h : i < r ∧ j < c then M ⟨i, h.1⟩ ⟨j, h.2⟩ else 0⟩

/-- Source function `M.submat(r1, c1, r2, c2)`.  The `int` arguments are converted to the unsigned
index type, so a negative index is out of bounds; Armadillo raises an error when
`r1 > r2`, `c1 > c2`, `r2 >= n_rows` or `c2 >= n_cols`. -/
def DMat.submat (M : DMat K) (r1 c1 r2 c2 : ℤ) : Except String (DMat K) :=
  if r1 < 0 ∨ c1 < 0 ∨ r2 < 0 ∨ c2 < 0 ∨ r1 > r2 ∨ c1 > c2 ∨
      r2 ≥ M.n_rows ∨ c2 ≥ M.n_cols then
    .error "Mat::submat(): indices out of bounds or incorrectly used"
  else
    .ok ⟨(r2 - r1 + 1).toNat, (c2 - c1 + 1).toNat,
      fun i j => M.elem (r1.toNat + i) (c1.toNat + j)⟩

/-- Matrix product `A * B`, an error when the sizes do not conform. -/
def DMat.mul (A B : DMat K) : Except String (DMat K) :=
  if A.n_cols ≠ B.n_rows then
    .error "matrix multiplication: incompatible matrix dimensions"
  else
    .ok ⟨A.n_rows, B.n_cols,
      fun i j => ∑ k in Finset.range A.n_cols, A.elem i k * B.elem k j⟩

/-- Matrix difference `A - B`, an error when the sizes differ. -/
def DMat.sub (A B : DMat K) : Except String (DMat K) :=
  if A.n_rows ≠ B.n_rows ∨ A.n_cols ≠ B.n_cols then
    .error "subtraction: incompatible matrix dimensions"
  else
    .ok ⟨A.n_rows, A.n_cols, fun i j => A.elem i j - B.elem i j⟩

/-- Source function `M.i()`: inverse of a run-time sized matrix, an error when it is not square or
is singular. -/
def DMat.i [DecidableEq K] (M : DMat K) : Except String (DMat K) :=
  if M.n_rows ≠ M.n_cols then
    .error "inv(): given matrix must be square sized"
  else
    match inv (fun (a b : Fin M.n_rows) => M.elem a b) with
    | .error e => .error e
    | .ok Minv => .ok (DMat.ofMatrix Minv)

/-- Source function `arma::rcond(M)` on a run-time sized matrix: an error when it is not
square, else the library estimate `rcond` of its entries. -/
def DMat.rcond (rcond : (k : ℕ) → Matrix (Fin k) (Fin k) K → K) (M : DMat K) :
    Except String K :=
  if M.n_rows ≠ M.n_cols then
    .error "rcond(): matrix must be square sized"
  else
    .ok (rcond M.n_rows (fun (a b : Fin M.n_rows) => M.elem a b))

/-- The block of `r` rows and `c` columns of a run-time sized matrix whose first
entry is at row `r0` and column `c0`. -/
def DMat.block (M : DMat K) (r0 c0 r c : ℕ) : Matrix (Fin r) (Fin c) K :=
  fun i j => M.elem (r0 + i) (c0 + j)

/-- The Schur complement `S = UL - UR * LR⁻¹ * LL` of a coefficient matrix partitioned
at index `m`, the lower-right block having `c` rows. -/
def DMat.schur (M : DMat K) (m c : ℕ) : Matrix (Fin m) (Fin m) K :=
  M.block 0 0 m m - M.block 0 m m c * invMat (M.block m m c c) * M.block m 0 c m

/-- Source function `M.diag()`: the main diagonal as a vector. -/
def DMat.diag (M : DMat K) : List K :=
  (List.range (min M.n_rows M.n_cols)).map (fun k => M.elem k k)

/-- Source function `computeSE(m, c, coeff_mat)`.  The square root `arma::sqrt` is the parameter
`sqrt`. -/
def computeSE [LinearOrder K] (sqrt : K → K)
    (rcond : (k : ℕ) → Matrix (Fin k) (Fin k) K → K)
    (m c : ℤ) (coeff_mat : DMat K) : Except String (List K) := do
  let l : ℤ := coeff_mat.n_cols
  let p : ℤ := coeff_mat.n_rows
  let scol := m + c
  let srow := m + c
  if l ≠ scol then
    throw "N cols and input dimensions m + c are not equal"
  if p ≠ srow then
    throw "N rows and input dimensions m + c are not equal"
  let ul ← coeff_mat.submat 0 0 (m - 1) (m - 1)
  let ur ← coeff_mat.submat 0 m (m - 1) (m + c - 1)
  let ll ← coeff_mat.submat m 0 (m + c - 1) (m - 1)
  let lr ← coeff_mat.submat m m (m + c - 1) (m + c - 1)
  let lrinv ← lr.i
  let ur_lrinv ← ur.mul lrinv
  let ur_lrinv_ll ← ur_lrinv.mul ll
  let _se ← ul.sub ur_lrinv_ll
  let _rcond ← _se.rcond rcond
  let is_singular : Bool := _rcond < 1e-12
  if is_singular then
    throw "Standard Error coefficient matrix is computationally singular"
  let _seInv ← _se.i
  return (_seInv.diag).map sqrt

/-- The loop of `computeTScore`: `tscore[x] = curr_beta[x] / SE[x]` for the indices
in `xs`. -/
def tscoreLoop (curr_beta SE : List K) (xs : List ℕ) (tscore : List K) : List K :=
  xs.foldl (fun tscore x =>
    let _beta := curr_beta.getD x 0
    let _se := SE.getD x 0
    let _t := _beta / _se
    tscore.set x _t) tscore

/-- Source function `computeTScore(curr_beta, SE)`; `tscore0` gives the initial contents of
`arma::vec tscore(m)`. -/
def computeTScore (tscore0 : ℕ → K) (curr_beta SE : List K) : Except String (List K) :=
  let m := curr_beta.length
  let selength := SE.length
  if m ≠ selength then
    .error "standard errors and beta estimate sizes differ"
  else
    .ok (tscoreLoop curr_beta SE (List.range m) ((List.range m).map tscore0))

/-! ## inference.cpp and invertPseudoVar.cpp, continued -/

/-- Source function `varCovar(psvari, c)`; `Va0` is the initial contents of
`arma::mat Va(c, c)`. -/
def varCovar {n : ℕ} (c : ℕ) (Va0 : Matrix (Fin c) (Fin c) K)
    (psvari : Fin c → Matrix (Fin n) (Fin n) K) : Matrix (Fin c) (Fin c) K :=
  (List.finRange c).foldl (fun Va i =>
    let _ips := psvari i
    ((List.finRange c).filter (fun j => i ≤ j)).foldl (fun Va j =>
      let _jps := psvari j
      let _ij := _ips * _jps
      let Va1 := setEntry Va i j (2 * (1 / Matrix.trace _ij))
      if i ≠ j then setEntry Va1 j i (2 * (1 / Matrix.trace _ij)) else Va1) Va) Va0

/-- Source function `rankOneUp(A, u, v)`: `A - (Au * vA) / (1 + vA * u)`. -/
def rankOneUp {n : ℕ} (A : Matrix (Fin n) (Fin n) K) (u : Fin n → K) (v : Fin n → K) :
    Matrix (Fin n) (Fin n) K :=
  let Au := Matrix.mulVec A u
  let vA := Matrix.vecMul v A
  A - Matrix.of (fun i j => (Au i * vA j) / (1 + vA ⬝ᵥ u))

/-- Source function `kRankOneUpdates(Vinv, B)`. -/
def kRankOneUpdates {n : ℕ} (Vinv B : Matrix (Fin n) (Fin n) K) : Matrix (Fin n) (Fin n) K :=
  (List.finRange n).foldl (fun vupdate k =>
    let vt_k := B k
    let u : Fin n → K := fun i => if i = k then 1 else 0
    let _vup := rankOneUp Vinv u vt_k
    Matrix.updateRow vupdate k (_vup k)) Vinv

/-- The arrays `ZB` and `mid` of `invertPseudoVar`, shared by its two parallel
sections. -/
structure Shared (K : Type) (n c : ℕ) where
  ZB : Matrix (Fin n) (Fin c) K
  mid : Matrix (Fin c) (Fin c) K

/-- First parallel section of `invertPseudoVar` on the shared arrays: `ZB = Z * B`. -/
def sectionZB {n c : ℕ} (Z : Matrix (Fin n) (Fin c) K) (B : Matrix (Fin c) (Fin c) K)
    (st : Shared K n c) : Shared K n c :=
  { st with ZB := Z * B }

/-- Second parallel section of `invertPseudoVar` on the shared arrays:
`mid = eye(c, c) + ZtA * ZB`, with the `ZB` found in the array at that moment. -/
def sectionMid {n c : ℕ} (ZtA : Matrix (Fin c) (Fin n) K) (st : Shared K n c) :
    Shared K n c :=
  { st with mid := midSection ZtA st.ZB }

/-- Source function `invertPseudoVar(A, B, Z, ZtA)` with the order of its two parallel
sections chosen by the scheduler: first section first when `inOrder`, second section
first otherwise; `st0` is the initial content of the arrays, which the source leaves
uninitialised. -/
def invertPseudoVarSched [LinearOrder K] {n c : ℕ} (inOrder : Bool)
    (rcond : (k : ℕ) → Matrix (Fin k) (Fin k) K → K)
    (pinv : Matrix (Fin c) (Fin c) K → Matrix (Fin c) (Fin c) K)
    (A : Matrix (Fin n) (Fin n) K) (B : Matrix (Fin c) (Fin c) K)
    (Z : Matrix (Fin n) (Fin c) K) (ZtA : Matrix (Fin c) (Fin n) K) (st0 : Shared K n c) :
    Except String (Matrix (Fin n) (Fin n) K) :=
  let st := if inOrder then sectionMid ZtA (sectionZB Z B st0)
    else sectionZB Z B (sectionMid ZtA st0)
  let _rcond := rcond c st.mid
  if _rcond < 1e-12 then
    let midinv := pinv st.mid
    .ok (A - A * st.ZB * (midinv * ZtA))
  else
    match inv st.mid with
    | .error e => .error e
    | .ok midinv => .ok (A - A * st.ZB * (midinv * ZtA))

/-- Whether a message contains a decimal digit, as any message quoting a dimension
or a condition number does. -/
def hasDigit (msg : String) : Bool :=
  msg.toList.any Char.isDigit

/-! ## fitGeneticPLGlmm.cpp

The driver is modelled with statically sized matrices (`X` is `n × m`, `Z` is
`n × stot`, the known covariance is `kn × kn`, there are `c` variance components);
the variance-component vectors `curr_sigma`, `sigma_update`, `sigma_diff` are lists,
because their run-time lengths matter.  The routines the driver calls that are not
among the sources are the fields of `Collab`; `U` is the type of the R list
`u_indices`.  The `while` loop is run with a bound `fuel` on the number of
iterations. -/

/-- One entry of the convergence trace `conv_list`. -/
structure Snapshot (K : Type) (m stot : ℕ) where
  ThetaDiff : Fin (m + stot) → K
  SigmaDiff : List K
  beta : Fin m → K
  u : Fin stot → K
  sigma : List K

/-- The routines called by `fitGeneticPLGlmm` that are defined outside the sources, with
the library functions `arma::rcond`, `exp` and `arma::sqrt`. -/
structure Collab (K U : Type) (n m stot c kn : ℕ) where
  computeYStar : Matrix (Fin n) (Fin m) K → (Fin m → K) → Matrix (Fin n) (Fin stot) K →
    Matrix (Fin n) (Fin n) K → (Fin stot → K) → (Fin n → K) → (Fin n → K) → (Fin n → K)
  computeVmu : (Fin n → K) → K → String → Matrix (Fin n) (Fin n) K
  computeW : K → Matrix (Fin n) (Fin n) K → String → Matrix (Fin n) (Fin n) K
  computeVStar : Matrix (Fin n) (Fin stot) K → Matrix (Fin stot) (Fin stot) K →
    Matrix (Fin n) (Fin n) K → Matrix (Fin n) (Fin n) K
  invertPseudoVar : Matrix (Fin n) (Fin n) K → Matrix (Fin stot) (Fin stot) K →
    Matrix (Fin n) (Fin stot) K → Matrix (Fin n) (Fin n) K
  computePREML : Matrix (Fin n) (Fin n) K → Matrix (Fin n) (Fin m) K → Matrix (Fin n) (Fin n) K
  pseudovarPartial_G : Matrix (Fin n) (Fin stot) K → Matrix (Fin kn) (Fin kn) K → U →
    (Fin c → Matrix (Fin n) (Fin n) K)
  pseudovarPartial_P : (Fin c → Matrix (Fin n) (Fin n) K) → Matrix (Fin n) (Fin n) K →
    (Fin c → Matrix (Fin n) (Fin n) K)
  estHasemanElstonGenetic : Matrix (Fin n) (Fin stot) K → Matrix (Fin n) (Fin n) K → U →
    (Fin n → K) → Matrix (Fin kn) (Fin kn) K → List K
  estHasemanElstonConstrainedGenetic : Matrix (Fin n) (Fin stot) K →
    Matrix (Fin n) (Fin n) K → U → (Fin n → K) → Matrix (Fin kn) (Fin kn) K → List K → ℤ →
    List K
  fisherScore : Matrix (Fin c) (Fin c) K → (Fin c → K) → List K → List K
  initialiseG_G : U → List K → Matrix (Fin kn) (Fin kn) K → Matrix (Fin stot) (Fin stot) K
  invGmat_G : U → List K → Matrix (Fin kn) (Fin kn) K → Matrix (Fin stot) (Fin stot) K
  check_na_arma_numeric : (Fin (m + stot) → K) → (Fin (m + stot) → Bool)
  check_inf_arma_numeric : (Fin n → K) → (Fin n → Bool)
  broadcastInverseMatrix : Matrix (Fin kn) (Fin kn) K → ℕ → Matrix (Fin kn) (Fin kn) K
  rcond : (k : ℕ) → Matrix (Fin k) (Fin k) K → K
  exp : K → K
  sqrt : K → K

/-- The arguments of `fitGeneticPLGlmm` (the unused argument `rlevels` is left out; the
known covariance `K` is called `Kmat`). -/
structure FitInput (K U : Type) (n m stot c kn : ℕ) where
  Z : Matrix (Fin n) (Fin stot) K
  X : Matrix (Fin n) (Fin m) K
  Kmat : Matrix (Fin kn) (Fin kn) K
  muvec : Fin n → K
  offsets : Fin n → K
  curr_beta : Fin m → K
  curr_theta : Fin (m + stot) → K
  curr_u : Fin stot → K
  curr_sigma : Fin c → K
  curr_G : Matrix (Fin stot) (Fin stot) K
  y : Fin n → K
  u_indices : U
  theta_conv : K
  curr_disp : K
  REML : Bool
  maxit : ℤ
  solver : String
  vardist : String

/-- The variables of `fitGeneticPLGlmm` that live across loop iterations. -/
structure FitState (K : Type) (n m stot c : ℕ) where
  iters : ℤ
  meet_cond : Bool
  converged : Bool
  _intercept : K
  solver : String
  curr_disp : K
  muvec : Fin n → K
  curr_beta : Fin m → K
  curr_theta : Fin (m + stot) → K
  curr_u : Fin stot → K
  curr_sigma : List K
  curr_G : Matrix (Fin stot) (Fin stot) K
  y_star : Fin n → K
  Winv : Matrix (Fin n) (Fin n) K
  V_star_inv : Matrix (Fin n) (Fin n) K
  P : Matrix (Fin n) (Fin n) K
  VP_partial : Option (Fin c → Matrix (Fin n) (Fin n) K)
  score_sigma : Fin c → K
  information_sigma : Matrix (Fin c) (Fin c) K
  sigma_update : List K
  sigma_diff : List K
  G_inv : Matrix (Fin stot) (Fin stot) K
  coeff_mat : Matrix (Fin (m + stot)) (Fin (m + stot)) K
  theta_update : Fin (m + stot) → K
  theta_diff : Fin (m + stot) → K
  conv_list : List (Option (Snapshot K m stot))

/-- Initial contents of the storage that `fitGeneticPLGlmm` and the routines it calls
allocate without initialising: `Zstar` and the other arrays declared before the loop
(as a whole `FitState`), and the result buffers of the score, information, t-score and
`varCovar` routines. -/
structure Uninit (K : Type) (n m stot c : ℕ) where
  vars : FitState K n m stot c
  Zstar : Matrix (Fin n) (Fin stot) K
  vecbuf : Fin c → K
  matbuf : Matrix (Fin c) (Fin c) K
  tscore0 : ℕ → K

/-- The list returned by `fitGeneticPLGlmm`. -/
structure FitOut (K : Type) (n m stot c : ℕ) where
  FE : Fin m → K
  RE : Fin stot → K
  Sigma : List K
  converged : Bool
  Iters : ℤ
  Dispersion : K
  Hessian : Matrix (Fin c) (Fin c) K
  SE : List K
  t : List K
  COEFF : Matrix (Fin (m + stot)) (Fin (m + stot)) K
  P : Matrix (Fin n) (Fin n) K
  Vpartial : Option (Fin c → Matrix (Fin n) (Fin n) K)
  Ginv : Matrix (Fin stot) (Fin stot) K
  Vsinv : Matrix (Fin n) (Fin n) K
  Winv : Matrix (Fin n) (Fin n) K
  VCOV : Matrix (Fin c) (Fin c) K
  CONVLIST : List (Option (Snapshot K m stot))

/-- Absolute value of a `double`, as taken elementwise by `abs`. -/
def fabs [LinearOrder K] (x : K) : K :=
  if x < 0 then -x else x

/-- Elementwise difference of two vectors, an error when the lengths differ. -/
def vecSub (a b : List K) : Except String (List K) :=
  if a.length ≠ b.length then
    .error "subtraction: incompatible matrix dimensions"
  else
    .ok (List.zipWith (fun x y => x - y) a b)

/-- Source function `v.tail(c)`: the last `c` entries, an error when there are fewer. -/
def vecTail (v : List K) (c : ℕ) : Except String (List K) :=
  if v.length < c then
    .error "Col::tail(): size out of bounds"
  else
    .ok (v.drop (v.length - c))

/-- The write `conv_list(i) = x` with the bounds check of the R list accessor. -/
def convWrite {m stot : ℕ} (conv_list : List (Option (Snapshot K m stot))) (i : ℤ)
    (x : Snapshot K m stot) : Except String (List (Option (Snapshot K m stot))) :=
  if i < 0 ∨ i ≥ conv_list.length then
    .error "Index out of bounds"
  else
    .ok (conv_list.set i.toNat (some x))

/-- The start vector `_curr_sigma` handed to the constrained estimator: `c + 1` copies
of `constval`, and from the second iteration on the intercept followed by
`curr_sigma`. -/
def nnlsStart (c : ℕ) (constval _intercept : K) (iters : ℤ) (curr_sigma : List K) :
    Except String (List K) :=
  let _curr_sigma := List.replicate (c + 1) constval
  if iters > 0 then
    if curr_sigma.length ≠ c then
      .error "Mat::elem(): size mismatch"
    else
      .ok (_intercept :: curr_sigma)
  else
    .ok _curr_sigma

/-- Modelled from the spec: the driver's callee `solveEquations` is not among the
sources.  Section 4.3 of the spec describes it (solve
`coeff_mat * theta = [Xt Winv ystar ; Zt Winv ystar]` by direct inversion), and
`paramEst.cpp` has that routine with the same parameter list under the name
`solve_equations`, which is used here. -/
def solveEquations [DecidableEq K] (c m : ℕ) {n : ℕ} (Winv : Matrix (Fin n) (Fin n) K)
    (Zt : Matrix (Fin c) (Fin n) K) (Xt : Matrix (Fin m) (Fin n) K)
    (coeffmat : Matrix (Fin (m + c)) (Fin (m + c)) K)
    (beta : Fin m → K) (u : Fin c → K) (ystar : Fin n → K) :
    Except String (Fin (m + c) → K) :=
  solve_equations c m Winv Zt Xt coeffmat beta u ystar

/-- Lines 194-219 of `fitGeneticPLGlmm`: the working response, the weights, the inverse
pseudo-variance and the score and information of the variance components. -/
def workingPhase [LinearOrder K] {U : Type} {n m stot c kn : ℕ}
    (C : Collab K U n m stot c kn) (Un : Uninit K n m stot c)
    (I : FitInput K U n m stot c kn) ( V_partial : Fin c → Matrix (Fin n) (Fin n) K)
    (s : FitState K n m stot c) : Except String (FitState K n m stot c) := do
  let D : Matrix (Fin n) (Fin n) K := Matrix.diagonal s.muvec
  let Dinv ← inv D
  let y_star := C.computeYStar I.X s.curr_beta I.Z Dinv s.curr_u I.y I.offsets
  let curr_disp : K := 1
  let _Vmu := C.computeVmu s.muvec curr_disp I.vardist
  let W := C.computeW curr_disp Dinv I.vardist
  let Winv ← inv W
  let _V_star := C.computeVStar I.Z s.curr_G W
  let V_star_inv := C.invertPseudoVar Winv s.curr_G I.Z
  let P := if I.REML then C.computePREML V_star_inv I.X else s.P
  let VP_partial :=
    if I.REML then some (C.pseudovarPartial_P V_partial P) else s.VP_partial
  let score_sigma :=
    if I.REML then sigmaScoreREML_arma Un.vecbuf (C.pseudovarPartial_P V_partial P) y_star P
    else sigmaScore Un.vecbuf y_star s.curr_beta I.X V_partial V_star_inv
  let information_sigma :=
    if I.REML then sigmaInfoREML_arma Un.matbuf (C.pseudovarPartial_P V_partial P) P
    else sigmaInformation V_star_inv V_partial
  return { s with
    curr_disp := curr_disp, y_star := y_star, Winv := Winv, V_star_inv := V_star_inv,
    P := P, VP_partial := VP_partial, score_sigma := score_sigma,
    information_sigma := information_sigma }

/-- Lines 223-242 of `fitGeneticPLGlmm`: the update of the active solver, returned with
the value of `_intercept` after it. -/
def solverDispatch {U : Type} {n m stot c kn : ℕ}
    (C : Collab K U n m stot c kn) (I : FitInput K U n m stot c kn)
    (s : FitState K n m stot c) : Except String (List K × K) :=
  let constval : K := 0
  if s.solver = "HE" then
    .ok (C.estHasemanElstonGenetic I.Z s.P I.u_indices s.y_star I.Kmat, s._intercept)
  else if s.solver = "HE-NNLS" then
    match nnlsStart c constval s._intercept s.iters s.curr_sigma with
    | .error e => .error e
    | .ok _curr_sigma =>
      let sigma_update :=
        C.estHasemanElstonConstrainedGenetic I.Z s.P I.u_indices s.y_star I.Kmat _curr_sigma
          s.iters
      let _intercept := sigma_update.getD 0 0
      match vecTail sigma_update c with
      | .error e => .error e
      | .ok sigma_update => .ok (sigma_update, _intercept)
  else if s.solver = "Fisher" then
    .ok (C.fisherScore s.information_sigma s.score_sigma s.curr_sigma, s._intercept)
  else
    .ok (s.sigma_update, s._intercept)

/-- Lines 244-258 of `fitGeneticPLGlmm`: the negativity check and the re-run with the
constrained estimator; returns the solver and `sigma_update` after it. -/
def negativeRerun [LinearOrder K] {U : Type} {n m stot c kn : ℕ}
    (C : Collab K U n m stot c kn) (I : FitInput K U n m stot c kn)
    (s : FitState K n m stot c) (_intercept : K) (sigma_update : List K) :
    Except String (String × List K) :=
  let constval : K := 0
  if sigma_update.any (fun x => decide (x < 0)) then
    match nnlsStart c constval _intercept s.iters s.curr_sigma with
    | .error e => .error e
    | .ok _curr_sigma =>
      .ok ("HE-NNLS",
        C.estHasemanElstonConstrainedGenetic I.Z s.P I.u_indices s.y_star I.Kmat _curr_sigma
          s.iters)
  else
    .ok (s.solver, sigma_update)

/-- Lines 260-265 of `fitGeneticPLGlmm`: `sigma_diff`, and the commit of `sigma_update`
into `curr_sigma`, `curr_G` and `G_inv`. -/
def commitSigma [LinearOrder K] {U : Type} {n m stot c kn : ℕ}
    (C : Collab K U n m stot c kn) (I : FitInput K U n m stot c kn)
    (Kinv : Matrix (Fin kn) (Fin kn) K) (s : FitState K n m stot c) (_intercept : K)
    (solver : String) (sigma_update : List K) : Except String (FitState K n m stot c) :=
  match vecSub sigma_update s.curr_sigma with
  | .error e => .error e
  | .ok diff =>
    let sigma_diff := diff.map fabs
    let curr_sigma := sigma_update
    let curr_G := C.initialiseG_G I.u_indices curr_sigma I.Kmat
    let G_inv := C.invGmat_G I.u_indices curr_sigma Kinv
    .ok { s with
      _intercept := _intercept, solver := solver, sigma_update := sigma_update,
      sigma_diff := sigma_diff, curr_sigma := curr_sigma, curr_G := curr_G, G_inv := G_inv }

/-- Lines 194-265 of `fitGeneticPLGlmm`: the working quantities, the variance-component
update and its commit. -/
def sigmaPhase [LinearOrder K] {U : Type} {n m stot c kn : ℕ}
    (C : Collab K U n m stot c kn) (Un : Uninit K n m stot c)
    (I : FitInput K U n m stot c kn) ( V_partial : Fin c → Matrix (Fin n) (Fin n) K)
    (Kinv : Matrix (Fin kn) (Fin kn) K) (s : FitState K n m stot c) :
    Except String (FitState K n m stot c) :=
  match workingPhase C Un I V_partial s with
  | .error e => .error e
  | .ok sw =>
    match solverDispatch C I sw with
    | .error e => .error e
    | .ok upd =>
      match negativeRerun C I sw upd.2 upd.1 with
      | .error e => .error e
      | .ok rerun => commitSigma C I Kinv sw upd.2 rerun.1 rerun.2

/-- Lines 270-273 of `fitGeneticPLGlmm`: the coefficient matrix and the solve, which is
handed the transpose of the local array `Zstar`. -/
def solveStep [DecidableEq K] {n m stot : ℕ} (X : Matrix (Fin n) (Fin m) K)
    (Z Zstar : Matrix (Fin n) (Fin stot) K) (Winv : Matrix (Fin n) (Fin n) K)
    (G_inv : Matrix (Fin stot) (Fin stot) K) (curr_beta : Fin m → K) (curr_u : Fin stot → K)
    (y_star : Fin n → K) : Except String (Fin (m + stot) → K) :=
  let coeff_mat := coeffMatrix X Winv Z G_inv
  solveEquations stot m Winv Zstarᵀ Xᵀ coeff_mat curr_beta curr_u y_star

/-- Lines 267-323 of `fitGeneticPLGlmm`: the solve for `theta`, the two divergence
exits and the end of a completed iteration.  The flag returned with the state tells
whether a `break` was executed. -/
def thetaPhase [LinearOrder K] {U : Type} {n m stot c kn : ℕ}
    (C : Collab K U n m stot c kn) (Un : Uninit K n m stot c)
    (I : FitInput K U n m stot c kn) (s : FitState K n m stot c) :
    Except String (FitState K n m stot c × Bool) := do
  let coeff_mat := coeffMatrix I.X s.Winv I.Z s.G_inv
  let theta_update ← solveStep I.X I.Z Un.Zstar s.Winv s.G_inv s.curr_beta s.curr_u s.y_star
  let _check_theta := C.check_na_arma_numeric theta_update
  let _any_ystar_na : Bool := decide (∃ i, _check_theta i = true)
  if _any_ystar_na then
    let this_conv : Snapshot K m stot :=
      ⟨s.theta_diff, s.sigma_diff, s.curr_beta, s.curr_u, s.curr_sigma⟩
    let conv_list ← convWrite s.conv_list (s.iters - 1) this_conv
    return ({ s with coeff_mat := coeff_mat, theta_update := theta_update,
                     conv_list := conv_list }, true)
  let theta_diff : Fin (m + stot) → K := fun i => fabs (theta_update i - s.curr_theta i)
  let curr_theta := theta_update
  let curr_beta : Fin m → K := fun i => curr_theta (Fin.castAdd stot i)
  let curr_u : Fin stot → K := fun j => curr_theta (Fin.natAdd m j)
  let muvec : Fin n → K := fun i =>
    C.exp (I.offsets i + Matrix.mulVec I.X curr_beta i + Matrix.mulVec I.Z curr_u i)
  let _check_mu_inf := C.check_inf_arma_numeric muvec
  let _any_mu_inf : Bool := decide (∃ i, _check_mu_inf i = true)
  if _any_mu_inf then
    let this_conv : Snapshot K m stot :=
      ⟨theta_diff, s.sigma_diff, curr_beta, curr_u, s.curr_sigma⟩
    let conv_list ← convWrite s.conv_list (s.iters - 1) this_conv
    return ({ s with coeff_mat := coeff_mat, theta_update := theta_update,
                     theta_diff := theta_diff, curr_theta := curr_theta,
                     curr_beta := curr_beta, curr_u := curr_u, muvec := muvec,
                     conv_list := conv_list }, true)
  let iters := s.iters + 1
  let _thconv : Bool := decide (∀ i, theta_diff i < I.theta_conv)
  let _siconv : Bool := s.sigma_diff.all (fun x => decide (x < I.theta_conv))
  let _ithit : Bool := decide (iters > I.maxit)
  let meet_cond := (_thconv && _siconv) || _ithit
  let converged := _thconv && _siconv
  let this_conv : Snapshot K m stot :=
    ⟨theta_diff, s.sigma_diff, curr_beta, curr_u, s.curr_sigma⟩
  let conv_list ← convWrite s.conv_list (iters - 1) this_conv
  return ({ s with coeff_mat := coeff_mat, theta_update := theta_update,
                   theta_diff := theta_diff, curr_theta := curr_theta,
                   curr_beta := curr_beta, curr_u := curr_u, muvec := muvec,
                   iters := iters, meet_cond := meet_cond, converged := converged,
                   conv_list := conv_list }, false)

/-- One execution of the body of the `while` loop of `fitGeneticPLGlmm`. -/
def iteration [LinearOrder K] {U : Type} {n m stot c kn : ℕ}
    (C : Collab K U n m stot c kn) (Un : Uninit K n m stot c)
    (I : FitInput K U n m stot c kn) ( V_partial : Fin c → Matrix (Fin n) (Fin n) K)
    (Kinv : Matrix (Fin kn) (Fin kn) K) (s : FitState K n m stot c) :
    Except String (FitState K n m stot c × Bool) :=
  match sigmaPhase C Un I V_partial Kinv s with
  | .error e => .error e
  | .ok s1 => thetaPhase C Un I s1

/-- The loop `while(!meet_cond)` of `fitGeneticPLGlmm`, run for at most `fuel` iterations;
`none` when the bound is reached with the loop still running. -/
def whileLoop [LinearOrder K] {U : Type} {n m stot c kn : ℕ}
    (C : Collab K U n m stot c kn) (Un : Uninit K n m stot c)
    (I : FitInput K U n m stot c kn) ( V_partial : Fin c → Matrix (Fin n) (Fin n) K)
    (Kinv : Matrix (Fin kn) (Fin kn) K) :
    ℕ → FitState K n m stot c → Except String (Option (FitState K n m stot c))
  | fuel, s =>
    if s.meet_cond then .ok (some s)
    else match fuel with
      | 0 => .ok none
      | fuel + 1 =>
        match iteration C Un I V_partial Kinv s with
        | .error e => .error e
        | .ok (s1, true) => .ok (some s1)
        | .ok (s1, false) => whileLoop C Un I V_partial Kinv fuel s1

/-- The state of `fitGeneticPLGlmm` on entry to the loop. -/
def initState {U : Type} {n m stot c kn : ℕ} (Un : Uninit K n m stot c)
    (I : FitInput K U n m stot c kn) (conv_list : List (Option (Snapshot K m stot))) :
    FitState K n m stot c :=
  { Un.vars with
    iters := 0, meet_cond := false, converged := false, _intercept := 0,
    solver := I.solver, curr_disp := I.curr_disp, muvec := I.muvec,
    curr_beta := I.curr_beta, curr_theta := I.curr_theta, curr_u := I.curr_u,
    curr_sigma := List.ofFn I.curr_sigma, curr_G := I.curr_G,
    VP_partial := none,
    sigma_update := List.ofFn (fun i : Fin c => Un.vars.sigma_update.getD i 0),
    sigma_diff := List.replicate c 0,
    theta_diff := fun _ => 0,
    conv_list := conv_list }

/-- The call `varCovar(VP_partial, c)` of the driver: the outer list `VP_partial` holds
`c` empty slots until the REML branch assigns it, and reading an empty slot as a matrix
is an error. -/
def varCovarOuter {n : ℕ} (c : ℕ) (Va0 : Matrix (Fin c) (Fin c) K)
    ( VP_partial : Option (Fin c → Matrix (Fin n) (Fin n) K)) :
    Except String (Matrix (Fin c) (Fin c) K) :=
  match VP_partial with
  | some psvari => .ok (varCovar c Va0 psvari)
  | none => if c = 0 then .ok Va0 else .error "Not a matrix."

/-- Lines 326-337 of `fitGeneticPLGlmm`: the inference after the loop and the returned
list. -/
def inference [LinearOrder K] {U : Type} {n m stot c kn : ℕ}
    (C : Collab K U n m stot c kn) (Un : Uninit K n m stot c) (s : FitState K n m stot c) :
    Except String (FitOut K n m stot c) := do
  let se ← computeSE C.sqrt C.rcond m stot (DMat.ofMatrix s.coeff_mat)
  let tscores ← computeTScore Un.tscore0 (List.ofFn s.curr_beta) se
  let vcov ← varCovarOuter c Un.matbuf s.VP_partial
  return { FE := s.curr_beta, RE := s.curr_u, Sigma := s.curr_sigma,
           converged := s.converged, Iters := s.iters, Dispersion := s.curr_disp,
           Hessian := s.information_sigma, SE := se, t := tscores, COEFF := s.coeff_mat,
           P := s.P, Vpartial := s.VP_partial, Ginv := s.G_inv, Vsinv := s.V_star_inv,
           Winv := s.Winv, VCOV := vcov, CONVLIST := s.conv_list }

/-- Line 150 of `fitGeneticPLGlmm`: the trace `conv_list` of `maxit + 1` empty slots; a
negative length is an error. -/
def newConvList {m stot : ℕ} (maxit : ℤ) : Except String (List (Option (Snapshot K m stot))) :=
  if maxit + 1 < 0 then .error "negative length vectors are not allowed"
  else .ok (List.replicate (maxit + 1).toNat none)

/-- Lines 170-188 of `fitGeneticPLGlmm`: the inverse of the known covariance, by the
block fallback when `rcond` reports it singular. -/
def invertKinship [LinearOrder K] {U : Type} {n m stot c kn : ℕ}
    (C : Collab K U n m stot c kn) (I : FitInput K U n m stot c kn) :
    Except String (Matrix (Fin kn) (Fin kn) K) :=
  let _rcond := C.rcond kn I.Kmat
  let is_singular : Bool := decide (_rcond < 1e-9)
  if is_singular then
    let nhalf : ℕ := n / 2
    .ok (C.broadcastInverseMatrix I.Kmat nhalf)
  else
    inv I.Kmat

/-- Source function `fitGeneticPLGlmm`, its loop bounded by `fuel`; `none` when the bound is
reached before the loop ends. -/
def fitGeneticPLGlmm [LinearOrder K] {U : Type} {n m stot c kn : ℕ} (fuel : ℕ)
    (C : Collab K U n m stot c kn) (Un : Uninit K n m stot c)
    (I : FitInput K U n m stot c kn) : Except String (Option (FitOut K n m stot c)) := do
  let V_partial := C.pseudovarPartial_G I.Z I.Kmat I.u_indices
  let conv_list ← newConvList I.maxit
  let Kinv ← invertKinship C I
  let r ← whileLoop C Un I V_partial Kinv fuel (initState Un I conv_list)
  match r with
  | none => return none
  | some s =>
    let out ← inference C Un s
    return some out

/-- The variance-component update produced by the active solver in the iteration that
starts in state `s` (lines 194-242). -/
def activeUpdate [LinearOrder K] {U : Type} {n m stot c kn : ℕ}
    (C : Collab K U n m stot c kn) (Un : Uninit K n m stot c)
    (I : FitInput K U n m stot c kn) ( V_partial : Fin c → Matrix (Fin n) (Fin n) K)
    (s : FitState K n m stot c) : Except String (List K) :=
  match workingPhase C Un I V_partial s with
  | .error e => .error e
  | .ok sw =>
    match solverDispatch C I sw with
    | .error e => .error e
    | .ok upd => .ok upd.1

/-! ### Observations on a run -/

/-- The returned `Iters`, when the call returns. -/
def itersOf {n m stot c : ℕ} (r : Except String (Option (FitOut K n m stot c))) : Option ℤ :=
  match r with
  | .ok (some out) => some out.Iters
  | _ => none

/-- The returned `converged` flag, when the call returns. -/
def convergedOf {n m stot c : ℕ} (r : Except String (Option (FitOut K n m stot c))) :
    Option Bool :=
  match r with
  | .ok (some out) => some out.converged
  | _ => none

/-- The error message, when the call stops with an error. -/
def errorOf {α : Type} (r : Except String α) : Option String :=
  match r with
  | .error e => some e
  | .ok _ => none

/-- Whether the `ThetaDiff` and `SigmaDiff` of a trace entry are both elementwise below
the tolerance. -/
def snapBelow [LinearOrder K] {m stot : ℕ} (tol : K) (x : Snapshot K m stot) : Bool :=
  decide (∀ i, x.ThetaDiff i < tol) && x.SigmaDiff.all (fun d => decide (d < tol))

/-- The last recorded entry of a trace: the filled slot of highest index. -/
def lastRecorded {m stot : ℕ} (conv_list : List (Option (Snapshot K m stot))) :
    Option (Snapshot K m stot) :=
  (conv_list.filterMap id).getLast?

/-- Whether the last recorded trace entry of a returned run is below the tolerance. -/
def lastBelowOf [LinearOrder K] {n m stot c : ℕ} (tol : K)
    (r : Except String (Option (FitOut K n m stot c))) : Option Bool :=
  match r with
  | .ok (some out) => (lastRecorded out.CONVLIST).map (snapBelow tol)
  | _ => none

/-- Invariant of the loop of `fitGeneticPLGlmm`: the counter is not negative; exactly
the first `iters` slots of the trace are filled; when the loop condition is met the
last recorded entry agrees with the `converged` flag; while the loop runs the flag is
false and the counter has not passed `maxit`. -/
def LoopInv [LinearOrder K] {U : Type} {n m stot c kn : ℕ} (I : FitInput K U n m stot c kn)
    (s : FitState K n m stot c) : Prop :=
  0 ≤ s.iters ∧
  (∃ (pre : List (Snapshot K m stot)) (r : ℕ),
    s.conv_list = pre.map some ++ List.replicate r none ∧ (pre.length : ℤ) = s.iters) ∧
  (s.meet_cond = true →
    ∃ x, lastRecorded s.conv_list = some x ∧ snapBelow I.theta_conv x = s.converged) ∧
  (s.meet_cond = false → s.converged = false ∧ (s.iters = 0 ∨ s.iters ≤ I.maxit))

/-- Whether the `theta_update` stored in a state solves the mixed-model equations
`coeff_mat * theta = [Xt Winv y_star ; Zdt Winv y_star]` for the random-effect design
`Zd`. -/
def mmeHolds [DecidableEq K] {n m stot c : ℕ} (X : Matrix (Fin n) (Fin m) K)
    (Zd : Matrix (Fin n) (Fin stot) K) (s : FitState K n m stot c) : Bool :=
  decide (Matrix.mulVec s.coeff_mat s.theta_update
    = Fin.append (Matrix.mulVec (Xᵀ * s.Winv) s.y_star) (Matrix.mulVec (Zdᵀ * s.Winv) s.y_star))

/-- The `SigmaDiff` fields of the slots of a trace. -/
def sigmaDiffs {m stot : ℕ} (conv_list : List (Option (Snapshot K m stot))) :
    List (Option (List K)) :=
  conv_list.map (Option.map (fun x => x.SigmaDiff))

/-- Invariant of the loop of `fitGeneticPLGlmm` on the iteration counter: it lies
between `0` and `maxit + 1`; while the loop runs it has not passed `maxit`; and when the
loop condition is met without convergence it is `maxit + 1`. -/
def BudgetInv [LinearOrder K] {U : Type} {n m stot c kn : ℕ}
    (I : FitInput K U n m stot c kn) (s : FitState K n m stot c) : Prop :=
  0 ≤ s.iters ∧ s.iters ≤ I.maxit + 1 ∧ (s.meet_cond = false → s.iters ≤ I.maxit) ∧
  (s.meet_cond = true → s.converged = false → s.iters = I.maxit + 1)

/-! ## Concrete inputs used to instantiate the theorems -/

/-- Example inverse weight matrix, the 2-by-2 identity. -/
def exA : Matrix (Fin 2) (Fin 2) ℚ := 1

/-- Example 1-by-1 variance-component matrix. -/
def exB : Matrix (Fin 1) (Fin 1) ℚ := fun _ _ => 2

/-- Example 2-by-1 random-effect design. -/
def exZ : Matrix (Fin 2) (Fin 1) ℚ := fun _ _ => 1

/-- Example 2-by-2 information matrix `[[2, 1], [1, 2]]`. -/
def exHess : Matrix (Fin 2) (Fin 2) ℚ := fun i j => if i = j then 2 else 1

/-- Example vector `(1, 3)`. -/
def exVec : Fin 2 → ℚ := fun i => if i = 0 then 1 else 3

/-- Example real coefficient matrix, the 2-by-2 identity. -/
def exId : Matrix (Fin (1 + 1)) (Fin (1 + 1)) ℝ := 1

/-- Example update matrix `[[0, 2], [2, 0]]`. -/
def exUpd : Matrix (Fin 2) (Fin 2) ℚ := fun i j => if i = j then 0 else 2

/-- Example initial content of the shared arrays: all zero. -/
def exShared : Shared ℚ 2 1 where
  ZB := 0
  mid := 0

/-! ### A concrete one-observation model

One observation, one fixed effect, one random-effect column, one variance component
and a 1-by-1 known covariance, over `ℚ`.  The collaborators are constant apart from
the working response, which is `curr_beta + y`; the unconstrained estimators return
`fs`, the constrained estimator returns `nnls`; a theta entry above `3/4` stands for a
NaN, and `infFlag` says whether the fitted mean is reported infinite. -/

/-- Example collaborators. -/
def exCollab (fs nnls : List ℚ) (infFlag : Bool) : Collab ℚ Unit 1 1 1 1 1 where
  computeYStar := fun _ curr_beta _ _ _ y _ => fun i => curr_beta 0 + y i
  computeVmu := fun _ _ _ => 1
  computeW := fun _ _ _ => 1
  computeVStar := fun _ _ _ => 1
  invertPseudoVar := fun _ _ _ => 1
  computePREML := fun _ _ => 1
  pseudovarPartial_G := fun _ _ _ _ => 1
  pseudovarPartial_P := fun vp _ => vp
  estHasemanElstonGenetic := fun _ _ _ _ _ => fs
  estHasemanElstonConstrainedGenetic := fun _ _ _ _ _ _ _ => nnls
  fisherScore := fun _ _ _ => fs
  initialiseG_G := fun _ _ _ => 1
  invGmat_G := fun _ _ _ => 1
  check_na_arma_numeric := fun theta i => decide (theta i > 3 / 4)
  check_inf_arma_numeric := fun _ _ => infFlag
  broadcastInverseMatrix := fun k _ => k
  rcond := fun _ _ => 1
  exp := fun _ => 1
  sqrt := fun x => x

/-- Example arguments: `X = (1)`, `Z = (0)`, `K = (1)`, all initial estimates zero except
`curr_sigma = (sigma0)`, response `y = (y0)`, REML on. -/
def exInput (y0 sigma0 tol : ℚ) (maxit : ℤ) (solver : String) :
    FitInput ℚ Unit 1 1 1 1 1 where
  Z := 0
  X := 1
  Kmat := 1
  muvec := fun _ => 1
  offsets := fun _ => 0
  curr_beta := fun _ => 0
  curr_theta := fun _ => 0
  curr_u := fun _ => 0
  curr_sigma := fun _ => sigma0
  curr_G := 1
  y := fun _ => y0
  u_indices := ()
  theta_conv := tol
  curr_disp := 1
  REML := true
  maxit := maxit
  solver := solver
  vardist := "P"

/-- Example contents of the uninitialised storage: zeros, and `Zstar = (zs)`. -/
def exUninit (zs : ℚ) : Uninit ℚ 1 1 1 1 where
  vars :=
    { iters := 0, meet_cond := false, converged := false, _intercept := 0, solver := "",
      curr_disp := 0, muvec := fun _ => 0, curr_beta := fun _ => 0, curr_theta := fun _ => 0,
      curr_u := fun _ => 0, curr_sigma := [], curr_G := 0, y_star := fun _ => 0, Winv := 0,
      V_star_inv := 0, P := 0, VP_partial := none, score_sigma := fun _ => 0,
      information_sigma := 0, sigma_update := [], sigma_diff := [], G_inv := 0,
      coeff_mat := 0, theta_update := fun _ => 0, theta_diff := fun _ => 0, conv_list := [] }
  Zstar := fun _ _ => zs
  vecbuf := fun _ => 0
  matbuf := 0
  tscore0 := fun _ => 0

/-- Example state on entry to the loop of the one-observation model, the trace having
`maxit + 1 = 6` empty slots. -/
def exState (y0 sigma0 tol : ℚ) (solver : String) : FitState ℚ 1 1 1 1 :=
  initState (exUninit 0) (exInput y0 sigma0 tol 5 solver) (List.replicate 6 none)

/-! ## Lemmas on the primitives -/

/-- Cramer's rule agrees with the inverse of Mathlib. -/
theorem invMat_eq {n : ℕ} (M : Matrix (Fin n) (Fin n) K) : invMat M = M⁻¹ := by
  rw [invMat, Matrix.inv_def, Ring.inverse_eq_inv']

/-- On a matrix of non-zero determinant `inv` returns the inverse. -/
theorem inv_eq_ok [DecidableEq K] {n : ℕ} (M : Matrix (Fin n) (Fin n) K) (h : M.det ≠ 0) :
    inv M = .ok M⁻¹ := by
  unfold inv
  rw [if_neg h, invMat_eq]

/-- On a matrix of zero determinant `inv` raises the singularity error. -/
theorem inv_eq_error [DecidableEq K] {n : ℕ} (M : Matrix (Fin n) (Fin n) K) (h : M.det = 0) :
    inv M = .error "inv(): matrix is singular" := by
  unfold inv
  rw [if_pos h]

/-! ## Loops that fill a vector or a matrix -/

/-- A loop writing `f i` at every index `i` of `l` leaves `f a` at the written
positions and the old contents elsewhere. -/
theorem foldl_setElem {c : ℕ} (f : Fin c → K) (l : List (Fin c)) (v0 : Fin c → K) (a : Fin c) :
    l.foldl (fun v i => setElem v i (f i)) v0 a = if a ∈ l then f a else v0 a := by
  induction l generalizing v0 with
  | nil => simp
  | cons x l ih =>
    rw [List.foldl_cons, ih]
    by_cases h1 : a ∈ l
    · simp [h1]
    · by_cases h2 : a = x
      · subst h2; simp [setElem]
      · simp [h1, h2, setElem]

/-- Inner loop of a full double loop: row `i` is written at the columns in `js`. -/
theorem foldl_setEntry_row {c : ℕ} (f : Fin c → Fin c → K) (i : Fin c) (js : List (Fin c))
    (M : Matrix (Fin c) (Fin c) K) (a b : Fin c) :
    js.foldl (fun s j => setEntry s i j (f i j)) M a b
      = if a = i ∧ b ∈ js then f i b else M a b := by
  induction js generalizing M with
  | nil => simp
  | cons x js ih =>
    rw [List.foldl_cons, ih]
    by_cases h1 : a = i
    · by_cases h2 : b ∈ js
      · simp [h1, h2]
      · by_cases h3 : b = x
        · subst h3; simp [h1, setEntry]
        · simp [h1, h2, h3, setEntry]
    · simp [h1, setEntry]

/-- Full double loop: every row in `is` is written at every column. -/
theorem foldl_setEntry_full {c : ℕ} (f : Fin c → Fin c → K) (is : List (Fin c))
    (M : Matrix (Fin c) (Fin c) K) (a b : Fin c) :
    is.foldl (fun s i => (List.finRange c).foldl (fun s j => setEntry s i j (f i j)) s) M a b
      = if a ∈ is then f a b else M a b := by
  induction is generalizing M with
  | nil => simp
  | cons x is ih =>
    rw [List.foldl_cons, ih, foldl_setEntry_row]
    by_cases h1 : a ∈ is
    · simp [h1]
    · by_cases h2 : a = x
      · subst h2; simp [List.mem_finRange]
      · simp [h1, h2]

/-- Inner loop of the upper-triangle-and-mirror double loop: for every `j` in `js`
entry `(i, j)` and, when `i ≠ j`, entry `(j, i)` receive `w i j`. -/
theorem foldl_mirror_row {c : ℕ} (w : Fin c → Fin c → K) (i : Fin c) (js : List (Fin c))
    (M : Matrix (Fin c) (Fin c) K) (a b : Fin c) :
    js.foldl (fun s j =>
        if i ≠ j then setEntry (setEntry s i j (w i j)) j i (w i j)
        else setEntry s i j (w i j)) M a b
      = if a = i ∧ b ∈ js then w i b else if b = i ∧ a ∈ js then w i a else M a b := by
  induction js generalizing M with
  | nil => simp
  | cons x js ih =>
    rw [List.foldl_cons, ih]
    by_cases h1 : a = i ∧ b ∈ js
    · have h1b : a = i ∧ b ∈ x :: js := ⟨h1.1, List.mem_cons_of_mem _ h1.2⟩
      rw [if_pos h1, if_pos h1b]
    · rw [if_neg h1]
      by_cases h2 : b = i ∧ a ∈ js
      · have h2b : b = i ∧ a ∈ x :: js := ⟨h2.1, List.mem_cons_of_mem _ h2.2⟩
        rw [if_pos h2, if_neg, if_pos h2b]
        rintro ⟨ha, hb⟩
        exact h1 ⟨ha, by rw [h2.1, ← ha]; exact h2.2⟩
      · rw [if_neg h2]
        by_cases hix : i = x
        · subst hix
          simp only [ne_eq, not_true_eq_false, if_false, setEntry, List.mem_cons]
          by_cases ha : a = i <;> by_cases hb : b = i <;> simp_all
        · simp only [ne_eq, hix, not_false_eq_true, if_true, setEntry, List.mem_cons]
          by_cases ha : a = i <;> by_cases hb : b = i <;> by_cases hax : a = x <;>
            by_cases hbx : b = x <;> simp_all

/-- The upper-triangle-and-mirror double loop over the rows in `is`. -/
theorem foldl_mirror {c : ℕ} (w : Fin c → Fin c → K) (is : List (Fin c))
    (M : Matrix (Fin c) (Fin c) K) (a b : Fin c) :
    is.foldl (fun s i =>
        ((List.finRange c).filter (fun j => i ≤ j)).foldl (fun s j =>
          if i ≠ j then setEntry (setEntry s i j (w i j)) j i (w i j)
          else setEntry s i j (w i j)) s) M a b
      = if a ≤ b then (if a ∈ is then w a b else M a b)
        else (if b ∈ is then w b a else M a b) := by
  induction is generalizing M with
  | nil => simp
  | cons x is ih =>
    rw [List.foldl_cons, ih, foldl_mirror_row]
    simp only [List.mem_filter, List.mem_finRange, true_and, decide_eq_true_eq, List.mem_cons]
    by_cases hab : a ≤ b
    · simp only [hab, if_true]
      by_cases h1 : a ∈ is
      · simp [h1]
      · by_cases h2 : a = x
        · subst h2; simp [hab]
        · have h3 : ¬ (b = x ∧ x ≤ a) := by
            rintro ⟨hb, hxa⟩
            exact h2 (le_antisymm (hb ▸ hab) hxa)
          simp [h1, h2, h3]
    · simp only [hab, if_false]
      have hba : b ≤ a := le_of_lt (not_le.mp hab)
      by_cases h1 : b ∈ is
      · simp [h1]
      · by_cases h2 : b = x
        · subst h2
          have h3 : ¬ (a = b) := fun h => hab (h ▸ le_refl _)
          simp [h3, hba]
        · have h3 : ¬ (a = x ∧ x ≤ b) := by
            rintro ⟨ha, hxb⟩
            exact hab (ha ▸ hxb)
          simp [h1, h2, h3]

/-- Woodbury algebra: with `W * A = 1` and `M * Mi = 1` for `M = 1 + Zᵀ A (Z B)`,
the matrix `A - A (Z B) (Mi (Zᵀ A))` is a right inverse of `W + Z B Zᵀ`. -/
theorem woodbury_right {n c : ℕ} (A W : Matrix (Fin n) (Fin n) K) (B Mi : Matrix (Fin c) (Fin c) K)
    (Z : Matrix (Fin n) (Fin c) K) (hWA : W * A = 1)
    (hM : (1 + Zᵀ * A * (Z * B)) * Mi = 1) :
    (W + Z * B * Zᵀ) * (A - A * (Z * B) * (Mi * (Zᵀ * A))) = 1 := by
  have h1 : Zᵀ * A * (Z * B) * Mi = 1 - Mi := by
    rw [Matrix.add_mul, Matrix.one_mul] at hM
    exact eq_sub_of_add_eq' hM
  have h2 : W * (A * (Z * B) * (Mi * (Zᵀ * A))) = Z * B * (Mi * (Zᵀ * A)) := by
    rw [← Matrix.mul_assoc, ← Matrix.mul_assoc W, hWA, Matrix.one_mul]
  have h3 : Z * B * Zᵀ * (A * (Z * B) * (Mi * (Zᵀ * A)))
      = Z * B * ((Zᵀ * A * (Z * B) * Mi) * (Zᵀ * A)) := by
    simp only [Matrix.mul_assoc]
  rw [Matrix.add_mul, Matrix.mul_sub, Matrix.mul_sub, hWA, h2, h3, h1, Matrix.sub_mul,
    Matrix.one_mul, Matrix.mul_sub]
  simp only [Matrix.mul_assoc]
  abel

/-- Woodbury identity for `invertPseudoVar` when its sections run in program order:
for invertible `A`, with `ZtA = Zᵀ * A`, when the middle matrix `I + ZtA * Z * B` is
invertible and the exact-inverse branch is taken, the call returns
`A - A * Z * B * (I + ZtA * Z * B)⁻¹ * ZtA` whatever the arrays held before, and this
matrix is a two-sided inverse of the materialised pseudo-variance `A⁻¹ + Z * B * Zᵀ`. -/
theorem invertPseudoVarSched_woodbury [LinearOrder K] {n c : ℕ}
    (rcond : (k : ℕ) → Matrix (Fin k) (Fin k) K → K)
    (pinv : Matrix (Fin c) (Fin c) K → Matrix (Fin c) (Fin c) K)
    (A : Matrix (Fin n) (Fin n) K) (B : Matrix (Fin c) (Fin c) K)
    (Z : Matrix (Fin n) (Fin c) K) (st0 : Shared K n c)
    (hA : A.det ≠ 0)
    (hmid : (1 + Zᵀ * A * Z * B).det ≠ 0)
    (hbranch : ¬ rcond c (1 + Zᵀ * A * Z * B) < 1e-12) :
    ∃ V, invertPseudoVarSched true rcond pinv A B Z (Zᵀ * A) st0 = .ok V ∧
      V = A - A * Z * B * (1 + Zᵀ * A * Z * B)⁻¹ * (Zᵀ * A) ∧
      V * (A⁻¹ + Z * B * Zᵀ) = 1 ∧ (A⁻¹ + Z * B * Zᵀ) * V = 1 := by
  have hassoc : (1 : Matrix (Fin c) (Fin c) K) + Zᵀ * A * (Z * B) = 1 + Zᵀ * A * Z * B := by
    rw [Matrix.mul_assoc (Zᵀ * A) Z B]
  have hmid2 : (1 + Zᵀ * A * (Z * B)).det ≠ 0 := by rw [hassoc]; exact hmid
  have hV : invertPseudoVarSched true rcond pinv A B Z (Zᵀ * A) st0
      = .ok (A - A * (Z * B) * ((1 + Zᵀ * A * (Z * B))⁻¹ * (Zᵀ * A))) := by
    unfold invertPseudoVarSched sectionMid sectionZB midSection
    simp only [if_true]
    rw [if_neg (by rw [hassoc]; exact hbranch), inv_eq_ok _ hmid2]
  have hright : (A⁻¹ + Z * B * Zᵀ) * (A - A * (Z * B) * ((1 + Zᵀ * A * (Z * B))⁻¹ * (Zᵀ * A)))
      = 1 :=
    woodbury_right A A⁻¹ B _ Z (Matrix.nonsing_inv_mul A (isUnit_iff_ne_zero.mpr hA))
      (Matrix.mul_nonsing_inv _ (isUnit_iff_ne_zero.mpr hmid2))
  refine ⟨_, hV, ?_, Matrix.mul_eq_one_comm.mp hright, hright⟩
  rw [hassoc]
  simp only [Matrix.mul_assoc]

/-- C2. Newton equation for Fisher scoring: when the information matrix `hess` is
invertible, `FisherScore hess score theta_hat` returns an update `theta` with
`hess * (theta - theta_hat) = score`. -/
theorem FisherScore_newton [DecidableEq K] {c : ℕ} (hess : Matrix (Fin c) (Fin c) K)
    (score_vec theta_hat : Fin c → K) (hdet : hess.det ≠ 0) :
    ∃ theta, FisherScore hess score_vec theta_hat = .ok theta ∧
      Matrix.mulVec hess (theta - theta_hat) = score_vec := by
  refine ⟨theta_hat + Matrix.mulVec hess⁻¹ score_vec, ?_, ?_⟩
  · unfold FisherScore
    rw [inv_eq_ok hess hdet]
  · rw [add_sub_cancel_left, Matrix.mulVec_mulVec,
      Matrix.mul_nonsing_inv hess (isUnit_iff_ne_zero.mpr hdet), Matrix.one_mulVec]

/-- Witness for C2 at the information matrix `[[2, 1], [1, 2]]`. -/
theorem FisherScore_newton_witness :
    ∃ theta, FisherScore exHess exVec exVec = .ok theta ∧
      Matrix.mulVec exHess (theta - exVec) = exVec :=
  FisherScore_newton exHess exVec exVec (by simp [exHess, Matrix.det_fin_two]; norm_num)

/-- C3. The function `solve_equations` solves the mixed-model equations: for an invertible
coefficient matrix it returns a vector `theta` indexed by `Fin (m + c)` with
`coeffmat * theta = [Xt * Winv * ystar ; Zt * Winv * ystar]` (the fixed-effect block
in the first `m` positions), and the result is the same for every `beta` and `u`. -/
theorem solve_equations_solves [DecidableEq K] (c m : ℕ) {n : ℕ}
    (Winv : Matrix (Fin n) (Fin n) K) (Zt : Matrix (Fin c) (Fin n) K)
    (Xt : Matrix (Fin m) (Fin n) K) (coeffmat : Matrix (Fin (m + c)) (Fin (m + c)) K)
    (beta : Fin m → K) (u : Fin c → K) (ystar : Fin n → K) (hdet : coeffmat.det ≠ 0) :
    (∃ theta : Fin (m + c) → K,
      solve_equations c m Winv Zt Xt coeffmat beta u ystar = .ok theta ∧
      Matrix.mulVec coeffmat theta
        = Fin.append (Matrix.mulVec (Xt * Winv) ystar) (Matrix.mulVec (Zt * Winv) ystar) ∧
      (∀ i : Fin m, Matrix.mulVec coeffmat theta (Fin.castAdd c i)
        = Matrix.mulVec (Xt * Winv) ystar i) ∧
      (∀ j : Fin c, Matrix.mulVec coeffmat theta (Fin.natAdd m j)
        = Matrix.mulVec (Zt * Winv) ystar j)) ∧
    ∀ (beta2 : Fin m → K) (u2 : Fin c → K),
      solve_equations c m Winv Zt Xt coeffmat beta2 u2 ystar
        = solve_equations c m Winv Zt Xt coeffmat beta u ystar := by
  refine ⟨⟨Matrix.mulVec coeffmat⁻¹
      (Fin.append (Matrix.mulVec (Xt * Winv) ystar) (Matrix.mulVec (Zt * Winv) ystar)),
    ?_, ?_, ?_, ?_⟩, fun _ _ => rfl⟩
  · unfold solve_equations
    simp only []
    rw [inv_eq_ok coeffmat hdet]
  · rw [Matrix.mulVec_mulVec, Matrix.mul_nonsing_inv coeffmat (isUnit_iff_ne_zero.mpr hdet),
      Matrix.one_mulVec]
  · intro i
    rw [Matrix.mulVec_mulVec, Matrix.mul_nonsing_inv coeffmat (isUnit_iff_ne_zero.mpr hdet),
      Matrix.one_mulVec, Fin.append_left]
  · intro j
    rw [Matrix.mulVec_mulVec, Matrix.mul_nonsing_inv coeffmat (isUnit_iff_ne_zero.mpr hdet),
      Matrix.one_mulVec, Fin.append_right]

/-- Witness for C3 with one fixed effect, one random effect and two observations. -/
theorem solve_equations_solves_witness :
    (∃ theta : Fin (1 + 1) → ℚ,
      solve_equations 1 1 exA exZᵀ exZᵀ exHess (fun _ => 0) (fun _ => 0) exVec = .ok theta ∧
      Matrix.mulVec exHess theta
        = Fin.append (Matrix.mulVec (exZᵀ * exA) exVec) (Matrix.mulVec (exZᵀ * exA) exVec) ∧
      (∀ i : Fin 1, Matrix.mulVec exHess theta (Fin.castAdd 1 i)
        = Matrix.mulVec (exZᵀ * exA) exVec i) ∧
      (∀ j : Fin 1, Matrix.mulVec exHess theta (Fin.natAdd 1 j)
        = Matrix.mulVec (exZᵀ * exA) exVec j)) ∧
    ∀ (beta2 : Fin 1 → ℚ) (u2 : Fin 1 → ℚ),
      solve_equations 1 1 exA exZᵀ exZᵀ exHess beta2 u2 exVec
        = solve_equations 1 1 exA exZᵀ exZᵀ exHess (fun _ => 0) (fun _ => 0) exVec :=
  solve_equations_solves 1 1 exA exZᵀ exZᵀ exHess (fun _ => 0) (fun _ => 0) exVec
    (by simp [exHess, Matrix.det_fin_two]; norm_num)

/-- The value stored by `sigmaInfoREML_arma` for the pair `(i, j)` of the upper
triangle. -/
theorem sigmaInfoREML_arma_fold {c n : ℕ} (sinfo0 : Matrix (Fin c) (Fin c) K)
    (pvstari : Fin c → Matrix (Fin n) (Fin n) K) (P : Matrix (Fin n) (Fin n) K)
    (a b : Fin c) :
    sigmaInfoREML_arma sinfo0 pvstari P a b
      = if a ≤ b then 0.5 * Matrix.trace (P * (pvstari a * P) * pvstari b)
        else 0.5 * Matrix.trace (P * (pvstari b * P) * pvstari a) := by
  have h := foldl_mirror (fun i j => 0.5 * Matrix.trace (P * (pvstari i * P) * pvstari j))
    (List.finRange c) sinfo0 a b
  simp only [List.mem_finRange, if_true] at h
  exact h

/-- Cyclic invariance of the trace for the REML information entries. -/
theorem trace_cycle {n : ℕ} (P U V : Matrix (Fin n) (Fin n) K) :
    Matrix.trace (P * (V * P) * U) = Matrix.trace (P * U * P * V) := by
  rw [Matrix.trace_mul_comm (P * (V * P)) U, ← Matrix.mul_assoc, ← Matrix.mul_assoc,
    Matrix.trace_mul_comm (U * P * V) P, ← Matrix.mul_assoc, ← Matrix.mul_assoc]

/-- All entries of `sigmaInfoREML_arma`, mirrored ones included. -/
theorem sigmaInfoREML_arma_apply {c n : ℕ} (sinfo0 : Matrix (Fin c) (Fin c) K)
    (pvstari : Fin c → Matrix (Fin n) (Fin n) K) (P : Matrix (Fin n) (Fin n) K)
    (i j : Fin c) :
    sigmaInfoREML_arma sinfo0 pvstari P i j
      = 0.5 * Matrix.trace (P * pvstari i * P * pvstari j) := by
  rw [sigmaInfoREML_arma_fold]
  split
  · rw [← Matrix.mul_assoc P]
  · rw [trace_cycle]

/-- The matrix returned by `sigmaInfoREML_arma` is symmetric. -/
theorem sigmaInfoREML_arma_symm {c n : ℕ} (sinfo0 : Matrix (Fin c) (Fin c) K)
    (pvstari : Fin c → Matrix (Fin n) (Fin n) K) (P : Matrix (Fin n) (Fin n) K) :
    (sigmaInfoREML_arma sinfo0 pvstari P)ᵀ = sigmaInfoREML_arma sinfo0 pvstari P := by
  ext i j
  rw [Matrix.transpose_apply, sigmaInfoREML_arma_fold, sigmaInfoREML_arma_fold]
  rcases lt_trichotomy i j with h | h | h
  · rw [if_neg (not_le.mpr h), if_pos (le_of_lt h)]
  · subst h; rfl
  · rw [if_pos (le_of_lt h), if_neg (not_le.mpr h)]

/-- All entries of `sigmaScoreREML_arma`, as computed by the loop body. -/
theorem sigmaScoreREML_arma_apply {c n : ℕ} (reml_score0 : Fin c → K)
    (pvstar_i : Fin c → Matrix (Fin n) (Fin n) K) (ystar : Fin n → K)
    (P : Matrix (Fin n) (Fin n) K) (i : Fin c) :
    sigmaScoreREML_arma reml_score0 pvstar_i ystar P i
      = -0.5 * Matrix.trace (P * pvstar_i i)
        + 0.5 * (Matrix.vecMul (Matrix.vecMul (Matrix.vecMul ystar P) (pvstar_i i)) P
            ⬝ᵥ ystar) := by
  have h := foldl_setElem (fun i => -0.5 * Matrix.trace (P * pvstar_i i)
      + 0.5 * (Matrix.vecMul (Matrix.vecMul (Matrix.vecMul ystar P) (pvstar_i i)) P ⬝ᵥ ystar))
    (List.finRange c) reml_score0 i
  simp only [List.mem_finRange, if_true] at h
  exact h

/-- All entries of `sigmaScore`, as computed by the loop body. -/
theorem sigmaScore_apply {c n m : ℕ} (score0 : Fin c → K) (ystar : Fin n → K)
    (beta : Fin m → K) (X : Matrix (Fin n) (Fin m) K)
    ( V_partial : Fin c → Matrix (Fin n) (Fin n) K) (V_star_inv : Matrix (Fin n) (Fin n) K)
    (i : Fin c) :
    sigmaScore score0 ystar beta X V_partial V_star_inv i
      = -0.5 * Matrix.trace (V_star_inv * V_partial i)
        + 0.5 * (Matrix.vecMul (Matrix.vecMul (Matrix.vecMul (ystar - Matrix.mulVec X beta)
            V_star_inv) ( V_partial i)) V_star_inv ⬝ᵥ (ystar - Matrix.mulVec X beta)) := by
  have h := foldl_setElem (fun i => -0.5 * Matrix.trace (V_star_inv * V_partial i)
      + 0.5 * (Matrix.vecMul (Matrix.vecMul (Matrix.vecMul (ystar - Matrix.mulVec X beta)
            V_star_inv) ( V_partial i)) V_star_inv ⬝ᵥ (ystar - Matrix.mulVec X beta)))
    (List.finRange c) score0 i
  simp only [List.mem_finRange, if_true] at h
  exact h

/-- All entries of `sigmaInformation`. -/
theorem sigmaInformation_apply {c n : ℕ} (V_star_inv : Matrix (Fin n) (Fin n) K)
    ( V_partial : Fin c → Matrix (Fin n) (Fin n) K) (i j : Fin c) :
    sigmaInformation V_star_inv V_partial i j
      = 0.5 * Matrix.trace (V_star_inv * V_partial i * V_star_inv * V_partial j) := by
  have h := foldl_setEntry_full
    (fun i j => 0.5 * Matrix.trace (V_star_inv * V_partial i * V_star_inv * V_partial j))
    (List.finRange c) 0 i j
  simp only [List.mem_finRange, if_true] at h
  exact h

/-- C4. REML information matrix: whatever the initial contents of the result buffer,
for every ordered pair `(i, j)` (upper triangle, diagonal and mirrored lower triangle)
entry `(i, j)` of `sigmaInfoREML_arma` is `0.5 * trace (P * dV_i * P * dV_j)`, and the
returned matrix is symmetric. -/
theorem sigmaInfoREML_arma_spec {c n : ℕ} (sinfo0 : Matrix (Fin c) (Fin c) K)
    (pvstari : Fin c → Matrix (Fin n) (Fin n) K) (P : Matrix (Fin n) (Fin n) K) :
    (∀ i j : Fin c, sigmaInfoREML_arma sinfo0 pvstari P i j
        = 0.5 * Matrix.trace (P * pvstari i * P * pvstari j)) ∧
      (sigmaInfoREML_arma sinfo0 pvstari P)ᵀ = sigmaInfoREML_arma sinfo0 pvstari P := by
  exact ⟨sigmaInfoREML_arma_apply sinfo0 pvstari P, sigmaInfoREML_arma_symm sinfo0 pvstari P⟩

/-- C5. REML score vector: whatever the initial contents of the result buffer, entry
`i` of `sigmaScoreREML_arma` is
`-0.5 * trace (P * dV_i) + 0.5 * (ystarᵀ * (P * dV_i * P) * ystar)`. -/
theorem sigmaScoreREML_arma_spec {c n : ℕ} (reml_score0 : Fin c → K)
    (pvstar_i : Fin c → Matrix (Fin n) (Fin n) K) (ystar : Fin n → K)
    (P : Matrix (Fin n) (Fin n) K) (i : Fin c) :
    sigmaScoreREML_arma reml_score0 pvstar_i ystar P i
      = -0.5 * Matrix.trace (P * pvstar_i i)
        + 0.5 * (ystar ⬝ᵥ Matrix.mulVec (P * pvstar_i i * P) ystar) := by
  rw [sigmaScoreREML_arma_apply, Matrix.vecMul_vecMul, Matrix.vecMul_vecMul,
    Matrix.dotProduct_mulVec, Matrix.mul_assoc P]

/-- C6. The non-REML estimators are the REML estimators with `V_star_inv` for `P`
and the residual `ystar - X * beta` for `ystar`: `sigmaScore` equals
`sigmaScoreREML_arma` on the residual, `sigmaInformation` equals
`sigmaInfoREML_arma` entry for entry (whatever the initial buffer contents of the
REML routines), and `sigmaInformation` is symmetric. -/
theorem nonREML_eq_REML {c n m : ℕ} (score0 reml_score0 : Fin c → K)
    (sinfo0 : Matrix (Fin c) (Fin c) K) (ystar : Fin n → K) (beta : Fin m → K)
    (X : Matrix (Fin n) (Fin m) K) ( V_partial : Fin c → Matrix (Fin n) (Fin n) K)
    (V_star_inv : Matrix (Fin n) (Fin n) K) :
    sigmaScore score0 ystar beta X V_partial V_star_inv
        = sigmaScoreREML_arma reml_score0 V_partial (ystar - Matrix.mulVec X beta) V_star_inv ∧
      (∀ i j : Fin c, sigmaInformation V_star_inv V_partial i j
        = sigmaInfoREML_arma sinfo0 V_partial V_star_inv i j) ∧
      sigmaInformation V_star_inv V_partial = sigmaInfoREML_arma sinfo0 V_partial V_star_inv ∧
      (sigmaInformation V_star_inv V_partial)ᵀ = sigmaInformation V_star_inv V_partial := by
  have hentry : ∀ i j : Fin c, sigmaInformation V_star_inv V_partial i j
      = sigmaInfoREML_arma sinfo0 V_partial V_star_inv i j := by
    intro i j
    rw [sigmaInformation_apply, sigmaInfoREML_arma_apply]
  have heq : sigmaInformation V_star_inv V_partial
      = sigmaInfoREML_arma sinfo0 V_partial V_star_inv := by
    ext i j
    exact hentry i j
  refine ⟨?_, hentry, heq, ?_⟩
  · funext i
    rw [sigmaScore_apply, sigmaScoreREML_arma_apply]
  · rw [heq]
    exact sigmaInfoREML_arma_symm sinfo0 V_partial V_star_inv

/-- The matrix built by `coeffMatrix` is the block matrix of its four products,
re-indexed from `Fin m ⊕ Fin c` to `Fin (m + c)`. -/
theorem coeffMatrix_eq_fromBlocks {n m c : ℕ} (X : Matrix (Fin n) (Fin m) K)
    (Winv : Matrix (Fin n) (Fin n) K) (Z : Matrix (Fin n) (Fin c) K)
    (Ginv : Matrix (Fin c) (Fin c) K) :
    coeffMatrix X Winv Z Ginv
      = Matrix.reindex finSumFinEquiv finSumFinEquiv
          (Matrix.fromBlocks (Xᵀ * Winv * X) (Xᵀ * Winv * Z) (Zᵀ * Winv * X)
            (Zᵀ * Winv * Z + Ginv)) := by
  ext i j
  induction i using Fin.addCases with
  | left i =>
    induction j using Fin.addCases with
    | left j => simp [coeffMatrix, join_cols, join_rows]
    | right j => simp [coeffMatrix, join_cols, join_rows]
  | right i =>
    induction j using Fin.addCases with
    | left j => simp [coeffMatrix, join_cols, join_rows]
    | right j => simp [coeffMatrix, join_cols, join_rows]

/-- C7. The function `coeffMatrix` builds the block matrix
`[Xᵀ Winv X, Xᵀ Winv Z ; Zᵀ Winv X, Zᵀ Winv Z + Ginv]` partitioned at index `m`, and
for symmetric `Winv` and `Ginv` the result equals its own transpose. -/
theorem coeffMatrix_blocks_symm {n m c : ℕ} (X : Matrix (Fin n) (Fin m) K)
    (Winv : Matrix (Fin n) (Fin n) K) (Z : Matrix (Fin n) (Fin c) K)
    (Ginv : Matrix (Fin c) (Fin c) K) (hW : Winvᵀ = Winv) (hG : Ginvᵀ = Ginv) :
    (∀ (i j : Fin m), coeffMatrix X Winv Z Ginv (Fin.castAdd c i) (Fin.castAdd c j)
        = (Xᵀ * Winv * X) i j) ∧
    (∀ (i : Fin m) (j : Fin c), coeffMatrix X Winv Z Ginv (Fin.castAdd c i) (Fin.natAdd m j)
        = (Xᵀ * Winv * Z) i j) ∧
    (∀ (i : Fin c) (j : Fin m), coeffMatrix X Winv Z Ginv (Fin.natAdd m i) (Fin.castAdd c j)
        = (Zᵀ * Winv * X) i j) ∧
    (∀ (i j : Fin c), coeffMatrix X Winv Z Ginv (Fin.natAdd m i) (Fin.natAdd m j)
        = (Zᵀ * Winv * Z + Ginv) i j) ∧
    (coeffMatrix X Winv Z Ginv)ᵀ = coeffMatrix X Winv Z Ginv := by
  refine ⟨?_, ?_, ?_, ?_, ?_⟩
  · intro i j; simp [coeffMatrix, join_cols, join_rows]
  · intro i j; simp [coeffMatrix, join_cols, join_rows]
  · intro i j; simp [coeffMatrix, join_cols, join_rows]
  · intro i j; simp [coeffMatrix, join_cols, join_rows]
  · rw [coeffMatrix_eq_fromBlocks]
    simp only [Matrix.reindex_apply, Matrix.transpose_submatrix, Matrix.fromBlocks_transpose,
      Matrix.transpose_mul, Matrix.transpose_add, Matrix.transpose_transpose, hW, hG,
      Matrix.mul_assoc]

/-- Witness for C7 with `X = Z = (1, 1)ᵀ`, `Winv = I₂` and `Ginv = (2)`. -/
theorem coeffMatrix_blocks_symm_witness :
    (∀ (i j : Fin 1), coeffMatrix exZ exA exZ exB (Fin.castAdd 1 i) (Fin.castAdd 1 j)
        = (exZᵀ * exA * exZ) i j) ∧
    (∀ (i : Fin 1) (j : Fin 1), coeffMatrix exZ exA exZ exB (Fin.castAdd 1 i) (Fin.natAdd 1 j)
        = (exZᵀ * exA * exZ) i j) ∧
    (∀ (i : Fin 1) (j : Fin 1), coeffMatrix exZ exA exZ exB (Fin.natAdd 1 i) (Fin.castAdd 1 j)
        = (exZᵀ * exA * exZ) i j) ∧
    (∀ (i j : Fin 1), coeffMatrix exZ exA exZ exB (Fin.natAdd 1 i) (Fin.natAdd 1 j)
        = (exZᵀ * exA * exZ + exB) i j) ∧
    (coeffMatrix exZ exA exZ exB)ᵀ = coeffMatrix exZ exA exZ exB :=
  coeffMatrix_blocks_symm exZ exA exZ exB (by simp [exA]) (by ext i j; simp [exB])

/-- A `submat` call whose index range lies inside the matrix succeeds. -/
theorem submat_ok (M : DMat K) (r1 c1 nr nc : ℕ) (hnr : 1 ≤ nr) (hnc : 1 ≤ nc)
    (hr : r1 + nr ≤ M.n_rows) (hc : c1 + nc ≤ M.n_cols) (r1z c1z r2z c2z : ℤ)
    (h1 : r1z = r1) (h2 : c1z = c1) (h3 : r2z = (r1 : ℤ) + nr - 1) (h4 : c2z = (c1 : ℤ) + nc - 1) :
    M.submat r1z c1z r2z c2z = .ok ⟨nr, nc, fun i j => M.elem (r1 + i) (c1 + j)⟩ := by
  subst h1 h2 h3 h4
  unfold DMat.submat
  rw [if_neg (by omega)]
  have e1 : ((r1 : ℤ) + nr - 1 - r1 + 1).toNat = nr := by omega
  have e2 : ((c1 : ℤ) + nc - 1 - c1 + 1).toNat = nc := by omega
  rw [e1, e2]
  simp


/-- The `.i()` of a square run-time sized matrix with non-zero determinant. -/
theorem DMat.i_ok [DecidableEq K] (n : ℕ) (f : ℕ → ℕ → K) (A : Matrix (Fin n) (Fin n) K)
    (hA : A = fun (a b : Fin n) => f a b) (h : A.det ≠ 0) :
    DMat.i ⟨n, n, f⟩ = .ok (DMat.ofMatrix A⁻¹) := by
  subst hA
  unfold DMat.i
  simp only [ne_eq, not_true_eq_false, if_false]
  rw [inv_eq_ok _ h]

/-- Product of run-time sized matrices of conforming sizes. -/
theorem DMat.mul_ok (p q r : ℕ) (f g : ℕ → ℕ → K) :
    DMat.mul ⟨p, q, f⟩ ⟨q, r, g⟩
      = .ok ⟨p, r, fun i j => ∑ k in Finset.range q, f i k * g k j⟩ := by
  simp [DMat.mul]

/-- Product with a statically sized square factor. -/
theorem DMat.mul_ofMatrix (p q : ℕ) (f : ℕ → ℕ → K) (B : Matrix (Fin q) (Fin q) K) :
    DMat.mul ⟨p, q, f⟩ (DMat.ofMatrix B)
      = .ok ⟨p, q, fun i j => ∑ k in Finset.range q, f i k * (DMat.ofMatrix B).elem k j⟩ := by
  simp [DMat.mul, DMat.ofMatrix]

/-- Difference of run-time sized matrices of equal sizes. -/
theorem DMat.sub_ok (p q : ℕ) (f g : ℕ → ℕ → K) :
    DMat.sub ⟨p, q, f⟩ ⟨p, q, g⟩ = .ok ⟨p, q, fun i j => f i j - g i j⟩ := by
  simp [DMat.sub]

/-- The `rcond` of a square run-time sized matrix. -/
theorem DMat.rcond_ok (rcond : (k : ℕ) → Matrix (Fin k) (Fin k) K → K) (n : ℕ)
    (f : ℕ → ℕ → K) :
    DMat.rcond rcond ⟨n, n, f⟩ = .ok (rcond n (fun a b => f a b)) := by
  simp [DMat.rcond]

/-- Entries of `DMat.ofMatrix` inside the sizes. -/
theorem DMat.ofMatrix_elem {r c : ℕ} (M : Matrix (Fin r) (Fin c) K) (i : Fin r) (j : Fin c) :
    (DMat.ofMatrix M).elem i j = M i j := by
  simp [DMat.ofMatrix]

/-- Diagonal of a statically sized square matrix, mapped by `g`. -/
theorem DMat.diag_ofMatrix {n : ℕ} (M : Matrix (Fin n) (Fin n) K) (g : K → K) :
    (DMat.ofMatrix M).diag.map g = List.ofFn (fun i : Fin n => g (M i i)) := by
  apply List.ext_getElem
  · simp [DMat.diag, DMat.ofMatrix]
  · intro i h1 h2
    have hi : i < n := by simpa using h2
    simp [DMat.diag, DMat.ofMatrix, hi]

/-- The matrix whose inverse `computeSE` takes is the Schur complement. -/
theorem schur_eq (M : DMat K) (m c : ℕ) (Li : Matrix (Fin c) (Fin c) K) :
    (fun (a b : Fin m) => M.elem (0 + a) (0 + b)
        - ∑ k in Finset.range c,
            (∑ l in Finset.range c, M.elem (0 + a) (m + l) * (DMat.ofMatrix Li).elem l k)
              * M.elem (m + k) (0 + b))
      = M.block 0 0 m m - M.block 0 m m c * Li * M.block m 0 c m := by
  funext a b
  rw [Matrix.sub_apply, Matrix.mul_apply, Finset.sum_range]
  congr 1
  apply Finset.sum_congr rfl
  intro k _
  rw [Matrix.mul_apply, Finset.sum_range]
  congr 1
  apply Finset.sum_congr rfl
  intro l _
  rw [DMat.ofMatrix_elem]
  rfl

/-- Normal form of `computeSE` on a coefficient matrix of the announced size whose
lower-right block is invertible: the singularity test on the Schur complement, then
its inverse, then the square roots of the diagonal. -/
theorem computeSE_reduce [LinearOrder K] (sqrt : K → K)
    (rcond : (k : ℕ) → Matrix (Fin k) (Fin k) K → K) (m c : ℕ) (coeff_mat : DMat K)
    (hm : 1 ≤ m) (hc : 1 ≤ c)
    (hcols : coeff_mat.n_cols = m + c) (hrows : coeff_mat.n_rows = m + c)
    (hLR : (coeff_mat.block m m c c).det ≠ 0) :
    computeSE sqrt rcond m c coeff_mat
      = if rcond m (coeff_mat.schur m c) < 1e-12 then
          .error "Standard Error coefficient matrix is computationally singular"
        else match inv (coeff_mat.schur m c) with
          | .error e => .error e
          | .ok Si => .ok (List.ofFn (fun i : Fin m => sqrt (Si i i))) := by
  have h_ul := submat_ok coeff_mat 0 0 m m hm hm (by omega) (by omega) 0 0 (m - 1) (m - 1)
    (by simp) (by simp) (by simp) (by simp)
  have h_ur := submat_ok coeff_mat 0 m m c hm hc (by omega) (by omega) 0 m (m - 1) (m + c - 1)
    (by simp) (by simp) (by simp) (by simp)
  have h_ll := submat_ok coeff_mat m 0 c m hc hm (by omega) (by omega) m 0 (m + c - 1) (m - 1)
    (by simp) (by simp) (by simp) (by simp)
  have h_lr := submat_ok coeff_mat m m c c hc hc (by omega) (by omega) m m (m + c - 1)
    (m + c - 1) (by simp) (by simp) (by simp) (by simp)
  have h_lri := DMat.i_ok c (fun i j => coeff_mat.elem (m + i) (m + j))
    (coeff_mat.block m m c c) rfl hLR
  have hS2 : coeff_mat.schur m c = coeff_mat.block 0 0 m m
      - coeff_mat.block 0 m m c * (coeff_mat.block m m c c)⁻¹ * coeff_mat.block m 0 c m := by
    rw [DMat.schur, invMat_eq]
  have hS3 := hS2.trans (schur_eq coeff_mat m c (coeff_mat.block m m c c)⁻¹).symm
  unfold computeSE
  simp only [hcols, hrows, Nat.cast_add, ne_eq, not_true_eq_false, if_false, bind, Except.bind,
    pure, Except.pure, h_ul, h_ur, h_ll, h_lr, h_lri, DMat.mul_ofMatrix, DMat.mul_ok,
    DMat.sub_ok, DMat.rcond_ok]
  rw [← hS3]
  by_cases hb : rcond m (coeff_mat.schur m c) < 1e-12
  · simp only [hb, decide_True, if_true]
  · simp only [hb, decide_False, Bool.false_eq_true, if_false]
    unfold DMat.i
    simp only [ne_eq, not_true_eq_false, if_false]
    rw [← hS3]
    cases inv (coeff_mat.schur m c) with
    | error e => rfl
    | ok Si => simp only [DMat.diag_ofMatrix]

/-- In the non-singular branch `computeSE` returns the square roots of the diagonal of
the inverse Schur complement. -/
theorem computeSE_ok [LinearOrder K] (sqrt : K → K)
    (rcond : (k : ℕ) → Matrix (Fin k) (Fin k) K → K) (m c : ℕ) (coeff_mat : DMat K)
    (hm : 1 ≤ m) (hc : 1 ≤ c)
    (hcols : coeff_mat.n_cols = m + c) (hrows : coeff_mat.n_rows = m + c)
    (hLR : (coeff_mat.block m m c c).det ≠ 0)
    (hS : (coeff_mat.schur m c).det ≠ 0)
    (hbranch : ¬ rcond m (coeff_mat.schur m c) < 1e-12) :
    computeSE sqrt rcond m c coeff_mat
      = .ok (List.ofFn (fun i : Fin m => sqrt ((coeff_mat.schur m c)⁻¹ i i))) := by
  rw [computeSE_reduce sqrt rcond m c coeff_mat hm hc hcols hrows hLR, if_neg hbranch,
    inv_eq_ok _ hS]

/-- Diagonal entries of a positive definite real matrix are positive. -/
theorem posDef_diag_pos {n : ℕ} {S : Matrix (Fin n) (Fin n) ℝ} (hS : S.PosDef) (i : Fin n) :
    0 < S i i := by
  have h := hS.2 (Pi.single i 1) (by
    intro h0
    have := congrFun h0 i
    simp at this)
  simpa [Matrix.mulVec_single_one, Matrix.single_one_dotProduct] using h

/-- Schur complement of the lower-right block of a positive definite block matrix is
positive definite, and so is the lower-right block. -/
theorem posDef_schur {m c : ℕ} (A : Matrix (Fin m) (Fin m) ℝ) (B : Matrix (Fin m) (Fin c) ℝ)
    (C : Matrix (Fin c) (Fin m) ℝ) (D : Matrix (Fin c) (Fin c) ℝ)
    (hN : (Matrix.fromBlocks A B C D).PosDef) :
    D.PosDef ∧ (A - B * D⁻¹ * C).PosDef := by
  have hH := hN.1
  rw [Matrix.isHermitian_fromBlocks_iff] at hH
  obtain ⟨hA, hBC, hCB, hD⟩ := hH
  have hDpos : D.PosDef := by
    refine ⟨hD, fun y hy => ?_⟩
    have h := hN.2 (Sum.elim 0 y) (by
      intro h0
      apply hy
      funext j
      have := congrFun h0 (Sum.inr j)
      simpa using this)
    simpa [Matrix.fromBlocks_mulVec, Function.star_sum_elim] using h
  refine ⟨hDpos, ?_⟩
  subst hBC
  letI : Invertible D := hDpos.isUnit.invertible
  refine ⟨(Matrix.IsHermitian.fromBlocks₂₂ A B hD).mp hN.1, fun x hx => ?_⟩
  have h := hN.2 (Sum.elim x (-((D⁻¹ * Bᴴ) *ᵥ x))) (by
    intro h0
    apply hx
    funext j
    have := congrFun h0 (Sum.inl j)
    simpa using this)
  rw [Matrix.dotProduct_mulVec, Matrix.schur_complement_eq₂₂ A B _ _ hD, add_neg_cancel,
    Matrix.dotProduct_zero, zero_add, ← Matrix.dotProduct_mulVec] at h
  exact h

/-- Positive definiteness is preserved by re-indexing along an equivalence. -/
theorem posDef_submatrix_equiv {ι κ : Type} [Fintype ι] [Fintype κ] [DecidableEq ι]
    [DecidableEq κ] (M : Matrix ι ι ℝ) (e : κ ≃ ι) (hM : M.PosDef) :
    (M.submatrix e e).PosDef := by
  refine ⟨hM.1.submatrix e, fun x hx => ?_⟩
  have h := hM.2 (x ∘ e.symm) (by
    intro h0
    apply hx
    funext j
    have := congrFun h0 (e j)
    simpa using this)
  rw [Matrix.submatrix_mulVec_equiv]
  have h2 : star x ⬝ᵥ (M *ᵥ (x ∘ e.symm)) ∘ e = star (x ∘ e.symm) ⬝ᵥ M *ᵥ (x ∘ e.symm) := by
    rw [show star (x ∘ e.symm) = (star x) ∘ e.symm from rfl, Matrix.comp_equiv_symm_dotProduct]
  rw [h2]
  exact h

/-- The blocks of `DMat.ofMatrix M` are the blocks of `M` re-indexed to
`Fin m ⊕ Fin c`. -/
theorem ofMatrix_fromBlocks {m c : ℕ} (M : Matrix (Fin (m + c)) (Fin (m + c)) K) :
    M.submatrix finSumFinEquiv finSumFinEquiv
      = Matrix.fromBlocks ((DMat.ofMatrix M).block 0 0 m m) ((DMat.ofMatrix M).block 0 m m c)
          ((DMat.ofMatrix M).block m 0 c m) ((DMat.ofMatrix M).block m m c c) := by
  ext i j
  rcases i with i | i <;> rcases j with j | j <;>
    simp [DMat.block, DMat.ofMatrix, Fin.castAdd, Fin.natAdd, Fin.castLE] <;>
    (split_ifs with h <;> first | rfl | (exfalso; omega))

/-- Length is unchanged by the loop of `computeTScore`. -/
theorem tscoreLoop_length (curr_beta SE : List K) (xs : List ℕ) (tscore : List K) :
    (tscoreLoop curr_beta SE xs tscore).length = tscore.length := by
  unfold tscoreLoop
  induction xs generalizing tscore with
  | nil => rfl
  | cons x xs ih => rw [List.foldl_cons, ih, List.length_set]

/-- Contents after the loop of `computeTScore`: the quotient at the visited indices,
the old contents elsewhere. -/
theorem tscoreLoop_getElem? (curr_beta SE : List K) (xs : List ℕ) (tscore : List K) (i : ℕ)
    (hi : i < tscore.length) :
    (tscoreLoop curr_beta SE xs tscore)[i]?
      = if i ∈ xs then some (curr_beta.getD i 0 / SE.getD i 0) else tscore[i]? := by
  unfold tscoreLoop
  induction xs generalizing tscore with
  | nil => simp
  | cons x xs ih =>
    rw [List.foldl_cons, ih _ (by rw [List.length_set]; exact hi)]
    by_cases h1 : i ∈ xs
    · simp [h1]
    · by_cases h2 : i = x
      · subst h2
        simp [h1, hi]
      · have h3 : ¬ x = i := fun h => h2 h.symm
        simp [h1, h2, List.getElem?_set, h3]

/-- Value of `computeTScore` on inputs of equal length. -/
theorem computeTScore_ok (tscore0 : ℕ → K) (curr_beta SE : List K)
    (h : curr_beta.length = SE.length) :
    computeTScore tscore0 curr_beta SE
      = .ok ((List.range curr_beta.length).map
          (fun i => curr_beta.getD i 0 / SE.getD i 0)) := by
  unfold computeTScore
  simp only [ne_eq, h, not_true_eq_false, if_false]
  congr 1
  apply List.ext_getElem?
  intro i
  by_cases hi : i < SE.length
  · rw [tscoreLoop_getElem? _ _ _ _ _ (by simpa using hi)]
    simp [hi]
  · have h1 : (tscoreLoop curr_beta SE (List.range SE.length)
        (List.map tscore0 (List.range SE.length))).length ≤ i := by
      rw [tscoreLoop_length]; simpa using hi
    rw [List.getElem?_eq_none h1, List.getElem?_eq_none (by simpa using hi)]

/-- C8. For `m, c ≥ 1` and a coefficient matrix of size `(m + c) × (m + c)` whose
lower-right block `LR` and Schur complement `S = UL - UR * LR⁻¹ * LL` (blocks
partitioned at index `m`) are invertible, in the non-singular branch `computeSE`
returns a vector of exactly `m` entries whose `i`-th entry is `sqrt ((S⁻¹) i i)`. -/
theorem computeSE_schur [LinearOrder K] (sqrt : K → K)
    (rcond : (k : ℕ) → Matrix (Fin k) (Fin k) K → K) (m c : ℕ) (coeff_mat : DMat K)
    (hm : 1 ≤ m) (hc : 1 ≤ c)
    (hcols : coeff_mat.n_cols = m + c) (hrows : coeff_mat.n_rows = m + c)
    (hLR : (coeff_mat.block m m c c).det ≠ 0)
    (hS : (coeff_mat.block 0 0 m m
      - coeff_mat.block 0 m m c * (coeff_mat.block m m c c)⁻¹ * coeff_mat.block m 0 c m).det ≠ 0)
    (hbranch : ¬ rcond m (coeff_mat.block 0 0 m m
      - coeff_mat.block 0 m m c * (coeff_mat.block m m c c)⁻¹ * coeff_mat.block m 0 c m)
        < 1e-12) :
    ∃ se, computeSE sqrt rcond m c coeff_mat = .ok se ∧ se.length = m ∧
      ∀ i : Fin m, se[i.val]? = some (sqrt ((coeff_mat.block 0 0 m m
        - coeff_mat.block 0 m m c * (coeff_mat.block m m c c)⁻¹
          * coeff_mat.block m 0 c m)⁻¹ i i)) := by
  have hS2 : coeff_mat.schur m c = coeff_mat.block 0 0 m m
      - coeff_mat.block 0 m m c * (coeff_mat.block m m c c)⁻¹ * coeff_mat.block m 0 c m := by
    rw [DMat.schur, invMat_eq]
  rw [← hS2] at hS hbranch ⊢
  refine ⟨_, computeSE_ok sqrt rcond m c coeff_mat hm hc hcols hrows hLR hS hbranch, by simp, ?_⟩
  intro i
  simp

/-- Witness for C8 at the coefficient matrix `[[2, 1], [1, 2]]` with `m = c = 1`. -/
theorem computeSE_schur_witness :
    ∃ se, computeSE id (fun _ _ => 1) (1 : ℕ) (1 : ℕ) (DMat.ofMatrix exHess) = .ok se ∧
      se.length = 1 ∧
      ∀ i : Fin 1, se[i.val]? = some (id (((DMat.ofMatrix exHess).block 0 0 1 1
        - (DMat.ofMatrix exHess).block 0 1 1 1 * ((DMat.ofMatrix exHess).block 1 1 1 1)⁻¹
          * (DMat.ofMatrix exHess).block 1 0 1 1)⁻¹ i i)) :=
  computeSE_schur id (fun _ _ => 1) 1 1 (DMat.ofMatrix exHess) (le_refl 1) (le_refl 1) rfl rfl
    (by simp [Matrix.det_fin_one, DMat.block, DMat.ofMatrix, exHess])
    (by
      simp [Matrix.det_fin_one, DMat.block, DMat.ofMatrix, exHess, Matrix.inv_def,
        Matrix.adjugate_fin_one, Matrix.mul_apply]
      norm_num)
    (by norm_num)

/-- C9. Standard errors are non-negative reals: for a symmetric positive-definite
real coefficient matrix of size `m + c` with `m, c ≥ 1`, every diagonal entry of the
inverse of the Schur complement `S = UL - UR * LR⁻¹ * LL` is strictly positive; every
entry that `computeSE` returns is the square root of a positive number and is
non-negative; and in the non-singular branch `computeSE` does return `m` entries. -/
theorem computeSE_posDef (rcond : (k : ℕ) → Matrix (Fin k) (Fin k) ℝ → ℝ) (m c : ℕ)
    (M : Matrix (Fin (m + c)) (Fin (m + c)) ℝ) (hm : 1 ≤ m) (hc : 1 ≤ c) (hM : M.PosDef) :
    (∀ i : Fin m, 0 < ((DMat.ofMatrix M).block 0 0 m m
        - (DMat.ofMatrix M).block 0 m m c * ((DMat.ofMatrix M).block m m c c)⁻¹
          * (DMat.ofMatrix M).block m 0 c m)⁻¹ i i) ∧
    (∀ se, computeSE Real.sqrt rcond m c (DMat.ofMatrix M) = .ok se →
      ∀ x ∈ se, ∃ d : ℝ, 0 < d ∧ x = Real.sqrt d ∧ 0 ≤ x) ∧
    (¬ rcond m ((DMat.ofMatrix M).block 0 0 m m
        - (DMat.ofMatrix M).block 0 m m c * ((DMat.ofMatrix M).block m m c c)⁻¹
          * (DMat.ofMatrix M).block m 0 c m) < 1e-12 →
      ∃ se, computeSE Real.sqrt rcond m c (DMat.ofMatrix M) = .ok se ∧ se.length = m) := by
  have hS2 : (DMat.ofMatrix M).schur m c = (DMat.ofMatrix M).block 0 0 m m
      - (DMat.ofMatrix M).block 0 m m c * ((DMat.ofMatrix M).block m m c c)⁻¹
        * (DMat.ofMatrix M).block m 0 c m := by
    rw [DMat.schur, invMat_eq]
  rw [← hS2]
  have hN := posDef_submatrix_equiv M finSumFinEquiv hM
  rw [ofMatrix_fromBlocks] at hN
  obtain ⟨hD, hS⟩ := posDef_schur _ _ _ _ hN
  rw [← hS2] at hS
  have hpos : ∀ i : Fin m, 0 < ((DMat.ofMatrix M).schur m c)⁻¹ i i :=
    fun i => posDef_diag_pos hS.inv i
  have hred := computeSE_reduce Real.sqrt rcond m c (DMat.ofMatrix M) hm hc rfl rfl
    hD.det_pos.ne'
  rw [inv_eq_ok _ hS.det_pos.ne'] at hred
  refine ⟨hpos, ?_, ?_⟩
  · intro se hse x hx
    rw [hred] at hse
    split at hse
    · cases hse
    · cases hse
      obtain ⟨i, rfl⟩ := (List.mem_ofFn _ _).mp hx
      exact ⟨_, hpos i, rfl, Real.sqrt_nonneg _⟩
  · intro hb
    rw [hred, if_neg hb]
    exact ⟨_, rfl, by simp⟩

/-- Witness for C9 at the 2-by-2 identity coefficient matrix with `m = c = 1`. -/
theorem computeSE_posDef_witness :
    (∀ i : Fin 1, 0 < ((DMat.ofMatrix exId).block 0 0 1 1
        - (DMat.ofMatrix exId).block 0 1 1 1 * ((DMat.ofMatrix exId).block 1 1 1 1)⁻¹
          * (DMat.ofMatrix exId).block 1 0 1 1)⁻¹ i i) ∧
    (∀ se, computeSE Real.sqrt (fun _ _ => 1) (1 : ℕ) (1 : ℕ) (DMat.ofMatrix exId) = .ok se →
      ∀ x ∈ se, ∃ d : ℝ, 0 < d ∧ x = Real.sqrt d ∧ 0 ≤ x) ∧
    (¬ (fun (_ : ℕ) (_ : Matrix (Fin 1) (Fin 1) ℝ) => (1 : ℝ)) 1
        ((DMat.ofMatrix exId).block 0 0 1 1
        - (DMat.ofMatrix exId).block 0 1 1 1 * ((DMat.ofMatrix exId).block 1 1 1 1)⁻¹
          * (DMat.ofMatrix exId).block 1 0 1 1) < 1e-12 →
      ∃ se, computeSE Real.sqrt (fun _ _ => 1) (1 : ℕ) (1 : ℕ) (DMat.ofMatrix exId) = .ok se ∧
        se.length = 1) :=
  computeSE_posDef (fun _ _ => 1) 1 1 exId (le_refl 1) (le_refl 1) Matrix.PosDef.one

/-- C10. The function `computeTScore` fails exactly when the two lengths differ; on
inputs of equal length it returns a vector of that length whose `i`-th entry is
`curr_beta[i] / SE[i]`, whatever the initial contents of the result buffer. -/
theorem computeTScore_spec (tscore0 : ℕ → K) (curr_beta SE : List K) :
    ((∃ e, computeTScore tscore0 curr_beta SE = .error e) ↔ curr_beta.length ≠ SE.length) ∧
    (curr_beta.length = SE.length →
      ∃ t, computeTScore tscore0 curr_beta SE = .ok t ∧ t.length = curr_beta.length ∧
        t.length = SE.length ∧
        ∀ (i : ℕ) (_ : i < curr_beta.length) (_ : i < SE.length),
          t[i]? = some (curr_beta[i] / SE[i])) := by
  constructor
  · constructor
    · rintro ⟨e, he⟩ heq
      rw [computeTScore_ok tscore0 curr_beta SE heq] at he
      cases he
    · intro hne
      refine ⟨"standard errors and beta estimate sizes differ", ?_⟩
      unfold computeTScore
      simp only [ne_eq, hne, not_false_eq_true, if_true]
  · intro heq
    refine ⟨_, computeTScore_ok tscore0 curr_beta SE heq, by simp, by simp [heq], ?_⟩
    intro i hb hs
    simp [hb, hs, List.getD_eq_getElem?_getD]

/-- Witness for C10 at `curr_beta = [1, 2]`, `SE = [2, 4]`. -/
theorem computeTScore_spec_witness :
    ∃ t, computeTScore (fun _ => (0 : ℚ)) [1, 2] [2, 4] = .ok t ∧
      t.length = [(1 : ℚ), 2].length ∧ t.length = [(2 : ℚ), 4].length ∧
      ∀ (i : ℕ) (_ : i < [(1 : ℚ), 2].length) (_ : i < [(2 : ℚ), 4].length),
        t[i]? = some ([(1 : ℚ), 2][i] / [(2 : ℚ), 4][i]) :=
  (computeTScore_spec (fun _ => (0 : ℚ)) [1, 2] [2, 4]).2 rfl

/-! ## Dimension checks, `varCovar`, rank-one updates and error messages -/

/-- A column-count mismatch makes `computeSE` stop with the column message. -/
theorem computeSE_cols_error [LinearOrder K] (sqrt : K → K)
    (rcond : (k : ℕ) → Matrix (Fin k) (Fin k) K → K) (m c : ℤ) (coeff_mat : DMat K)
    (h : (coeff_mat.n_cols : ℤ) ≠ m + c) :
    computeSE sqrt rcond m c coeff_mat
      = .error "N cols and input dimensions m + c are not equal" := by
  unfold computeSE
  simp only [ne_eq, h, not_false_eq_true, if_true, bind, Except.bind, throw, throwThe,
    MonadExceptOf.throw]

/-- A row-count mismatch (the column count being right) makes `computeSE` stop with the
row message. -/
theorem computeSE_rows_error [LinearOrder K] (sqrt : K → K)
    (rcond : (k : ℕ) → Matrix (Fin k) (Fin k) K → K) (m c : ℤ) (coeff_mat : DMat K)
    (hc : (coeff_mat.n_cols : ℤ) = m + c) (h : (coeff_mat.n_rows : ℤ) ≠ m + c) :
    computeSE sqrt rcond m c coeff_mat
      = .error "N rows and input dimensions m + c are not equal" := by
  unfold computeSE
  simp only [ne_eq, hc, h, not_true_eq_false, not_false_eq_true, if_true, if_false, bind,
    Except.bind, throw, throwThe, MonadExceptOf.throw, pure, Except.pure]

/-- Errors of `submat`. -/
theorem submat_error (M : DMat K) (r1 c1 r2 c2 : ℤ) (e : String)
    (h : M.submat r1 c1 r2 c2 = .error e) :
    e = "Mat::submat(): indices out of bounds or incorrectly used" := by
  unfold DMat.submat at h
  split at h
  · cases h; rfl
  · cases h

/-- Errors of `.i()`. -/
theorem DMat.i_error [DecidableEq K] (M : DMat K) (e : String) (h : M.i = .error e) :
    e = "inv(): given matrix must be square sized" ∨ e = "inv(): matrix is singular" := by
  unfold DMat.i at h
  split at h
  · cases h; exact Or.inl rfl
  · split at h
    · rename_i e2 he
      cases h
      unfold inv at he
      split at he
      · cases he; exact Or.inr rfl
      · cases he
    · cases h

/-- Errors of the matrix product. -/
theorem DMat.mul_error (A B : DMat K) (e : String) (h : A.mul B = .error e) :
    e = "matrix multiplication: incompatible matrix dimensions" := by
  unfold DMat.mul at h
  split at h
  · cases h; rfl
  · cases h

/-- Errors of the matrix difference. -/
theorem DMat.sub_error (A B : DMat K) (e : String) (h : A.sub B = .error e) :
    e = "subtraction: incompatible matrix dimensions" := by
  unfold DMat.sub at h
  split at h
  · cases h; rfl
  · cases h

/-- Errors of `rcond`. -/
theorem DMat.rcond_error (rcond : (k : ℕ) → Matrix (Fin k) (Fin k) K → K) (M : DMat K)
    (e : String) (h : M.rcond rcond = .error e) :
    e = "rcond(): matrix must be square sized" := by
  unfold DMat.rcond at h
  split at h
  · cases h; rfl
  · cases h

/-- On a coefficient matrix of the announced size every error of `computeSE` comes from
a later stage than the two dimension checks. -/
theorem computeSE_sized_error [LinearOrder K] (sqrt : K → K)
    (rcond : (k : ℕ) → Matrix (Fin k) (Fin k) K → K) (m c : ℤ) (coeff_mat : DMat K)
    (hc : (coeff_mat.n_cols : ℤ) = m + c) (hr : (coeff_mat.n_rows : ℤ) = m + c) (e : String)
    (h : computeSE sqrt rcond m c coeff_mat = .error e) :
    e ∈ ["Mat::submat(): indices out of bounds or incorrectly used",
      "inv(): given matrix must be square sized", "inv(): matrix is singular",
      "matrix multiplication: incompatible matrix dimensions",
      "subtraction: incompatible matrix dimensions",
      "rcond(): matrix must be square sized",
      "Standard Error coefficient matrix is computationally singular"] := by
  unfold computeSE at h
  simp only [ne_eq, hc, hr, not_true_eq_false, if_false, bind, Except.bind, throw, throwThe,
    MonadExceptOf.throw, pure, Except.pure] at h
  split at h
  · rename_i e1 h1; cases h; simp [submat_error _ _ _ _ _ _ h1]
  split at h
  · rename_i e1 h1; cases h; simp [submat_error _ _ _ _ _ _ h1]
  split at h
  · rename_i e1 h1; cases h; simp [submat_error _ _ _ _ _ _ h1]
  split at h
  · rename_i e1 h1; cases h; simp [submat_error _ _ _ _ _ _ h1]
  split at h
  · rename_i e1 h1; cases h; rcases DMat.i_error _ _ h1 with h2 | h2 <;> simp [h2]
  split at h
  · rename_i e1 h1; cases h; simp [DMat.mul_error _ _ _ h1]
  split at h
  · rename_i e1 h1; cases h; simp [DMat.mul_error _ _ _ h1]
  split at h
  · rename_i e1 h1; cases h; simp [DMat.sub_error _ _ _ h1]
  split at h
  · rename_i e1 h1; cases h; simp [DMat.rcond_error _ _ _ h1]
  split at h
  · cases h; simp
  split at h
  · rename_i e1 h1; cases h; rcases DMat.i_error _ _ h1 with h2 | h2 <;> simp [h2]
  · cases h


/-- C11. The function `computeSE` rejects mis-sized coefficient matrices before touching
any block: when the number of columns differs from `m + c` it stops with the column
message, when the columns agree and the number of rows differs it stops with the row
message, in both cases whatever the entries of the matrix are (no block is read); and
on a matrix of size exactly `(m + c) × (m + c)` neither dimension error is raised. -/
theorem computeSE_dimension_check [LinearOrder K] (sqrt : K → K)
    (rcond : (k : ℕ) → Matrix (Fin k) (Fin k) K → K) (m c : ℤ) (coeff_mat : DMat K) :
    ((coeff_mat.n_cols : ℤ) ≠ m + c →
      ∀ elem2 : ℕ → ℕ → K,
        computeSE sqrt rcond m c ⟨coeff_mat.n_rows, coeff_mat.n_cols, elem2⟩
          = .error "N cols and input dimensions m + c are not equal") ∧
    ((coeff_mat.n_cols : ℤ) = m + c → (coeff_mat.n_rows : ℤ) ≠ m + c →
      ∀ elem2 : ℕ → ℕ → K,
        computeSE sqrt rcond m c ⟨coeff_mat.n_rows, coeff_mat.n_cols, elem2⟩
          = .error "N rows and input dimensions m + c are not equal") ∧
    ((coeff_mat.n_cols : ℤ) = m + c → (coeff_mat.n_rows : ℤ) = m + c →
      computeSE sqrt rcond m c coeff_mat
          ≠ .error "N cols and input dimensions m + c are not equal" ∧
      computeSE sqrt rcond m c coeff_mat
          ≠ .error "N rows and input dimensions m + c are not equal") := by
  refine ⟨fun h elem2 => computeSE_cols_error sqrt rcond m c _ h,
    fun hc h elem2 => computeSE_rows_error sqrt rcond m c _ hc h, fun hc hr => ⟨?_, ?_⟩⟩
  · intro h
    have := computeSE_sized_error sqrt rcond m c coeff_mat hc hr _ h
    revert this
    decide
  · intro h
    have := computeSE_sized_error sqrt rcond m c coeff_mat hc hr _ h
    revert this
    decide

/-- Witness for C11: a 3-by-3 and a 3-by-2 matrix against `m = c = 1`, and the 2-by-2
matrix `[[2, 1], [1, 2]]`. -/
theorem computeSE_dimension_check_witness :
    (∀ elem2 : ℕ → ℕ → ℚ, computeSE id (fun _ _ => 1) 1 1 ⟨3, 3, elem2⟩
        = .error "N cols and input dimensions m + c are not equal") ∧
    (∀ elem2 : ℕ → ℕ → ℚ, computeSE id (fun _ _ => 1) 1 1 ⟨3, 2, elem2⟩
        = .error "N rows and input dimensions m + c are not equal") ∧
    (computeSE id (fun _ _ => 1) 1 1 (DMat.ofMatrix exHess)
        ≠ .error "N cols and input dimensions m + c are not equal" ∧
      computeSE id (fun _ _ => 1) 1 1 (DMat.ofMatrix exHess)
        ≠ .error "N rows and input dimensions m + c are not equal") :=
  ⟨(computeSE_dimension_check id (fun _ _ => 1) 1 1 ⟨3, 3, fun _ _ => 0⟩).1 (by decide),
    (computeSE_dimension_check id (fun _ _ => 1) 1 1 ⟨3, 2, fun _ _ => 0⟩).2.1 (by decide)
      (by decide),
    (computeSE_dimension_check id (fun _ _ => 1) 1 1 (DMat.ofMatrix exHess)).2.2 rfl rfl⟩

/-- The value stored by `varCovar` for the pair `(a, b)`. -/
theorem varCovar_fold {n : ℕ} (c : ℕ) (Va0 : Matrix (Fin c) (Fin c) K)
    (psvari : Fin c → Matrix (Fin n) (Fin n) K) (a b : Fin c) :
    varCovar c Va0 psvari a b
      = if a ≤ b then 2 * (1 / Matrix.trace (psvari a * psvari b))
        else 2 * (1 / Matrix.trace (psvari b * psvari a)) := by
  have h := foldl_mirror (fun i j => 2 * (1 / Matrix.trace (psvari i * psvari j)))
    (List.finRange c) Va0 a b
  simp only [List.mem_finRange, if_true] at h
  exact h

/-- C12. Whatever the initial contents of the result buffer, for every ordered pair
`(i, j)` entry `(i, j)` of `varCovar` is `2 / trace (dV_i * dV_j)`, and the returned
matrix is symmetric. -/
theorem varCovar_spec {n : ℕ} (c : ℕ) (Va0 : Matrix (Fin c) (Fin c) K)
    (psvari : Fin c → Matrix (Fin n) (Fin n) K) :
    (∀ i j : Fin c, varCovar c Va0 psvari i j = 2 / Matrix.trace (psvari i * psvari j)) ∧
      (varCovar c Va0 psvari)ᵀ = varCovar c Va0 psvari := by
  have hentry : ∀ i j : Fin c,
      varCovar c Va0 psvari i j = 2 / Matrix.trace (psvari i * psvari j) := by
    intro i j
    rw [varCovar_fold]
    split
    · rw [mul_one_div]
    · rw [mul_one_div, Matrix.trace_mul_comm]
  refine ⟨hentry, ?_⟩
  ext i j
  rw [Matrix.transpose_apply, hentry, hentry, Matrix.trace_mul_comm]

/-- Every row written by `kRankOneUpdates` is the same row of the rank-one update of
the ORIGINAL `Vinv` by that row of `B` alone. -/
theorem kRankOneUpdates_row {n : ℕ} (Vinv B : Matrix (Fin n) (Fin n) K) (k : Fin n) :
    kRankOneUpdates Vinv B k
      = rankOneUp Vinv (fun i => if i = k then 1 else 0) (B k) k := by
  have key : ∀ (l : List (Fin n)) (M : Matrix (Fin n) (Fin n) K) (a : Fin n),
      l.foldl (fun vupdate k =>
        Matrix.updateRow vupdate k
          (rankOneUp Vinv (fun i => if i = k then 1 else 0) (B k) k)) M a
        = if a ∈ l then rankOneUp Vinv (fun i => if i = a then 1 else 0) (B a) a else M a := by
    intro l
    induction l with
    | nil => intro M a; simp
    | cons x l ih =>
      intro M a
      rw [List.foldl_cons, ih]
      by_cases h1 : a ∈ l
      · simp [h1]
      · by_cases h2 : a = x
        · subst h2; simp [h1]
        · simp [h1, h2, Matrix.updateRow_ne h2]
  have h := key (List.finRange n) Vinv k
  simp only [List.mem_finRange, if_true] at h
  exact h

/-- C17 at the failing input `V = Vinv = I₂`, `B = [[0, 2], [2, 0]]`: `V + B` is
invertible and both Sherman-Morrison denominators are `1`, yet the matrix returned by
`kRankOneUpdates` is `[[1, -2], [-2, 1]]`, which is not an inverse of `V + B`. -/
theorem kRankOneUpdates_not_inverse :
    (exA + exUpd).det ≠ 0 ∧
    (∀ k : Fin 2, 1 + Matrix.vecMul (exUpd k) exA ⬝ᵥ (fun i => if i = k then 1 else 0) ≠ 0) ∧
    kRankOneUpdates exA exUpd 0 0 = 1 ∧ kRankOneUpdates exA exUpd 0 1 = -2 ∧
    kRankOneUpdates exA exUpd 1 0 = -2 ∧ kRankOneUpdates exA exUpd 1 1 = 1 ∧
    kRankOneUpdates exA exUpd * (exA + exUpd) ≠ 1 ∧
    kRankOneUpdates exA exUpd ≠ (exA + exUpd)⁻¹ := by
  have h00 : kRankOneUpdates exA exUpd 0 0 = 1 := by
    rw [kRankOneUpdates_row]
    simp [rankOneUp, exA, exUpd, Matrix.vecMul, Matrix.mulVec, Matrix.dotProduct,
      Fin.sum_univ_two]
  have h01 : kRankOneUpdates exA exUpd 0 1 = -2 := by
    rw [kRankOneUpdates_row]
    simp [rankOneUp, exA, exUpd, Matrix.vecMul, Matrix.mulVec, Matrix.dotProduct,
      Fin.sum_univ_two]
  have h10 : kRankOneUpdates exA exUpd 1 0 = -2 := by
    rw [kRankOneUpdates_row]
    simp [rankOneUp, exA, exUpd, Matrix.vecMul, Matrix.mulVec, Matrix.dotProduct,
      Fin.sum_univ_two]
  have h11 : kRankOneUpdates exA exUpd 1 1 = 1 := by
    rw [kRankOneUpdates_row]
    simp [rankOneUp, exA, exUpd, Matrix.vecMul, Matrix.mulVec, Matrix.dotProduct,
      Fin.sum_univ_two]
  have hdet : (exA + exUpd).det ≠ 0 := by
    simp [exA, exUpd, Matrix.det_fin_two]
    norm_num
  have hmul : kRankOneUpdates exA exUpd * (exA + exUpd) ≠ 1 := by
    intro h
    have h2 := congrFun (congrFun h 0) 0
    rw [Matrix.mul_apply, Fin.sum_univ_two, h00, h01] at h2
    simp [exA, exUpd] at h2
  refine ⟨hdet, ?_, h00, h01, h10, h11, hmul, ?_⟩
  · intro k
    fin_cases k <;>
      simp [exA, exUpd, Matrix.vecMul, Matrix.dotProduct, Fin.sum_univ_two]
  · intro h
    apply hmul
    rw [h]
    exact Matrix.nonsing_inv_mul _ (isUnit_iff_ne_zero.mpr hdet)

/-- A singular-branch call of `computeSE` stops with the singularity message. -/
theorem computeSE_singular_error [LinearOrder K] (sqrt : K → K)
    (rcond : (k : ℕ) → Matrix (Fin k) (Fin k) K → K) (m c : ℕ) (coeff_mat : DMat K)
    (hm : 1 ≤ m) (hc : 1 ≤ c)
    (hcols : coeff_mat.n_cols = m + c) (hrows : coeff_mat.n_rows = m + c)
    (hLR : (coeff_mat.block m m c c).det ≠ 0)
    (hsing : rcond m (coeff_mat.schur m c) < 1e-12) :
    computeSE sqrt rcond m c coeff_mat
      = .error "Standard Error coefficient matrix is computationally singular" := by
  rw [computeSE_reduce sqrt rcond m c coeff_mat hm hc hcols hrows hLR, if_pos hsing]

/-- The length check of `computeTScore` stops with the size message. -/
theorem computeTScore_error (tscore0 : ℕ → K) (curr_beta SE : List K)
    (h : curr_beta.length ≠ SE.length) :
    computeTScore tscore0 curr_beta SE
      = .error "standard errors and beta estimate sizes differ" := by
  unfold computeTScore
  simp only [ne_eq, h, not_false_eq_true, if_true]

/-- C18 refuted at concrete inputs: a 3-by-3 coefficient matrix against `m + c = 2`
and vectors of lengths 2 and 1 raise fatal errors whose messages contain no digit at
all, hence no dimension. -/
theorem fatal_message_without_quantity :
    (∃ msg, computeSE id (fun _ _ => 1) 1 1 ⟨3, 3, fun _ _ => (0 : ℚ)⟩ = .error msg ∧
      hasDigit msg = false) ∧
    (∃ msg, computeTScore (fun _ => (0 : ℚ)) [1, 2] [1] = .error msg ∧
      hasDigit msg = false) :=
  ⟨⟨_, computeSE_cols_error id (fun _ _ => 1) 1 1 ⟨3, 3, fun _ _ => (0 : ℚ)⟩ (by decide),
      by decide⟩,
    ⟨_, computeTScore_error (fun _ => (0 : ℚ)) [1, 2] [1] (by decide), by decide⟩⟩

/-- C18 as amended. Every fatal error of `computeSE` (column-count mismatch, row-count
mismatch, computationally singular Schur complement) and of `computeTScore` (length
mismatch) carries one fixed message naming the condition, the same for all offending
sizes and condition numbers; none of the four messages contains a digit. -/
theorem fatal_messages_fixed [LinearOrder K] (sqrt : K → K)
    (rcond : (k : ℕ) → Matrix (Fin k) (Fin k) K → K) (tscore0 : ℕ → K) :
    (∀ (m c : ℤ) (coeff_mat : DMat K), (coeff_mat.n_cols : ℤ) ≠ m + c →
      computeSE sqrt rcond m c coeff_mat
        = .error "N cols and input dimensions m + c are not equal") ∧
    (∀ (m c : ℤ) (coeff_mat : DMat K), (coeff_mat.n_cols : ℤ) = m + c →
      (coeff_mat.n_rows : ℤ) ≠ m + c →
      computeSE sqrt rcond m c coeff_mat
        = .error "N rows and input dimensions m + c are not equal") ∧
    (∀ (m c : ℕ) (coeff_mat : DMat K), 1 ≤ m → 1 ≤ c → coeff_mat.n_cols = m + c →
      coeff_mat.n_rows = m + c → (coeff_mat.block m m c c).det ≠ 0 →
      rcond m (coeff_mat.block 0 0 m m - coeff_mat.block 0 m m c
        * (coeff_mat.block m m c c)⁻¹ * coeff_mat.block m 0 c m) < 1e-12 →
      computeSE sqrt rcond m c coeff_mat
        = .error "Standard Error coefficient matrix is computationally singular") ∧
    (∀ curr_beta SE : List K, curr_beta.length ≠ SE.length →
      computeTScore tscore0 curr_beta SE
        = .error "standard errors and beta estimate sizes differ") ∧
    hasDigit "N cols and input dimensions m + c are not equal" = false ∧
    hasDigit "N rows and input dimensions m + c are not equal" = false ∧
    hasDigit "Standard Error coefficient matrix is computationally singular" = false ∧
    hasDigit "standard errors and beta estimate sizes differ" = false := by
  refine ⟨fun m c M h => computeSE_cols_error sqrt rcond m c M h,
    fun m c M hc h => computeSE_rows_error sqrt rcond m c M hc h,
    fun m c M hm hc hcols hrows hLR hs => ?_,
    fun b s h => computeTScore_error tscore0 b s h, by decide, by decide, by decide,
    by decide⟩
  apply computeSE_singular_error sqrt rcond m c M hm hc hcols hrows hLR
  rw [DMat.schur, invMat_eq]
  exact hs

/-- Witness for the amended C18: the four fatal errors at concrete inputs over `ℚ`. -/
theorem fatal_messages_fixed_witness :
    computeSE id (fun _ _ => (1 : ℚ)) 1 1 ⟨3, 3, fun _ _ => (0 : ℚ)⟩
        = .error "N cols and input dimensions m + c are not equal" ∧
    computeSE id (fun _ _ => (1 : ℚ)) 1 1 ⟨3, 2, fun _ _ => (0 : ℚ)⟩
        = .error "N rows and input dimensions m + c are not equal" ∧
    computeSE id (fun _ _ => (0 : ℚ)) (1 : ℕ) (1 : ℕ) (DMat.ofMatrix exHess)
        = .error "Standard Error coefficient matrix is computationally singular" ∧
    computeTScore (fun _ => (0 : ℚ)) [1, 2] [1]
        = .error "standard errors and beta estimate sizes differ" :=
  ⟨(fatal_messages_fixed id (fun _ _ => (1 : ℚ)) (fun _ => 0)).1 1 1 ⟨3, 3, fun _ _ => 0⟩
      (by decide),
    (fatal_messages_fixed id (fun _ _ => (1 : ℚ)) (fun _ => 0)).2.1 1 1 ⟨3, 2, fun _ _ => 0⟩
      (by decide) (by decide),
    (fatal_messages_fixed id (fun _ _ => (0 : ℚ)) (fun _ => 0)).2.2.1 1 1 (DMat.ofMatrix exHess)
      (le_refl 1) (le_refl 1) rfl rfl
      (by simp [Matrix.det_fin_one, DMat.block, DMat.ofMatrix, exHess])
      (by norm_num),
    (fatal_messages_fixed id (fun _ _ => (1 : ℚ)) (fun _ => 0)).2.2.2.1 [1, 2] [1]
      (by decide)⟩

/-! ## The driver loop -/

/-- The working phase leaves the solver, the counters, the estimates and the trace
untouched. -/
theorem workingPhase_frame [LinearOrder K] {U : Type} {n m stot c kn : ℕ}
    (C : Collab K U n m stot c kn) (Un : Uninit K n m stot c)
    (I : FitInput K U n m stot c kn) ( V_partial : Fin c → Matrix (Fin n) (Fin n) K)
    (s sw : FitState K n m stot c) (h : workingPhase C Un I V_partial s = .ok sw) :
    sw.solver = s.solver ∧ sw.iters = s.iters ∧ sw.meet_cond = s.meet_cond ∧
    sw.converged = s.converged ∧ sw.conv_list = s.conv_list ∧
    sw.curr_sigma = s.curr_sigma ∧ sw._intercept = s._intercept ∧
    sw.theta_diff = s.theta_diff ∧ sw.curr_beta = s.curr_beta ∧ sw.curr_u = s.curr_u ∧
    sw.curr_theta = s.curr_theta ∧ sw.sigma_update = s.sigma_update := by
  unfold workingPhase at h
  simp only [bind, Except.bind, pure, Except.pure] at h
  split at h
  · cases h
  split at h
  · cases h
  cases h
  simp

/-- The result of the negativity check: either nothing changes, or the solver becomes
the constrained one. -/
theorem negativeRerun_solver [LinearOrder K] {U : Type} {n m stot c kn : ℕ}
    (C : Collab K U n m stot c kn) (I : FitInput K U n m stot c kn)
    (s : FitState K n m stot c) (icpt : K) (upd : List K) (r : String × List K)
    (h : negativeRerun C I s icpt upd = .ok r) :
    (upd.any (fun x => decide (x < 0)) = true → r.1 = "HE-NNLS") ∧
    (upd.any (fun x => decide (x < 0)) = false → r.1 = s.solver ∧ r.2 = upd) := by
  unfold negativeRerun at h
  simp only [] at h
  split at h
  · rename_i hneg
    split at h
    · cases h
    · cases h
      exact ⟨fun _ => rfl, fun hf => by rw [hneg] at hf; cases hf⟩
  · rename_i hneg
    cases h
    exact ⟨fun ht => absurd ht hneg, fun _ => ⟨rfl, rfl⟩⟩

/-- The commit of the variance components keeps the counters, the flags and the trace,
and stores the solver and the update it is given. -/
theorem commitSigma_frame [LinearOrder K] {U : Type} {n m stot c kn : ℕ}
    (C : Collab K U n m stot c kn) (I : FitInput K U n m stot c kn)
    (Kinv : Matrix (Fin kn) (Fin kn) K) (s s1 : FitState K n m stot c) (icpt : K)
    (solver : String) (upd : List K) (h : commitSigma C I Kinv s icpt solver upd = .ok s1) :
    s1.solver = solver ∧ s1.curr_sigma = upd ∧ s1._intercept = icpt ∧
    upd.length = s.curr_sigma.length ∧
    s1.iters = s.iters ∧ s1.meet_cond = s.meet_cond ∧ s1.converged = s.converged ∧
    s1.conv_list = s.conv_list ∧ s1.theta_diff = s.theta_diff ∧
    s1.curr_beta = s.curr_beta ∧ s1.curr_u = s.curr_u ∧ s1.curr_theta = s.curr_theta := by
  unfold commitSigma at h
  split at h
  · cases h
  · rename_i diff hd
    cases h
    refine ⟨rfl, rfl, rfl, ?_, rfl, rfl, rfl, rfl, rfl, rfl, rfl, rfl⟩
    unfold vecSub at hd
    split at hd
    · cases hd
    · rename_i hl
      exact not_not.mp hl

/-- Decomposition of a successful sigma phase into its four steps. -/
theorem sigmaPhase_ok [LinearOrder K] {U : Type} {n m stot c kn : ℕ}
    (C : Collab K U n m stot c kn) (Un : Uninit K n m stot c)
    (I : FitInput K U n m stot c kn) ( V_partial : Fin c → Matrix (Fin n) (Fin n) K)
    (Kinv : Matrix (Fin kn) (Fin kn) K) (s s1 : FitState K n m stot c)
    (h : sigmaPhase C Un I V_partial Kinv s = .ok s1) :
    ∃ sw upd rerun, workingPhase C Un I V_partial s = .ok sw ∧
      solverDispatch C I sw = .ok upd ∧ negativeRerun C I sw upd.2 upd.1 = .ok rerun ∧
      commitSigma C I Kinv sw upd.2 rerun.1 rerun.2 = .ok s1 := by
  unfold sigmaPhase at h
  split at h
  · cases h
  · rename_i sw hw
    split at h
    · cases h
    · rename_i upd hu
      split at h
      · cases h
      · rename_i rerun hr
        exact ⟨sw, upd, rerun, hw, hu, hr, h⟩

/-- The theta phase never touches the solver, the variance components or the
intercept; a `break` leaves the counter and the flags as they were, a completed
iteration increments the counter and sets the flags from the differences. -/
theorem thetaPhase_frame [LinearOrder K] {U : Type} {n m stot c kn : ℕ}
    (C : Collab K U n m stot c kn) (Un : Uninit K n m stot c)
    (I : FitInput K U n m stot c kn) (s s2 : FitState K n m stot c) (b : Bool)
    (h : thetaPhase C Un I s = .ok (s2, b)) :
    s2.solver = s.solver ∧ s2.curr_sigma = s.curr_sigma ∧ s2._intercept = s._intercept ∧
    s2.sigma_diff = s.sigma_diff ∧
    (b = true → s2.iters = s.iters ∧ s2.meet_cond = s.meet_cond ∧
      s2.converged = s.converged ∧ 1 ≤ s.iters ∧ s.iters ≤ s.conv_list.length) ∧
    (b = false → s2.iters = s.iters + 1 ∧
      s2.converged = (decide (∀ i, s2.theta_diff i < I.theta_conv) &&
        s2.sigma_diff.all (fun x => decide (x < I.theta_conv))) ∧
      s2.meet_cond = (s2.converged || decide (s2.iters > I.maxit)) ∧
      0 ≤ s.iters ∧ s.iters < s.conv_list.length ∧
      s2.conv_list = s.conv_list.set s.iters.toNat
        (some ⟨s2.theta_diff, s2.sigma_diff, s2.curr_beta, s2.curr_u, s2.curr_sigma⟩)) := by
  unfold thetaPhase at h
  simp only [bind, Except.bind, pure, Except.pure] at h
  split at h
  · cases h
  split at h
  · split at h
    · cases h
    · rename_i cl hcl
      cases h
      unfold convWrite at hcl
      split at hcl
      · cases hcl
      · rename_i hb
        simp only [not_or, not_lt, ge_iff_le, not_le] at hb
        refine ⟨rfl, rfl, rfl, rfl, fun _ => ⟨rfl, rfl, rfl, by omega, by omega⟩, fun hf => ?_⟩
        cases hf
  split at h
  · split at h
    · cases h
    · rename_i cl hcl
      cases h
      unfold convWrite at hcl
      split at hcl
      · cases hcl
      · rename_i hb
        simp only [not_or, not_lt, ge_iff_le, not_le] at hb
        refine ⟨rfl, rfl, rfl, rfl, fun _ => ⟨rfl, rfl, rfl, by omega, by omega⟩, fun hf => ?_⟩
        cases hf
  split at h
  · cases h
  · rename_i cl hcl
    cases h
    unfold convWrite at hcl
    split at hcl
    · cases hcl
    · rename_i hb
      cases hcl
      simp only [add_sub_cancel_right, not_or, not_lt, ge_iff_le, not_le] at hb
      simp [hb.1, hb.2]

/-- An iteration either keeps the solver or makes it the constrained one, and makes it
the constrained one when the update of the active solver has a negative entry. -/
theorem iteration_solver [LinearOrder K] {U : Type} {n m stot c kn : ℕ}
    (C : Collab K U n m stot c kn) (Un : Uninit K n m stot c)
    (I : FitInput K U n m stot c kn) ( V_partial : Fin c → Matrix (Fin n) (Fin n) K)
    (Kinv : Matrix (Fin kn) (Fin kn) K) (s s1 : FitState K n m stot c) (b : Bool)
    (h : iteration C Un I V_partial Kinv s = .ok (s1, b)) :
    (s1.solver = s.solver ∨ s1.solver = "HE-NNLS") ∧
    (∀ upd, activeUpdate C Un I V_partial s = .ok upd →
      upd.any (fun x => decide (x < 0)) = true → s1.solver = "HE-NNLS") := by
  unfold iteration at h
  split at h
  · cases h
  · rename_i sp hsp
    obtain ⟨sw, upd, rerun, hw, hu, hr, hc⟩ := sigmaPhase_ok C Un I V_partial Kinv s sp hsp
    have ht := thetaPhase_frame C Un I sp s1 b h
    have hcf := commitSigma_frame C I Kinv sw sp upd.2 rerun.1 rerun.2 hc
    have hwf := workingPhase_frame C Un I V_partial s sw hw
    have hn := negativeRerun_solver C I sw upd.2 upd.1 rerun hr
    have hs1 : s1.solver = rerun.1 := by rw [ht.1, hcf.1]
    constructor
    · cases hneg : upd.1.any (fun x => decide (x < 0)) with
      | true => exact Or.inr (by rw [hs1]; exact hn.1 hneg)
      | false => exact Or.inl (by rw [hs1, (hn.2 hneg).1, hwf.1])
    · intro upd2 hupd2 hneg
      unfold activeUpdate at hupd2
      rw [hw] at hupd2
      simp only [hu] at hupd2
      cases hupd2
      rw [hs1]
      exact hn.1 hneg

/-- C13. Solver switching is permanent.  For every iteration of the loop that completes
or breaks without an error: the solver afterwards is the solver before or
`"HE-NNLS"`; if the update produced by the active solver has a negative entry the solver
afterwards is `"HE-NNLS"`; and if the solver is `"HE-NNLS"` before it is `"HE-NNLS"`
afterwards.  Hence `"HE-NNLS"` is kept along every sequence of iterations and in the
state in which the loop ends. -/
theorem solver_switch_permanent [LinearOrder K] {U : Type} {n m stot c kn : ℕ}
    (C : Collab K U n m stot c kn) (Un : Uninit K n m stot c)
    (I : FitInput K U n m stot c kn) ( V_partial : Fin c → Matrix (Fin n) (Fin n) K)
    (Kinv : Matrix (Fin kn) (Fin kn) K) :
    (∀ (s s1 : FitState K n m stot c) (b : Bool),
      iteration C Un I V_partial Kinv s = .ok (s1, b) →
        (s1.solver = s.solver ∨ s1.solver = "HE-NNLS") ∧
        (∀ upd, activeUpdate C Un I V_partial s = .ok upd →
          upd.any (fun x => decide (x < 0)) = true → s1.solver = "HE-NNLS") ∧
        (s.solver = "HE-NNLS" → s1.solver = "HE-NNLS")) ∧
    (∀ s s1 : FitState K n m stot c,
      Relation.ReflTransGen
        (fun a a1 => ∃ b, iteration C Un I V_partial Kinv a = .ok (a1, b)) s s1 →
      s.solver = "HE-NNLS" → s1.solver = "HE-NNLS") ∧
    (∀ (fuel : ℕ) (s r : FitState K n m stot c),
      whileLoop C Un I V_partial Kinv fuel s = .ok (some r) →
      s.solver = "HE-NNLS" → r.solver = "HE-NNLS") := by
  have hstep : ∀ (s s1 : FitState K n m stot c) (b : Bool),
      iteration C Un I V_partial Kinv s = .ok (s1, b) →
      s.solver = "HE-NNLS" → s1.solver = "HE-NNLS" := by
    intro s s1 b h hs
    rcases (iteration_solver C Un I V_partial Kinv s s1 b h).1 with h1 | h1
    · rw [h1, hs]
    · exact h1
  refine ⟨fun s s1 b h => ⟨(iteration_solver C Un I V_partial Kinv s s1 b h).1,
    (iteration_solver C Un I V_partial Kinv s s1 b h).2, hstep s s1 b h⟩, ?_, ?_⟩
  · intro s s1 hr hs
    induction hr with
    | refl => exact hs
    | tail _ hlast ih =>
      obtain ⟨b, hb⟩ := hlast
      exact hstep _ _ b hb ih
  · intro fuel
    induction fuel with
    | zero =>
      intro s r h hs
      rw [whileLoop] at h
      split at h
      · cases h; exact hs
      · cases h
    | succ fuel ih =>
      intro s r h hs
      rw [whileLoop] at h
      split at h
      · cases h; exact hs
      · split at h
        · cases h
        · rename_i s1 hit
          cases h
          exact hstep s _ true hit hs
        · rename_i s1 hit
          exact ih s1 r h (hstep s s1 false hit hs)

/-- Effect of one iteration on the counter, the flags and the trace. -/
theorem iteration_frame [LinearOrder K] {U : Type} {n m stot c kn : ℕ}
    (C : Collab K U n m stot c kn) (Un : Uninit K n m stot c)
    (I : FitInput K U n m stot c kn) ( V_partial : Fin c → Matrix (Fin n) (Fin n) K)
    (Kinv : Matrix (Fin kn) (Fin kn) K) (s s2 : FitState K n m stot c) (b : Bool)
    (h : iteration C Un I V_partial Kinv s = .ok (s2, b)) :
    (b = true → s2.iters = s.iters ∧ s2.meet_cond = s.meet_cond ∧
      s2.converged = s.converged ∧ 1 ≤ s.iters ∧ s.iters ≤ s.conv_list.length) ∧
    (b = false → s2.iters = s.iters + 1 ∧
      s2.converged = snapBelow I.theta_conv
        ⟨s2.theta_diff, s2.sigma_diff, s2.curr_beta, s2.curr_u, s2.curr_sigma⟩ ∧
      s2.meet_cond = (s2.converged || decide (s2.iters > I.maxit)) ∧
      0 ≤ s.iters ∧ s.iters < s.conv_list.length ∧
      s2.conv_list = s.conv_list.set s.iters.toNat
        (some ⟨s2.theta_diff, s2.sigma_diff, s2.curr_beta, s2.curr_u, s2.curr_sigma⟩)) := by
  unfold iteration at h
  split at h
  · cases h
  · rename_i sp hsp
    obtain ⟨sw, upd, rerun, hw, hu, hr, hc⟩ := sigmaPhase_ok C Un I V_partial Kinv s sp hsp
    have ht := thetaPhase_frame C Un I sp s2 b h
    have hcf := commitSigma_frame C I Kinv sw sp upd.2 rerun.1 rerun.2 hc
    have hwf := workingPhase_frame C Un I V_partial s sw hw
    have hi : sp.iters = s.iters := by rw [hcf.2.2.2.2.1, hwf.2.1]
    have hm : sp.meet_cond = s.meet_cond := by rw [hcf.2.2.2.2.2.1, hwf.2.2.1]
    have hcv : sp.converged = s.converged := by rw [hcf.2.2.2.2.2.2.1, hwf.2.2.2.1]
    have hcl : sp.conv_list = s.conv_list := by rw [hcf.2.2.2.2.2.2.2.1, hwf.2.2.2.2.1]
    rw [hi, hm, hcv, hcl] at ht
    exact ⟨ht.2.2.2.2.1, ht.2.2.2.2.2⟩

/-- A trace whose first `k` slots are filled and whose other slots are empty. -/
theorem filled_set {α : Type} (pre : List α) (r : ℕ) (x : α) (hr : 0 < r) :
    (pre.map some ++ List.replicate r none).set pre.length (some x)
      = (pre ++ [x]).map some ++ List.replicate (r - 1) none := by
  obtain ⟨r1, rfl⟩ : ∃ r1, r = r1 + 1 := ⟨r - 1, by omega⟩
  rw [List.set_append_right _ _ (by simp)]
  simp [List.replicate_succ]

/-- The last recorded entry of a trace given by its filled prefix. -/
theorem lastRecorded_filled {m stot : ℕ} (pre : List (Snapshot K m stot)) (r : ℕ) :
    lastRecorded (pre.map some ++ List.replicate r none) = pre.getLast? := by
  unfold lastRecorded
  rw [List.filterMap_append]
  have h1 : List.filterMap id (List.map some pre) = pre := by
    induction pre with
    | nil => rfl
    | cons a l ih => simp [List.filterMap_cons, ih]
  have h2 : List.filterMap id (List.replicate r (none : Option (Snapshot K m stot))) = [] := by
    induction r with
    | zero => rfl
    | succ r ih => simp [List.replicate_succ, List.filterMap_cons, ih]
  rw [h1, h2, List.append_nil]

/-- The loop invariant holds on entry to the loop. -/
theorem loopInv_init [LinearOrder K] {U : Type} {n m stot c kn : ℕ}
    (Un : Uninit K n m stot c) (I : FitInput K U n m stot c kn) (k : ℕ) :
    LoopInv I (initState Un I (List.replicate k none)) := by
  refine ⟨le_refl _, ⟨[], k, by simp [initState], by simp [initState]⟩, ?_, ?_⟩
  · intro h
    simp [initState] at h
  · intro _
    exact ⟨rfl, Or.inl rfl⟩

/-- A completed iteration preserves the loop invariant. -/
theorem loopInv_step [LinearOrder K] {U : Type} {n m stot c kn : ℕ}
    (C : Collab K U n m stot c kn) (Un : Uninit K n m stot c)
    (I : FitInput K U n m stot c kn) ( V_partial : Fin c → Matrix (Fin n) (Fin n) K)
    (Kinv : Matrix (Fin kn) (Fin kn) K) (s s2 : FitState K n m stot c)
    (hinv : LoopInv I s) (h : iteration C Un I V_partial Kinv s = .ok (s2, false)) :
    LoopInv I s2 := by
  obtain ⟨h0, ⟨pre, r, hcl, hlen⟩, _, _⟩ := hinv
  obtain ⟨hit, hconv, hmeet, _, hlt, hset⟩ :=
    (iteration_frame C Un I V_partial Kinv s s2 false h).2 rfl
  have hk : s.iters.toNat = pre.length := by omega
  have hr : 0 < r := by
    rw [hcl] at hlt
    simp only [List.length_append, List.length_map, List.length_replicate, Nat.cast_add] at hlt
    omega
  have hcl2 : s2.conv_list
      = (pre ++ [(⟨s2.theta_diff, s2.sigma_diff, s2.curr_beta, s2.curr_u, s2.curr_sigma⟩ :
          Snapshot K m stot)]).map some ++ List.replicate (r - 1) none := by
    rw [hset, hcl, hk, filled_set _ _ _ hr]
  refine ⟨by omega, ⟨_, _, hcl2, by simp; omega⟩, ?_, ?_⟩
  · intro _
    refine ⟨(⟨s2.theta_diff, s2.sigma_diff, s2.curr_beta, s2.curr_u, s2.curr_sigma⟩ :
      Snapshot K m stot), ?_, hconv.symm⟩
    rw [hcl2, lastRecorded_filled]
    simp
  · intro hm
    rw [hmeet] at hm
    simp only [Bool.or_eq_false_iff, decide_eq_false_iff_not, not_lt] at hm
    exact ⟨hm.1, Or.inr hm.2⟩

/-- How the loop ends: either its condition is met and the invariant holds, or a
divergence exit was taken after at least one completed iteration, with the flag
false and the counter not above `maxit`. -/
theorem whileLoop_exit [LinearOrder K] {U : Type} {n m stot c kn : ℕ}
    (C : Collab K U n m stot c kn) (Un : Uninit K n m stot c)
    (I : FitInput K U n m stot c kn) ( V_partial : Fin c → Matrix (Fin n) (Fin n) K)
    (Kinv : Matrix (Fin kn) (Fin kn) K) (fuel : ℕ) :
    ∀ s r : FitState K n m stot c, LoopInv I s →
      whileLoop C Un I V_partial Kinv fuel s = .ok (some r) →
      (r.meet_cond = true ∧ LoopInv I r) ∨
        (r.converged = false ∧ r.iters ≤ I.maxit ∧ 1 ≤ r.iters) := by
  induction fuel with
  | zero =>
    intro s r hinv h
    rw [whileLoop] at h
    split at h
    · rename_i hm
      cases h
      exact Or.inl ⟨hm, hinv⟩
    · cases h
  | succ fuel ih =>
    intro s r hinv h
    rw [whileLoop] at h
    split at h
    · rename_i hm
      cases h
      exact Or.inl ⟨hm, hinv⟩
    · rename_i hm
      split at h
      · cases h
      · rename_i s1 hit
        cases h
        obtain ⟨hi, _, hc, h1, _⟩ :=
          (iteration_frame C Un I V_partial Kinv s _ true hit).1 rfl
        have hrun := hinv.2.2.2 (by simpa using hm)
        refine Or.inr ⟨by rw [hc]; exact hrun.1, ?_, by rw [hi]; exact h1⟩
        rw [hi]
        rcases hrun.2 with h0 | h0
        · omega
        · exact h0
      · rename_i s1 hit
        exact ih s1 r (loopInv_step C Un I V_partial Kinv s s1 hinv hit) h

/-- What the inference after the loop reports about the loop state. -/
theorem inference_ok [LinearOrder K] {U : Type} {n m stot c kn : ℕ}
    (C : Collab K U n m stot c kn) (Un : Uninit K n m stot c)
    (r : FitState K n m stot c) (out : FitOut K n m stot c)
    (h : inference C Un r = .ok out) :
    out.converged = r.converged ∧ out.Iters = r.iters ∧ out.CONVLIST = r.conv_list ∧
    out.Sigma = r.curr_sigma := by
  unfold inference at h
  simp only [bind, Except.bind, pure, Except.pure] at h
  split at h
  · cases h
  split at h
  · cases h
  split at h
  · cases h
  cases h
  exact ⟨rfl, rfl, rfl, rfl⟩

/-- What a returned call of `fitGeneticPLGlmm` reports comes from the state in which
the loop ended. -/
theorem fit_ok [LinearOrder K] {U : Type} {n m stot c kn : ℕ} (fuel : ℕ)
    (C : Collab K U n m stot c kn) (Un : Uninit K n m stot c)
    (I : FitInput K U n m stot c kn) (out : FitOut K n m stot c)
    (h : fitGeneticPLGlmm fuel C Un I = .ok (some out)) :
    ∃ (Kinv : Matrix (Fin kn) (Fin kn) K) (r : FitState K n m stot c),
      whileLoop C Un I (C.pseudovarPartial_G I.Z I.Kmat I.u_indices) Kinv fuel
        (initState Un I (List.replicate (I.maxit + 1).toNat none)) = .ok (some r) ∧
      inference C Un r = .ok out := by
  unfold fitGeneticPLGlmm at h
  simp only [bind, Except.bind, pure, Except.pure] at h
  split at h
  · cases h
  rename_i cl hcl
  unfold newConvList at hcl
  split at hcl
  · cases hcl
  cases hcl
  split at h
  · cases h
  rename_i Kinv hK
  split at h
  · cases h
  rename_i ro hro
  split at h
  · cases h
  · rename_i r
    split at h
    · cases h
    · rename_i o ho
      cases h
      exact ⟨Kinv, r, hro, ho⟩

/-- A result whose `toOption` is `some a` is `ok a`. -/
theorem ok_of_toOption {α : Type} (r : Except String α) (a : α)
    (h : r.toOption = some a) : r = .ok a := by
  cases r with
  | error e => cases h
  | ok x => cases h; rfl

/-- Witness for C13: in the one-observation model with Fisher scoring returning `[-1]`
and the constrained estimator returning `[1]`, the first iteration completes, its
active update is `[-1]` and the solver afterwards is `"HE-NNLS"`. -/
theorem solver_switch_permanent_witness :
    ∃ s1 b, iteration (exCollab [-1] [1] false) (exUninit 0) (exInput 0 5 1 5 "Fisher")
        (fun _ => 1) 1 (exState 0 5 1 "Fisher") = .ok (s1, b) ∧
      activeUpdate (exCollab [-1] [1] false) (exUninit 0) (exInput 0 5 1 5 "Fisher")
        (fun _ => 1) (exState 0 5 1 "Fisher") = .ok [-1] ∧
      s1.solver = "HE-NNLS" := by
  have hne : errorOf (iteration (exCollab [-1] [1] false) (exUninit 0)
      (exInput 0 5 1 5 "Fisher") (fun _ => 1) 1 (exState 0 5 1 "Fisher")) = none := by
    decide!
  have hact : activeUpdate (exCollab [-1] [1] false) (exUninit 0) (exInput 0 5 1 5 "Fisher")
      (fun _ => 1) (exState 0 5 1 "Fisher") = .ok [-1] :=
    ok_of_toOption _ _ (by decide!)
  cases h : iteration (exCollab [-1] [1] false) (exUninit 0) (exInput 0 5 1 5 "Fisher")
      (fun _ => 1) 1 (exState 0 5 1 "Fisher") with
  | error e => rw [h] at hne; cases hne
  | ok p =>
    obtain ⟨s1, b⟩ := p
    exact ⟨s1, b, rfl, hact,
      ((solver_switch_permanent (exCollab [-1] [1] false) (exUninit 0)
        (exInput 0 5 1 5 "Fisher") (fun _ => 1) 1).1 (exState 0 5 1 "Fisher") s1 b h).2.1
        [-1] hact (by decide)⟩

/-- C14 refuted at a concrete run: tolerance `1`, Fisher scoring, `curr_sigma = (5)`,
`y = (1/2)`.  The first iteration completes without convergence (`SigmaDiff = (4)`);
the second takes the NaN exit.  The run returns with `Iters = 1` and `converged = false`,
while the last recorded trace entry has `ThetaDiff = (1/2, 0)` and `SigmaDiff = (0)`,
all below the tolerance. -/
theorem converged_flag_disagrees :
    convergedOf (fitGeneticPLGlmm 7 (exCollab [1] [0, 1] false) (exUninit 0)
      (exInput (1 / 2) 5 1 5 "Fisher")) = some false ∧
    lastBelowOf 1 (fitGeneticPLGlmm 7 (exCollab [1] [0, 1] false) (exUninit 0)
      (exInput (1 / 2) 5 1 5 "Fisher")) = some true ∧
    itersOf (fitGeneticPLGlmm 7 (exCollab [1] [0, 1] false) (exUninit 0)
      (exInput (1 / 2) 5 1 5 "Fisher")) = some 1 := by
  refine ⟨?_, ?_, ?_⟩ <;> decide!

/-- C14 as amended.  For every run of `fitGeneticPLGlmm` that returns: if the returned
`converged` flag is true, or the returned `Iters` exceeds `maxit` (the run ended by
convergence or by exhausting the iteration budget), then the trace has a last recorded
entry and its `ThetaDiff` and `SigmaDiff` are both elementwise below the tolerance if
and only if the `converged` flag is true. -/
theorem converged_flag_agrees_on_normal_exit [LinearOrder K] {U : Type}
    {n m stot c kn : ℕ} (fuel : ℕ) (C : Collab K U n m stot c kn)
    (Un : Uninit K n m stot c) (I : FitInput K U n m stot c kn) (out : FitOut K n m stot c)
    (h : fitGeneticPLGlmm fuel C Un I = .ok (some out))
    (hexit : out.converged = true ∨ out.Iters > I.maxit) :
    ∃ x, lastRecorded out.CONVLIST = some x ∧
      (snapBelow I.theta_conv x = true ↔ out.converged = true) := by
  obtain ⟨Kinv, r, hloop, hinf⟩ := fit_ok fuel C Un I out h
  obtain ⟨hc, hi, hl, _⟩ := inference_ok C Un r out hinf
  rcases whileLoop_exit C Un I _ Kinv fuel _ r (loopInv_init Un I _) hloop with
    ⟨hm, hinv⟩ | ⟨hcf, hle, _⟩
  · obtain ⟨x, hx, hb⟩ := hinv.2.2.1 hm
    refine ⟨x, by rw [hl]; exact hx, ?_⟩
    rw [hc, hb]
  · exfalso
    rcases hexit with h1 | h1
    · rw [hc, hcf] at h1
      cases h1
    · rw [hi] at h1
      omega

/-- Witness for the amended C14: the run with `maxit = 1` and tolerance `0` returns with
`Iters = 2 > maxit`. -/
theorem converged_flag_agrees_on_normal_exit_witness :
    ∃ out, fitGeneticPLGlmm 7 (exCollab [1] [0, 1] false) (exUninit 0)
        (exInput 0 5 0 1 "Fisher") = .ok (some out) ∧
      (out.converged = true ∨ out.Iters > (exInput 0 5 0 1 "Fisher").maxit) ∧
      ∃ x, lastRecorded out.CONVLIST = some x ∧
        (snapBelow (exInput 0 5 0 1 "Fisher").theta_conv x = true ↔ out.converged = true) := by
  have hi : itersOf (fitGeneticPLGlmm 7 (exCollab [1] [0, 1] false) (exUninit 0)
      (exInput 0 5 0 1 "Fisher")) = some 2 := by decide!
  cases h : fitGeneticPLGlmm 7 (exCollab [1] [0, 1] false) (exUninit 0)
      (exInput 0 5 0 1 "Fisher") with
  | error e => rw [h] at hi; cases hi
  | ok o =>
    cases o with
    | none => rw [h] at hi; cases hi
    | some out =>
      rw [h] at hi
      have h2 : out.Iters = 2 := by
        simp only [itersOf, Option.some.injEq] at hi
        exact hi
      have hexit : out.converged = true ∨ out.Iters > (exInput 0 5 0 1 "Fisher").maxit :=
        Or.inr (by rw [h2]; decide)
      exact ⟨out, rfl, hexit,
        converged_flag_agrees_on_normal_exit 7 (exCollab [1] [0, 1] false) (exUninit 0)
          (exInput 0 5 0 1 "Fisher") out h hexit⟩

/-- No divergence exit is taken in an iteration that starts with the counter at zero:
the snapshot write at index `iters - 1` is out of bounds. -/
theorem no_break_in_first_iteration [LinearOrder K] {U : Type} {n m stot c kn : ℕ}
    (C : Collab K U n m stot c kn) (Un : Uninit K n m stot c)
    (I : FitInput K U n m stot c kn) ( V_partial : Fin c → Matrix (Fin n) (Fin n) K)
    (Kinv : Matrix (Fin kn) (Fin kn) K) (s s2 : FitState K n m stot c)
    (h0 : s.iters = 0) : iteration C Un I V_partial Kinv s ≠ .ok (s2, true) := by
  intro h
  have := ((iteration_frame C Un I V_partial Kinv s s2 true h).1 rfl).2.2.2.1
  omega

/-- C15 at the failing inputs: in the one-observation model a fitted mean reported
infinite in the first iteration, and likewise a NaN in the first theta update
(`y = (1)`), do not give an early return: the snapshot write `conv_list(iters - 1)`
has index `-1` and the call stops with the out-of-bounds error. -/
theorem divergence_in_first_iteration_is_fatal :
    errorOf (fitGeneticPLGlmm 7 (exCollab [1] [0, 1] true) (exUninit 0)
      (exInput 0 5 1 5 "Fisher")) = some "Index out of bounds" ∧
    errorOf (fitGeneticPLGlmm 7 (exCollab [1] [0, 1] false) (exUninit 0)
      (exInput 1 5 1 5 "Fisher")) = some "Index out of bounds" := by
  refine ⟨?_, ?_⟩ <;> decide!

/-- C16 at the failing input `maxit = 1`, tolerance `0` (no convergence): the call
returns `Iters = 2`, above `maxit`, and so it does for every larger bound on the loop. -/
theorem iters_exceeds_maxit :
    itersOf (fitGeneticPLGlmm 2 (exCollab [1] [0, 1] false) (exUninit 0)
      (exInput 0 5 0 1 "Fisher")) = some 2 ∧
    itersOf (fitGeneticPLGlmm 7 (exCollab [1] [0, 1] false) (exUninit 0)
      (exInput 0 5 0 1 "Fisher")) = some 2 ∧
    (exInput 0 5 0 1 "Fisher").maxit = 1 := by
  refine ⟨?_, ?_, rfl⟩ <;> decide!

/-- The solve of the driver: for an invertible coefficient matrix the update solves the
equations whose random-effect block is built from `Zstar`, not from `Z`. -/
theorem solveStep_spec [DecidableEq K] {n m stot : ℕ} (X : Matrix (Fin n) (Fin m) K)
    (Z Zstar : Matrix (Fin n) (Fin stot) K) (Winv : Matrix (Fin n) (Fin n) K)
    (G_inv : Matrix (Fin stot) (Fin stot) K) (curr_beta : Fin m → K) (curr_u : Fin stot → K)
    (y_star : Fin n → K) (hdet : (coeffMatrix X Winv Z G_inv).det ≠ 0) :
    ∃ theta, solveStep X Z Zstar Winv G_inv curr_beta curr_u y_star = .ok theta ∧
      Matrix.mulVec (coeffMatrix X Winv Z G_inv) theta
        = Fin.append (Matrix.mulVec (Xᵀ * Winv) y_star)
            (Matrix.mulVec (Zstarᵀ * Winv) y_star) := by
  refine ⟨Matrix.mulVec (coeffMatrix X Winv Z G_inv)⁻¹
      (Fin.append (Matrix.mulVec (Xᵀ * Winv) y_star) (Matrix.mulVec (Zstarᵀ * Winv) y_star)),
    ?_, ?_⟩
  · unfold solveStep solveEquations solve_equations
    simp only []
    rw [inv_eq_ok _ hdet]
  · rw [Matrix.mulVec_mulVec, Matrix.mul_nonsing_inv _ (isUnit_iff_ne_zero.mpr hdet),
      Matrix.one_mulVec]

/-- The theta phase stores the coefficient matrix built from `Z` and the update returned
by the solve that is handed `Zstar`. -/
theorem thetaPhase_theta [LinearOrder K] {U : Type} {n m stot c kn : ℕ}
    (C : Collab K U n m stot c kn) (Un : Uninit K n m stot c)
    (I : FitInput K U n m stot c kn) (s s2 : FitState K n m stot c) (b : Bool)
    (h : thetaPhase C Un I s = .ok (s2, b)) :
    s2.coeff_mat = coeffMatrix I.X s.Winv I.Z s.G_inv ∧
    solveStep I.X I.Z Un.Zstar s.Winv s.G_inv s.curr_beta s.curr_u s.y_star
      = .ok s2.theta_update ∧
    s2.Winv = s.Winv ∧ s2.y_star = s.y_star := by
  unfold thetaPhase at h
  simp only [bind, Except.bind, pure, Except.pure] at h
  split at h
  · cases h
  rename_i th hth
  split at h
  · split at h
    · cases h
    · cases h
      exact ⟨rfl, hth, rfl, rfl⟩
  split at h
  · split at h
    · cases h
    · cases h
      exact ⟨rfl, hth, rfl, rfl⟩
  split at h
  · cases h
  · cases h
    exact ⟨rfl, hth, rfl, rfl⟩

/-- C19 at a failing input: one-observation model with `Z = (0)` and the uninitialised
array `Zstar` holding `(1)`, `y = (1/2)`.  The first iteration completes, the
coefficient matrix is invertible, and the stored `theta_update` does not solve the
equations built from the caller's `Z`; it solves those built from `Zstar`. -/
theorem solve_uses_Zstar :
    (iteration (exCollab [1] [0, 1] false) (exUninit 1) (exInput (1 / 2) 5 1 5 "Fisher")
      (fun _ => 1) 1 (exState (1 / 2) 5 1 "Fisher")).toOption.map
        (fun p => (decide (p.1.coeff_mat.det ≠ 0),
          mmeHolds (exInput (1 / 2) 5 1 5 "Fisher").X (exInput (1 / 2) 5 1 5 "Fisher").Z p.1,
          mmeHolds (exInput (1 / 2) 5 1 5 "Fisher").X (exUninit 1).Zstar p.1))
      = some (true, false, true) := by
  decide!

/-- On the negativity re-run the whole output of the constrained estimator is committed
to `curr_sigma` (no `tail(c)`), and `_intercept` keeps the value it had before the
re-run. -/
theorem rerun_commits_untrimmed [LinearOrder K] {U : Type} {n m stot c kn : ℕ}
    (C : Collab K U n m stot c kn) (Un : Uninit K n m stot c)
    (I : FitInput K U n m stot c kn) ( V_partial : Fin c → Matrix (Fin n) (Fin n) K)
    (Kinv : Matrix (Fin kn) (Fin kn) K) (s sw s1 : FitState K n m stot c) (upd : List K × K)
    (hw : workingPhase C Un I V_partial s = .ok sw) (hu : solverDispatch C I sw = .ok upd)
    (hneg : upd.1.any (fun x => decide (x < 0)) = true)
    (h : sigmaPhase C Un I V_partial Kinv s = .ok s1) :
    (∃ start, s1.curr_sigma
      = C.estHasemanElstonConstrainedGenetic I.Z sw.P I.u_indices sw.y_star I.Kmat start
          sw.iters) ∧
    s1._intercept = upd.2 ∧ s1.curr_sigma.length = s.curr_sigma.length := by
  unfold sigmaPhase at h
  rw [hw] at h
  simp only [hu] at h
  split at h
  · cases h
  · rename_i rerun hr
    have hcf := commitSigma_frame C I Kinv sw s1 upd.2 rerun.1 rerun.2 h
    have hwf := workingPhase_frame C Un I V_partial s sw hw
    unfold negativeRerun at hr
    simp only [hneg, if_true] at hr
    split at hr
    · cases hr
    · rename_i start hst
      cases hr
      refine ⟨⟨start, hcf.2.1⟩, hcf.2.2.1, ?_⟩
      rw [hcf.2.1, hcf.2.2.2.1, hwf.2.2.2.2.2.1]

/-- When the constrained estimator returns `c + 1` values and `curr_sigma` has `c`, an
iteration whose active update has a negative entry stops with an error. -/
theorem rerun_fails [LinearOrder K] {U : Type} {n m stot c kn : ℕ}
    (C : Collab K U n m stot c kn) (Un : Uninit K n m stot c)
    (I : FitInput K U n m stot c kn) ( V_partial : Fin c → Matrix (Fin n) (Fin n) K)
    (Kinv : Matrix (Fin kn) (Fin kn) K) (s : FitState K n m stot c) (upd : List K)
    (hest : ∀ Zm Pm ui ys Km start it,
      (C.estHasemanElstonConstrainedGenetic Zm Pm ui ys Km start it).length = c + 1)
    (hlen : s.curr_sigma.length = c)
    (hact : activeUpdate C Un I V_partial s = .ok upd)
    (hneg : upd.any (fun x => decide (x < 0)) = true) :
    ∃ e, sigmaPhase C Un I V_partial Kinv s = .error e := by
  unfold activeUpdate at hact
  split at hact
  · cases hact
  rename_i sw hw
  split at hact
  · cases hact
  rename_i u2 hu
  cases hact
  cases hs : sigmaPhase C Un I V_partial Kinv s with
  | error e => exact ⟨e, rfl⟩
  | ok s1 =>
    exfalso
    obtain ⟨⟨start, hst⟩, _, hl⟩ :=
      rerun_commits_untrimmed C Un I V_partial Kinv s sw s1 u2 hw hu hneg hs
    rw [hst, hest, hlen] at hl
    omega

/-- C20 at a failing input: one-observation model (`c = 1`), Fisher scoring returning
`[-1]`, constrained estimator returning the `c + 1` values `[0, 1]`.  The re-run
iteration commits nothing: the difference `sigma_update - curr_sigma` of a 2-vector
and a 1-vector stops the call with a dimension error.  On the sibling path (solver
`"HE-NNLS"` from the start, estimator returning `[7, 1]`) the last `c` entries `[1]`
are committed and the intercept `7` is stored apart. -/
theorem rerun_keeps_intercept_in_sigma :
    errorOf (sigmaPhase (exCollab [-1] [0, 1] false) (exUninit 0) (exInput 0 5 1 5 "Fisher")
      (fun _ => 1) 1 (exState 0 5 1 "Fisher"))
        = some "subtraction: incompatible matrix dimensions" ∧
    errorOf (fitGeneticPLGlmm 7 (exCollab [-1] [0, 1] false) (exUninit 0)
      (exInput 0 5 1 5 "Fisher")) = some "subtraction: incompatible matrix dimensions" ∧
    (sigmaPhase (exCollab [1] [7, 1] false) (exUninit 0) (exInput 0 5 1 5 "HE-NNLS")
      (fun _ => 1) 1 (exState 0 5 1 "HE-NNLS")).toOption.map
        (fun s => (s.curr_sigma, s._intercept)) = some ([1], 7) := by
  refine ⟨?_, ?_, ?_⟩ <;> decide!

/-! ## The trace writes of the divergence exits -/

/-- The write of a divergence exit: the theta phase that ends in a `break` stores its
snapshot in slot `iters - 1`. -/
theorem thetaPhase_break_write [LinearOrder K] {U : Type} {n m stot c kn : ℕ}
    (C : Collab K U n m stot c kn) (Un : Uninit K n m stot c)
    (I : FitInput K U n m stot c kn) (s s2 : FitState K n m stot c)
    (h : thetaPhase C Un I s = .ok (s2, true)) :
    ∃ x, s2.conv_list = s.conv_list.set (s.iters - 1).toNat (some x) := by
  unfold thetaPhase at h
  simp only [bind, Except.bind, pure, Except.pure] at h
  split at h
  · cases h
  split at h
  · split at h
    · cases h
    · rename_i cl hcl
      cases h
      unfold convWrite at hcl
      split at hcl
      · cases hcl
      · cases hcl
        exact ⟨_, rfl⟩
  split at h
  · split at h
    · cases h
    · rename_i cl hcl
      cases h
      unfold convWrite at hcl
      split at hcl
      · cases hcl
      · cases hcl
        exact ⟨_, rfl⟩
  split at h
  · cases h
  · cases h

/-- An iteration that leaves by a divergence exit overwrites the snapshot recorded last:
slot `iters - 1` is filled before the iteration and rewritten by it. -/
theorem break_overwrites_last [LinearOrder K] {U : Type} {n m stot c kn : ℕ}
    (C : Collab K U n m stot c kn) (Un : Uninit K n m stot c)
    (I : FitInput K U n m stot c kn) ( V_partial : Fin c → Matrix (Fin n) (Fin n) K)
    (Kinv : Matrix (Fin kn) (Fin kn) K) (s s2 : FitState K n m stot c)
    (hinv : LoopInv I s) (h : iteration C Un I V_partial Kinv s = .ok (s2, true)) :
    1 ≤ s.iters ∧
    (∃ y, s.conv_list.get? (s.iters - 1).toNat = some (some y)) ∧
    ∃ x, s2.conv_list = s.conv_list.set (s.iters - 1).toNat (some x) := by
  have hfr := (iteration_frame C Un I V_partial Kinv s s2 true h).1 rfl
  have h1 : 1 ≤ s.iters := hfr.2.2.2.1
  obtain ⟨_, ⟨pre, r, hcl, hlen⟩, _, _⟩ := hinv
  refine ⟨h1, ?_, ?_⟩
  · have hlt : (s.iters - 1).toNat < pre.length := by omega
    refine ⟨pre.get ⟨(s.iters - 1).toNat, hlt⟩, ?_⟩
    rw [hcl, List.get?_eq_getElem?, List.getElem?_append_left (by simpa using hlt)]
    simp [List.getElem?_map, List.getElem?_eq_getElem hlt]
  · unfold iteration at h
    split at h
    · cases h
    · rename_i sp hsp
      obtain ⟨sw, upd, rerun, hw, hu, hr, hc⟩ := sigmaPhase_ok C Un I V_partial Kinv s sp hsp
      have hcf := commitSigma_frame C I Kinv sw sp upd.2 rerun.1 rerun.2 hc
      have hwf := workingPhase_frame C Un I V_partial s sw hw
      have hi : sp.iters = s.iters := by rw [hcf.2.2.2.2.1, hwf.2.1]
      have hl : sp.conv_list = s.conv_list := by rw [hcf.2.2.2.2.2.2.2.1, hwf.2.2.2.2.1]
      obtain ⟨x, hx⟩ := thetaPhase_break_write C Un I sp s2 h
      rw [hi, hl] at hx
      exact ⟨x, hx⟩

/-- C21 at the failing inputs, in the one-observation model with Fisher scoring and a
trace of six slots.  A fitted mean reported infinite in the first iteration, when no
snapshot is recorded yet, makes the iteration write at index `-1`: it stops with the
out-of-bounds error.  With `y = (1/2)` the first iteration completes and records
`SigmaDiff = (4)` in slot `0`; the second iteration takes the NaN exit with the counter
still `1` and writes `SigmaDiff = (0)` into slot `0` again, over the recorded snapshot,
leaving slot `1` empty. -/
theorem divergence_write_overwrites :
    (lastRecorded (exState 0 5 1 "Fisher").conv_list).isNone = true ∧
    errorOf (iteration (exCollab [1] [0, 1] true) (exUninit 0) (exInput 0 5 1 5 "Fisher")
      (fun _ => 1) 1 (exState 0 5 1 "Fisher")) = some "Index out of bounds" ∧
    (iteration (exCollab [1] [0, 1] false) (exUninit 0) (exInput (1 / 2) 5 1 5 "Fisher")
      (fun _ => 1) 1 (exState (1 / 2) 5 1 "Fisher")).toOption.map
        (fun p => (p.2, p.1.iters, sigmaDiffs p.1.conv_list))
      = some (false, 1, [some [4], none, none, none, none, none]) ∧
    (iteration (exCollab [1] [0, 1] false) (exUninit 0) (exInput (1 / 2) 5 1 5 "Fisher")
      (fun _ => 1) 1 (exState (1 / 2) 5 1 "Fisher")).toOption.bind (fun p =>
        (iteration (exCollab [1] [0, 1] false) (exUninit 0)
          (exInput (1 / 2) 5 1 5 "Fisher") (fun _ => 1) 1 p.1).toOption.map
            (fun q => (q.2, q.1.iters, sigmaDiffs q.1.conv_list)))
      = some (true, 1, [some [0], none, none, none, none, none]) := by
  refine ⟨?_, ?_, ?_, ?_⟩ <;> decide!

/-! ## Sherman-Morrison update -/

/-- A matrix times an outer product. -/
theorem mul_vecMulVec_eq {n : ℕ} (M : Matrix (Fin n) (Fin n) K) (w z : Fin n → K) :
    M * Matrix.vecMulVec w z = Matrix.vecMulVec (Matrix.mulVec M w) z := by
  ext i j
  simp only [Matrix.mul_apply, Matrix.vecMulVec_apply, Matrix.mulVec, Matrix.dotProduct,
    Finset.sum_mul, mul_assoc]

/-- An outer product times a matrix. -/
theorem vecMulVec_mul_eq {n : ℕ} (M : Matrix (Fin n) (Fin n) K) (w z : Fin n → K) :
    Matrix.vecMulVec w z * M = Matrix.vecMulVec w (Matrix.vecMul z M) := by
  ext i j
  simp only [Matrix.mul_apply, Matrix.vecMulVec_apply, Matrix.vecMul, Matrix.dotProduct,
    Finset.mul_sum, mul_assoc]

/-- The product of two outer products. -/
theorem vecMulVec_mul_vecMulVec {n : ℕ} (u v w z : Fin n → K) :
    Matrix.vecMulVec u v * Matrix.vecMulVec w z = (v ⬝ᵥ w) • Matrix.vecMulVec u z := by
  ext i j
  simp only [Matrix.mul_apply, Matrix.vecMulVec_apply, Matrix.dotProduct, Matrix.smul_apply,
    smul_eq_mul, Finset.sum_mul, Finset.mul_sum]
  apply Finset.sum_congr rfl
  intro k _
  ring

/-- The value of `rankOneUp` as a matrix expression. -/
theorem rankOneUp_eq {n : ℕ} (A : Matrix (Fin n) (Fin n) K) (u v : Fin n → K) :
    rankOneUp A u v = A - (1 + Matrix.vecMul v A ⬝ᵥ u)⁻¹ •
      Matrix.vecMulVec (Matrix.mulVec A u) (Matrix.vecMul v A) := by
  ext i j
  simp only [rankOneUp, Matrix.sub_apply, Matrix.of_apply, Matrix.smul_apply,
    Matrix.vecMulVec_apply, smul_eq_mul, div_eq_mul_inv]
  ring

/-- The Sherman-Morrison identity for `rankOneUp`, on the right. -/
theorem rankOneUp_right {n : ℕ} (M A : Matrix (Fin n) (Fin n) K) (u v : Fin n → K)
    (hMA : M * A = 1) (hd : 1 + Matrix.vecMul v A ⬝ᵥ u ≠ 0) :
    (M + Matrix.vecMulVec u v) * rankOneUp A u v = 1 := by
  have h1 : Matrix.mulVec M (Matrix.mulVec A u) = u := by
    rw [Matrix.mulVec_mulVec, hMA, Matrix.one_mulVec]
  have h2 : v ⬝ᵥ Matrix.mulVec A u = Matrix.vecMul v A ⬝ᵥ u :=
    Matrix.dotProduct_mulVec v A u
  rw [rankOneUp_eq, Matrix.add_mul, Matrix.mul_sub, Matrix.mul_sub, Matrix.mul_smul,
    Matrix.mul_smul, mul_vecMulVec_eq, vecMulVec_mul_eq, vecMulVec_mul_vecMulVec, h1, h2, hMA]
  ext i j
  simp only [Matrix.add_apply, Matrix.sub_apply, Matrix.smul_apply, Matrix.vecMulVec_apply,
    smul_eq_mul]
  field_simp
  ring

/-- C22. The function `rankOneUp` is the Sherman-Morrison inverse: when `A` is the inverse
of `M` and `1 + v A u` is not zero, `rankOneUp A u v` is the two-sided inverse of
`M + u v`; for `u` the `k`-th unit vector, as `kRankOneUpdates` passes it, that matrix is
`M` with `v` added to its `k`-th row.  The source takes `u` with unsigned integer
entries, which the products convert to `double`; the statement holds for every `u`. -/
theorem rankOneUp_sherman_morrison {n : ℕ} (M A : Matrix (Fin n) (Fin n) K)
    (u v : Fin n → K) (hMA : M * A = 1) (hd : 1 + Matrix.vecMul v A ⬝ᵥ u ≠ 0) :
    (M + Matrix.vecMulVec u v) * rankOneUp A u v = 1 ∧
    rankOneUp A u v * (M + Matrix.vecMulVec u v) = 1 ∧
    rankOneUp A u v = (M + Matrix.vecMulVec u v)⁻¹ ∧
    ∀ k : Fin n, u = (fun i => if i = k then 1 else 0) →
      rankOneUp A u v * Matrix.updateRow M k (M k + v) = 1 ∧
      Matrix.updateRow M k (M k + v) * rankOneUp A u v = 1 := by
  have hr := rankOneUp_right M A u v hMA hd
  have hl : rankOneUp A u v * (M + Matrix.vecMulVec u v) = 1 := Matrix.mul_eq_one_comm.mp hr
  have hrow : ∀ k : Fin n, u = (fun i => if i = k then 1 else 0) →
      M + Matrix.vecMulVec u v = Matrix.updateRow M k (M k + v) := by
    intro k hu
    ext i j
    by_cases hik : i = k
    · subst hik
      simp [hu, Matrix.vecMulVec_apply]
    · simp [hu, hik, Matrix.vecMulVec_apply, Matrix.updateRow_ne hik]
  refine ⟨hr, hl, (Matrix.inv_eq_left_inv hl).symm, fun k hu => ?_⟩
  rw [← hrow k hu]
  exact ⟨hl, hr⟩

/-- Witness for C22: `M = A = I₂`, `u` the first unit vector, `v = (0, 2)`. -/
theorem rankOneUp_sherman_morrison_witness :
    (exA + Matrix.vecMulVec (fun i : Fin 2 => if i = 0 then (1 : ℚ) else 0) (exUpd 0))
        * rankOneUp exA (fun i => if i = 0 then 1 else 0) (exUpd 0) = 1 ∧
    rankOneUp exA (fun i => if i = 0 then 1 else 0) (exUpd 0)
        * Matrix.updateRow exA 0 (exA 0 + exUpd 0) = 1 :=
  ⟨(rankOneUp_sherman_morrison exA exA (fun i => if i = 0 then 1 else 0) (exUpd 0)
      (by simp [exA])
      (by simp [exA, exUpd, Matrix.vecMul, Matrix.dotProduct, Fin.sum_univ_two])).1,
    ((rankOneUp_sherman_morrison exA exA (fun i => if i = 0 then 1 else 0) (exUpd 0)
      (by simp [exA])
      (by simp [exA, exUpd, Matrix.vecMul, Matrix.dotProduct, Fin.sum_univ_two])).2.2.2 0
        rfl).1⟩

/-! ## The iteration budget -/

/-- The counter invariant holds on entry to the loop when `maxit` is not negative. -/
theorem budgetInv_init [LinearOrder K] {U : Type} {n m stot c kn : ℕ}
    (Un : Uninit K n m stot c) (I : FitInput K U n m stot c kn)
    (cl : List (Option (Snapshot K m stot))) (hmaxit : 0 ≤ I.maxit) :
    BudgetInv I (initState Un I cl) := by
  refine ⟨le_refl _, ?_, fun _ => hmaxit, ?_⟩
  · show (0 : ℤ) ≤ I.maxit + 1
    omega
  · intro h
    simp [initState] at h

/-- An iteration started while the loop runs preserves the counter invariant. -/
theorem budgetInv_step [LinearOrder K] {U : Type} {n m stot c kn : ℕ}
    (C : Collab K U n m stot c kn) (Un : Uninit K n m stot c)
    (I : FitInput K U n m stot c kn) ( V_partial : Fin c → Matrix (Fin n) (Fin n) K)
    (Kinv : Matrix (Fin kn) (Fin kn) K) (s s2 : FitState K n m stot c) (b : Bool)
    (hinv : BudgetInv I s) (hm : s.meet_cond = false)
    (h : iteration C Un I V_partial Kinv s = .ok (s2, b)) : BudgetInv I s2 := by
  obtain ⟨h0, h1, h2, h3⟩ := hinv
  have hle := h2 hm
  cases b with
  | true =>
    obtain ⟨hi, hmc, hc, _, _⟩ := (iteration_frame C Un I V_partial Kinv s s2 true h).1 rfl
    refine ⟨by rw [hi]; exact h0, by rw [hi]; exact h1, fun _ => by rw [hi]; exact hle, ?_⟩
    intro ht
    rw [hmc, hm] at ht
    cases ht
  | false =>
    obtain ⟨hi, _, hmeet, _, _, _⟩ :=
      (iteration_frame C Un I V_partial Kinv s s2 false h).2 rfl
    refine ⟨by omega, by omega, ?_, ?_⟩
    · intro hf
      rw [hmeet, Bool.or_eq_false_iff] at hf
      have := hf.2
      simp only [decide_eq_false_iff_not, not_lt] at this
      exact this
    · intro ht hcf
      rw [hmeet, hcf, Bool.false_or] at ht
      simp only [decide_eq_true_eq] at ht
      omega

/-- The counter invariant holds in the state in which the loop ends. -/
theorem whileLoop_budget [LinearOrder K] {U : Type} {n m stot c kn : ℕ}
    (C : Collab K U n m stot c kn) (Un : Uninit K n m stot c)
    (I : FitInput K U n m stot c kn) ( V_partial : Fin c → Matrix (Fin n) (Fin n) K)
    (Kinv : Matrix (Fin kn) (Fin kn) K) (fuel : ℕ) :
    ∀ s r : FitState K n m stot c, BudgetInv I s →
      whileLoop C Un I V_partial Kinv fuel s = .ok (some r) → BudgetInv I r := by
  induction fuel with
  | zero =>
    intro s r hinv h
    rw [whileLoop] at h
    split at h
    · cases h; exact hinv
    · cases h
  | succ fuel ih =>
    intro s r hinv h
    rw [whileLoop] at h
    split at h
    · cases h; exact hinv
    · rename_i hm
      have hmf : s.meet_cond = false := by simpa using hm
      split at h
      · cases h
      · rename_i s1 hit
        cases h
        exact budgetInv_step C Un I V_partial Kinv s _ true hinv hmf hit
      · rename_i s1 hit
        exact ih s1 r (budgetInv_step C Un I V_partial Kinv s s1 false hinv hmf hit) h

/-- The loop ends within `maxit + 1 - iters` further passes through its body. -/
theorem whileLoop_fuel_enough [LinearOrder K] {U : Type} {n m stot c kn : ℕ}
    (C : Collab K U n m stot c kn) (Un : Uninit K n m stot c)
    (I : FitInput K U n m stot c kn) ( V_partial : Fin c → Matrix (Fin n) (Fin n) K)
    (Kinv : Matrix (Fin kn) (Fin kn) K) (fuel : ℕ) :
    ∀ s : FitState K n m stot c, BudgetInv I s → (I.maxit + 1 - s.iters).toNat ≤ fuel →
      whileLoop C Un I V_partial Kinv fuel s ≠ .ok none := by
  induction fuel with
  | zero =>
    intro s hinv hf h
    rw [whileLoop] at h
    split at h
    · cases h
    · rename_i hm
      have := hinv.2.2.1 (by simpa using hm)
      omega
  | succ fuel ih =>
    intro s hinv hf h
    rw [whileLoop] at h
    split at h
    · cases h
    · rename_i hm
      have hmf : s.meet_cond = false := by simpa using hm
      split at h
      · cases h
      · cases h
      · rename_i s1 hit
        have hi := ((iteration_frame C Un I V_partial Kinv s s1 false hit).2 rfl).1
        refine ih s1 (budgetInv_step C Un I V_partial Kinv s s1 false hinv hmf hit) ?_ h
        rw [hi]
        omega

/-- The loop with no pass allowed. -/
theorem whileLoop_zero [LinearOrder K] {U : Type} {n m stot c kn : ℕ}
    (C : Collab K U n m stot c kn) (Un : Uninit K n m stot c)
    (I : FitInput K U n m stot c kn) ( V_partial : Fin c → Matrix (Fin n) (Fin n) K)
    (Kinv : Matrix (Fin kn) (Fin kn) K) (s : FitState K n m stot c) :
    whileLoop C Un I V_partial Kinv 0 s
      = if s.meet_cond then .ok (some s) else .ok none := by
  rw [whileLoop]

/-- The loop with at least one pass allowed. -/
theorem whileLoop_succ [LinearOrder K] {U : Type} {n m stot c kn : ℕ}
    (C : Collab K U n m stot c kn) (Un : Uninit K n m stot c)
    (I : FitInput K U n m stot c kn) ( V_partial : Fin c → Matrix (Fin n) (Fin n) K)
    (Kinv : Matrix (Fin kn) (Fin kn) K) (fuel : ℕ) (s : FitState K n m stot c) :
    whileLoop C Un I V_partial Kinv (fuel + 1) s
      = if s.meet_cond then .ok (some s)
        else match iteration C Un I V_partial Kinv s with
          | .error e => .error e
          | .ok (s1, true) => .ok (some s1)
          | .ok (s1, false) => whileLoop C Un I V_partial Kinv fuel s1 := by
  rw [whileLoop]

/-- Once the loop has ended, one more allowed pass changes nothing. -/
theorem whileLoop_fuel_succ [LinearOrder K] {U : Type} {n m stot c kn : ℕ}
    (C : Collab K U n m stot c kn) (Un : Uninit K n m stot c)
    (I : FitInput K U n m stot c kn) ( V_partial : Fin c → Matrix (Fin n) (Fin n) K)
    (Kinv : Matrix (Fin kn) (Fin kn) K) (fuel : ℕ) :
    ∀ s : FitState K n m stot c, whileLoop C Un I V_partial Kinv fuel s ≠ .ok none →
      whileLoop C Un I V_partial Kinv (fuel + 1) s
        = whileLoop C Un I V_partial Kinv fuel s := by
  induction fuel with
  | zero =>
    intro s h
    rw [whileLoop_zero] at h
    rw [whileLoop_succ, whileLoop_zero]
    by_cases hm : s.meet_cond = true
    · simp only [hm, if_true]
    · simp only [hm, if_false] at h
      exact absurd rfl h
  | succ fuel ih =>
    intro s h
    rw [whileLoop_succ] at h
    rw [whileLoop_succ C Un I V_partial Kinv (fuel + 1) s, whileLoop_succ C Un I V_partial Kinv fuel s]
    by_cases hm : s.meet_cond = true
    · simp only [hm, if_true]
    · simp only [hm, if_false] at h ⊢
      cases hit : iteration C Un I V_partial Kinv s with
      | error e => rfl
      | ok p =>
        obtain ⟨s1, b⟩ := p
        cases b with
        | true => rfl
        | false =>
          rw [hit] at h
          exact ih s1 h

/-- Any bound at least as large as one under which the loop has ended gives the same
result. -/
theorem whileLoop_fuel_stable [LinearOrder K] {U : Type} {n m stot c kn : ℕ}
    (C : Collab K U n m stot c kn) (Un : Uninit K n m stot c)
    (I : FitInput K U n m stot c kn) ( V_partial : Fin c → Matrix (Fin n) (Fin n) K)
    (Kinv : Matrix (Fin kn) (Fin kn) K) (fuel : ℕ) (s : FitState K n m stot c)
    (h : whileLoop C Un I V_partial Kinv fuel s ≠ .ok none) (k : ℕ) :
    whileLoop C Un I V_partial Kinv (fuel + k) s
      = whileLoop C Un I V_partial Kinv fuel s := by
  induction k with
  | zero => rfl
  | succ k ih =>
    rw [← Nat.add_assoc, whileLoop_fuel_succ C Un I V_partial Kinv (fuel + k) s (by rw [ih]; exact h),
      ih]

/-- A call whose loop has ended under the bound does not report an unfinished loop. -/
theorem fit_ne_none [LinearOrder K] {U : Type} {n m stot c kn : ℕ} (fuel : ℕ)
    (C : Collab K U n m stot c kn) (Un : Uninit K n m stot c)
    (I : FitInput K U n m stot c kn)
    (hl : ∀ (Kinv : Matrix (Fin kn) (Fin kn) K) (cl : List (Option (Snapshot K m stot))),
      whileLoop C Un I (C.pseudovarPartial_G I.Z I.Kmat I.u_indices) Kinv fuel
        (initState Un I cl) ≠ .ok none) :
    fitGeneticPLGlmm fuel C Un I ≠ .ok none := by
  intro h
  unfold fitGeneticPLGlmm at h
  simp only [bind, Except.bind, pure, Except.pure] at h
  split at h
  · cases h
  rename_i cl hcl
  split at h
  · cases h
  rename_i Kinv hK
  split at h
  · cases h
  rename_i ro hro
  split at h
  · exact hl Kinv cl hro
  · split at h
    · cases h
    · cases h

/-- Two bounds under which the loop gives the same result give the same call result. -/
theorem fit_congr [LinearOrder K] {U : Type} {n m stot c kn : ℕ} (fuel fuel2 : ℕ)
    (C : Collab K U n m stot c kn) (Un : Uninit K n m stot c)
    (I : FitInput K U n m stot c kn)
    (hl : ∀ (Kinv : Matrix (Fin kn) (Fin kn) K) (cl : List (Option (Snapshot K m stot))),
      whileLoop C Un I (C.pseudovarPartial_G I.Z I.Kmat I.u_indices) Kinv fuel
        (initState Un I cl)
      = whileLoop C Un I (C.pseudovarPartial_G I.Z I.Kmat I.u_indices) Kinv fuel2
        (initState Un I cl)) :
    fitGeneticPLGlmm fuel C Un I = fitGeneticPLGlmm fuel2 C Un I := by
  unfold fitGeneticPLGlmm
  simp only [hl]

/-- C23. The driver loop ends within the iteration budget.  For `maxit ≥ 0`: with no
pass through the loop body allowed the call never returns its list (at least one
iteration is executed); with `maxit + 1` passes allowed the loop has ended, and allowing
more passes gives the same result (at most `maxit + 1` iterations are executed); a
completed iteration increases the counter by exactly one; the returned `Iters` lies
between `0` and `maxit + 1`; and when the loop ends by its condition (no divergence
exit) without convergence, `Iters = maxit + 1`. -/
theorem loop_ends_within_budget [LinearOrder K] {U : Type} {n m stot c kn : ℕ}
    (C : Collab K U n m stot c kn) (Un : Uninit K n m stot c)
    (I : FitInput K U n m stot c kn) (hmaxit : 0 ≤ I.maxit) :
    (∀ out, fitGeneticPLGlmm 0 C Un I ≠ .ok (some out)) ∧
    (∀ fuel, (I.maxit + 1).toNat ≤ fuel →
      fitGeneticPLGlmm fuel C Un I ≠ .ok none ∧
      fitGeneticPLGlmm fuel C Un I = fitGeneticPLGlmm (I.maxit + 1).toNat C Un I) ∧
    (∀ ( V_partial : Fin c → Matrix (Fin n) (Fin n) K) (Kinv : Matrix (Fin kn) (Fin kn) K)
      (s s1 : FitState K n m stot c),
      iteration C Un I V_partial Kinv s = .ok (s1, false) → s1.iters = s.iters + 1) ∧
    (∀ fuel out, fitGeneticPLGlmm fuel C Un I = .ok (some out) →
      0 ≤ out.Iters ∧ out.Iters ≤ I.maxit + 1 ∧
      ∃ (Kinv : Matrix (Fin kn) (Fin kn) K) (r : FitState K n m stot c),
        whileLoop C Un I (C.pseudovarPartial_G I.Z I.Kmat I.u_indices) Kinv fuel
          (initState Un I (List.replicate (I.maxit + 1).toNat none)) = .ok (some r) ∧
        out.Iters = r.iters ∧ out.converged = r.converged ∧
        (r.meet_cond = true → r.converged = false → out.Iters = I.maxit + 1)) := by
  have henough : ∀ fuel, (I.maxit + 1).toNat ≤ fuel →
      ∀ (Kinv : Matrix (Fin kn) (Fin kn) K) (cl : List (Option (Snapshot K m stot))),
        whileLoop C Un I (C.pseudovarPartial_G I.Z I.Kmat I.u_indices) Kinv fuel
          (initState Un I cl) ≠ .ok none := by
    intro fuel hf Kinv cl
    apply whileLoop_fuel_enough C Un I _ Kinv fuel _ (budgetInv_init Un I cl hmaxit)
    have : (initState Un I cl).iters = 0 := rfl
    rw [this, sub_zero]
    exact hf
  refine ⟨?_, ?_, ?_, ?_⟩
  · intro out h
    obtain ⟨Kinv, r, hloop, _⟩ := fit_ok 0 C Un I out h
    rw [whileLoop_zero] at hloop
    have hm : (initState Un I (List.replicate (I.maxit + 1).toNat none)
        : FitState K n m stot c).meet_cond = false := rfl
    simp only [hm] at hloop
    cases hloop
  · intro fuel hf
    refine ⟨fit_ne_none fuel C Un I (henough fuel hf), ?_⟩
    obtain ⟨k, rfl⟩ := Nat.exists_eq_add_of_le hf
    apply fit_congr
    intro Kinv cl
    exact whileLoop_fuel_stable C Un I _ Kinv _ _ (henough _ (le_refl _) Kinv cl) k
  · intro V_partial Kinv s s1 h
    exact ((iteration_frame C Un I V_partial Kinv s s1 false h).2 rfl).1
  · intro fuel out h
    obtain ⟨Kinv, r, hloop, hinf⟩ := fit_ok fuel C Un I out h
    obtain ⟨hc, hi, _, _⟩ := inference_ok C Un r out hinf
    obtain ⟨h0, h1, _, h3⟩ :=
      whileLoop_budget C Un I _ Kinv fuel _ r (budgetInv_init Un I _ hmaxit) hloop
    refine ⟨by rw [hi]; exact h0, by rw [hi]; exact h1, Kinv, r, hloop, hi, hc, ?_⟩
    intro hm hcf
    rw [hi]
    exact h3 hm hcf

/-- Witness for C23: the one-observation model with `maxit = 1` and tolerance `0`; the
call with two passes allowed returns `Iters = 2 = maxit + 1`, not converged. -/
theorem loop_ends_within_budget_witness :
    (0 : ℤ) ≤ (exInput 0 5 0 1 "Fisher").maxit ∧
    fitGeneticPLGlmm 7 (exCollab [1] [0, 1] false) (exUninit 0) (exInput 0 5 0 1 "Fisher")
      = fitGeneticPLGlmm ((exInput 0 5 0 1 "Fisher").maxit + 1).toNat
          (exCollab [1] [0, 1] false) (exUninit 0) (exInput 0 5 0 1 "Fisher") ∧
    ∃ out, fitGeneticPLGlmm 7 (exCollab [1] [0, 1] false) (exUninit 0)
        (exInput 0 5 0 1 "Fisher") = .ok (some out) ∧
      0 ≤ out.Iters ∧ out.Iters ≤ (exInput 0 5 0 1 "Fisher").maxit + 1 := by
  have hi : itersOf (fitGeneticPLGlmm 7 (exCollab [1] [0, 1] false) (exUninit 0)
      (exInput 0 5 0 1 "Fisher")) = some 2 := by decide!
  have hthm := loop_ends_within_budget (exCollab [1] [0, 1] false) (exUninit 0)
    (exInput 0 5 0 1 "Fisher") (by decide)
  refine ⟨by decide, (hthm.2.1 7 (by decide)).2, ?_⟩
  cases h : fitGeneticPLGlmm 7 (exCollab [1] [0, 1] false) (exUninit 0)
      (exInput 0 5 0 1 "Fisher") with
  | error e => rw [h] at hi; cases hi
  | ok o =>
    cases o with
    | none => rw [h] at hi; cases hi
    | some out =>
      obtain ⟨h0, h1, _⟩ := hthm.2.2.2 7 out h
      exact ⟨out, rfl, h0, h1⟩

/-! ## The parallel sections of `invertPseudoVar` -/

/-- With the sections in program order the result does not depend on what the arrays
held before. -/
theorem invertPseudoVarSched_inOrder [LinearOrder K] {n c : ℕ}
    (rcond : (k : ℕ) → Matrix (Fin k) (Fin k) K → K)
    (pinv : Matrix (Fin c) (Fin c) K → Matrix (Fin c) (Fin c) K)
    (A : Matrix (Fin n) (Fin n) K) (B : Matrix (Fin c) (Fin c) K)
    (Z : Matrix (Fin n) (Fin c) K) (ZtA : Matrix (Fin c) (Fin n) K) (st0 st1 : Shared K n c) :
    invertPseudoVarSched true rcond pinv A B Z ZtA st0
      = invertPseudoVarSched true rcond pinv A B Z ZtA st1 := rfl

/-- The second section run first computes `mid` from the old content of `ZB`. -/
theorem sectionMid_first {n c : ℕ} (Z : Matrix (Fin n) (Fin c) K)
    (B : Matrix (Fin c) (Fin c) K) (ZtA : Matrix (Fin c) (Fin n) K) (st0 : Shared K n c) :
    (sectionMid ZtA (sectionZB Z B st0)).mid = 1 + ZtA * (Z * B) ∧
    (sectionZB Z B (sectionMid ZtA st0)).mid = 1 + ZtA * st0.ZB := ⟨rfl, rfl⟩

/-- C24 at a failing input: `A = I₂`, `B = (2)`, `Z = (1, 1)ᵀ`, `ZtA = Zᵀ A`, the
arrays holding zeros before the sections run.  The middle matrix depends on the
content of `ZB` when the second section runs: it is `(5)` after the first section and
`(1)` before it; and `invertPseudoVar` returns `I - (2/5) J` with the sections in
program order, `I - 2 J` with the second section first. -/
theorem sections_not_independent :
    midSection (exZᵀ * exA) (exZ * exB) 0 0 = 5 ∧
    midSection (exZᵀ * exA) exShared.ZB 0 0 = 1 ∧
    (sectionMid (exZᵀ * exA) (sectionZB exZ exB exShared)).mid 0 0 = 5 ∧
    (sectionZB exZ exB (sectionMid (exZᵀ * exA) exShared)).mid 0 0 = 1 ∧
    (invertPseudoVarSched true (fun _ _ => 1) id exA exB exZ (exZᵀ * exA)
      exShared).toOption.map (fun V => (V 0 0, V 0 1, V 1 0, V 1 1))
        = some (3 / 5, -2 / 5, -2 / 5, 3 / 5) ∧
    (invertPseudoVarSched false (fun _ _ => 1) id exA exB exZ (exZᵀ * exA)
      exShared).toOption.map (fun V => (V 0 0, V 0 1, V 1 0, V 1 1))
        = some (-1, -2, -2, -1) := by
  refine ⟨?_, ?_, ?_, ?_, ?_, ?_⟩ <;> decide!

/-- C1 at a failing input: `A = I₂`, `B = (2)`, `Z = (1, 1)ᵀ`, `ZtA = Zᵀ A`, the arrays
holding zeros before the sections run.  `A` and the middle matrix `I + ZtA * Z * B = (5)`
are invertible and the exact-inverse branch is taken.  With the sections in program order
the call returns a two-sided inverse of `A⁻¹ + Z * B * Zᵀ`.  With the second section run
before the first, `mid` is computed from the unwritten `ZB`, the call returns
`[[-1, -2], [-2, -1]]`, and that matrix is an inverse of `A⁻¹ + Z * B * Zᵀ` on neither
side, nor the Woodbury expression. -/
theorem invertPseudoVar_schedule_dependent :
    exA.det ≠ 0 ∧ (1 + exZᵀ * exA * exZ * exB).det ≠ 0 ∧
    ¬ ((fun (_ : ℕ) (_ : Matrix (Fin 1) (Fin 1) ℚ) => (1 : ℚ)) 1
        (1 + exZᵀ * exA * exZ * exB) < 1e-12) ∧
    (∃ V, invertPseudoVarSched true (fun _ _ => 1) id exA exB exZ (exZᵀ * exA) exShared
        = .ok V ∧
      V * (exA⁻¹ + exZ * exB * exZᵀ) = 1 ∧ (exA⁻¹ + exZ * exB * exZᵀ) * V = 1) ∧
    (∃ V, invertPseudoVarSched false (fun _ _ => 1) id exA exB exZ (exZᵀ * exA) exShared
        = .ok V ∧
      V 0 0 = -1 ∧ V 0 1 = -2 ∧ V 1 0 = -2 ∧ V 1 1 = -1 ∧
      V * (exA⁻¹ + exZ * exB * exZᵀ) ≠ 1 ∧ (exA⁻¹ + exZ * exB * exZᵀ) * V ≠ 1 ∧
      V ≠ exA - exA * exZ * exB * (1 + exZᵀ * exA * exZ * exB)⁻¹ * (exZᵀ * exA)) := by
  have hA : exA.det ≠ 0 := by simp [exA]
  have hmid : (1 + exZᵀ * exA * exZ * exB).det ≠ 0 := by
    simp [exA, exB, exZ, Matrix.det_fin_one, Matrix.mul_apply, Fin.sum_univ_two]; norm_num
  have hbr : ¬ ((fun (_ : ℕ) (_ : Matrix (Fin 1) (Fin 1) ℚ) => (1 : ℚ)) 1
      (1 + exZᵀ * exA * exZ * exB) < 1e-12) := by norm_num
  obtain ⟨W, hW, hWeq, hWl, hWr⟩ :=
    invertPseudoVarSched_woodbury (fun _ _ => 1) id exA exB exZ exShared hA hmid hbr
  have hent : (invertPseudoVarSched false (fun _ _ => 1) id exA exB exZ (exZᵀ * exA)
      exShared).toOption.map (fun V => (V 0 0, V 0 1, V 1 0, V 1 1))
        = some (-1, -2, -2, -1) := by decide!
  cases h : invertPseudoVarSched false (fun _ _ => 1) id exA exB exZ (exZᵀ * exA) exShared with
  | error e => rw [h] at hent; cases hent
  | ok V =>
    rw [h] at hent
    simp only [Except.toOption, Option.map_some', Option.some.injEq, Prod.mk.injEq] at hent
    obtain ⟨h00, h01, h10, h11⟩ := hent
    have hne : V * (exA⁻¹ + exZ * exB * exZᵀ) ≠ 1 := by
      intro hc
      have h2 := congrFun (congrFun hc 0) 0
      rw [Matrix.mul_apply, Fin.sum_univ_two, h00, h01] at h2
      simp [exA, exB, exZ, Matrix.mul_apply] at h2
      norm_num at h2
    refine ⟨hA, hmid, hbr, ⟨W, hW, hWl, hWr⟩, ⟨V, rfl, h00, h01, h10, h11, hne, ?_, ?_⟩⟩
    · intro hc
      exact hne (Matrix.mul_eq_one_comm.mp hc)
    · intro hc
      apply hne
      rw [hc, ← hWeq]
      exact hWl

end MiloR
